import Mathlib

/-!
# TriCRF: the linear-chain CRF engine of `src/CRF.cpp`

A shallow embedding of the inference routines of `CRF.cpp` (`forward`, `backward`,
`getPartitionZ`, `calculateProb`, `viterbiSearch` and the scale bookkeeping of
`estimateWithLBFGS`), of the factor computer, of one pass of the two trainers with their
convergence test, of the readers `readTrainData` and `readDevData`, of the header loop of
`loadModel` and of the scalar `eval`, together with theorems about them.

Conventions.
* `long double` / `double` values are elements of an arbitrary linearly ordered
  field `α`; the definitions run on `ℚ` and specialise to `ℝ`.
* The conversion of a `long double` to `double` that `viterbiSearch` applies to every
  candidate (`double val = ...`) is the argument `toDouble` of the decoder; `binary64` is
  this conversion on `ℚ`.
* The flat buffers `m_R`, `m_M2`, `m_Alpha`, `m_Beta` indexed through
  `MAT2(i, x) = m_state_size * i + x` are read as two-index functions
  (`x < m_state_size` at every access, so `MAT2` is injective there).
* `seqLen` is `seq.size()`, so `m_seq_size = seqLen + 1`, the index
  `m_seq_size - 1` is `seqLen` and `m_seq_size - 2` is `seqLen - 1`.
-/

namespace TriCRF

/-- The member `m_default_oid`; both constructors set it to `0`. -/
def m_default_oid : Nat := 0

/-- The members of `CRF` the inference routines read. `m_SelectedStateList1` and
`m_SelectedStateList2` are the neighbour lists of the parameter table (built by
`Param::makeStateIndex`, which is not part of `CRF.cpp`); they are inputs here. -/
structure CRF (α : Type) where
  /-- Number of labels `m_state_size`. -/
  m_state_size : Nat
  /-- Length `seq.size()` of the current sequence; `m_seq_size = seqLen + 1`. -/
  seqLen : Nat
  /-- Observation potentials, `m_R i y` is `m_R[MAT2(i, y)]`. -/
  m_R : Nat → Nat → α
  /-- Transition potentials, `m_M2 k j` is `m_M2[MAT2(k, j)]`. -/
  m_M2 : Nat → Nat → α
  /-- Predecessor lists used by `forward`. -/
  m_SelectedStateList1 : Nat → List Nat
  /-- Successor lists used by `backward`. -/
  m_SelectedStateList2 : Nat → List Nat

section Engine

variable {α : Type} [LinearOrderedField α]

/-- The member `m_seq_size` as set by `calculateFactors`: `seq.size() + 1`. -/
def CRF.m_seq_size (c : CRF α) : Nat := c.seqLen + 1

/-- The accumulation loop `for (j = 0; j < n; j++) sum += f j` started at `0`. -/
def sumLoop (n : Nat) (f : Nat → α) : α :=
  (List.range n).foldl (fun s j => s + f j) 0

/-- The two loops that close every row of `forward` and `backward`: the row sum is
accumulated, every entry is divided by it, and the sum is stored as the scale. -/
def normalizeRow (n : Nat) (raw : Nat → α) : List α × α :=
  let sum := sumLoop n raw
  ((List.range n).map (fun j => raw j / sum), sum)

/-! ## forward -/

/-- Row 0 of `forward` before rescaling: `m_Alpha[MAT2(0, j)] += m_R[MAT2(0, j)] * 1.0`
on the zero-filled buffer. -/
def alphaRaw0 (c : CRF α) (j : Nat) : α := 0 + c.m_R 0 j * 1

/-- Entry `(i, j)` of `forward` before rescaling, `i ≥ 1`: the loop over
`m_SelectedStateList1[j]` followed by `m_Alpha[index] += m_R[index]`. -/
def alphaRawStep (c : CRF α) (prev : List α) (i j : Nat) : α :=
  (c.m_SelectedStateList1 j).foldl
    (fun acc k => acc + prev.getD k 0 * c.m_R i j * (c.m_M2 k j - 1)) 0 + c.m_R i j

/-- Row `i` of `forward` for a real position `i`: the rescaled alpha row and `scale[i]`. -/
def forwardRow (c : CRF α) : Nat → List α × α
  | 0 => normalizeRow c.m_state_size (alphaRaw0 c)
  | i + 1 => normalizeRow c.m_state_size (alphaRawStep c (forwardRow c i).1 (i + 1))

/-- The buffer `m_Alpha` after `forward()`. Row `seqLen` is the virtual terminal row:
only its `m_default_oid` entry is written, with the sum of row `seqLen - 1`. -/
def m_Alpha (c : CRF α) (i j : Nat) : α :=
  if i < c.seqLen then (forwardRow c i).1.getD j 0
  else if i = c.seqLen ∧ j = m_default_oid then
    sumLoop c.m_state_size (fun k => (forwardRow c (c.seqLen - 1)).1.getD k 0)
  else 0

/-- The vector `scale` after `forward()`; `scale[m_seq_size-1]` is the terminal alpha. -/
def scale (c : CRF α) (i : Nat) : α :=
  if i < c.seqLen then (forwardRow c i).2
  else if i = c.seqLen then m_Alpha c c.seqLen m_default_oid
  else 1

/-- The function `getPartitionZ`: `m_Alpha[MAT2(m_seq_size-1, m_default_oid)]`. -/
def getPartitionZ (c : CRF α) : α := m_Alpha c (c.m_seq_size - 1) m_default_oid

/-! ## backward -/

/-- Entry `(i-1, j)` of `backward` before rescaling, computed from row `i`: the loop over
`m_SelectedStateList2[j]` followed by `+= constant`, where `constant` is the sum of
`m_R[i,k] * m_Beta[i,k]` over all `k`. -/
def betaRawStep (c : CRF α) (next : List α) (i j : Nat) : α :=
  (c.m_SelectedStateList2 j).foldl
    (fun acc k => acc + c.m_R i k * (c.m_M2 j k - 1) * next.getD k 0) 0
    + sumLoop c.m_state_size (fun k => c.m_R i k * next.getD k 0)

/-- Row of `backward` at distance `d` from the last real position, that is the row of
position `seqLen - 1 - d`, with its `scale2` entry. Distance `0` is the row
`m_seq_size - 2`, every entry `0 + 1.0` before rescaling. -/
def backwardRow (c : CRF α) : Nat → List α × α
  | 0 => normalizeRow c.m_state_size (fun _ => 0 + 1)
  | d + 1 =>
      normalizeRow c.m_state_size (betaRawStep c (backwardRow c d).1 (c.seqLen - 1 - d))

/-- The buffer `m_Beta` after `backward()`. -/
def m_Beta (c : CRF α) (i j : Nat) : α :=
  if i < c.seqLen then (backwardRow c (c.seqLen - 1 - i)).1.getD j 0
  else if i = c.seqLen ∧ j = m_default_oid then 1
  else 0

/-- The vector `scale2` after `backward()`; the terminal entry keeps its fill value `1`. -/
def scale2 (c : CRF α) (i : Nat) : α :=
  if i < c.seqLen then (backwardRow c (c.seqLen - 1 - i)).2 else 1

/-! ## scale products of `estimateWithLBFGS` -/

/-- The loop `for (a = m-1; a >= 0; a--) { prod *= sc[a]; out.push_back(prod); }` after
its first `n` iterations: the running product and the values pushed so far. -/
def prodLoop (sc : Nat → α) (m : Nat) : Nat → α × List α
  | 0 => (1, [])
  | n + 1 =>
      let st := prodLoop sc m n
      (st.1 * sc (m - 1 - n), st.2 ++ [st.1 * sc (m - 1 - n)])

/-- The vector `prod_scale` (after `reverse`). -/
def prod_scale (c : CRF α) : List α :=
  (prodLoop (scale c) c.m_seq_size c.m_seq_size).2.reverse

/-- The vector `prod_scale2` (after `reverse`). -/
def prod_scale2 (c : CRF α) : List α :=
  (prodLoop (scale2 c) c.m_seq_size c.m_seq_size).2.reverse

/-- The local `scale_factor = prod_scale2[i] / prod_scale[i+1]`. -/
def scale_factor (c : CRF α) (i : Nat) : α :=
  (prod_scale2 c).getD i 0 / (prod_scale c).getD (i + 1) 0

/-- The local `scale_factor2 = prod_scale2[i] / prod_scale[i]`. -/
def scale_factor2 (c : CRF α) (i : Nat) : α :=
  (prod_scale2 c).getD i 0 / (prod_scale c).getD i 0

/-- The node posterior `prob` of the observation-gradient loop:
`m_Alpha[i,y] * m_Beta[i,y] / zval`, then `prob *= scale_factor`. -/
def nodeProb (c : CRF α) (i y : Nat) : α :=
  m_Alpha c i y * m_Beta c i y / getPartitionZ c * scale_factor c i

/-- The edge posterior `prob` of the transition-gradient loop:
`a_y * b_y * m_yy / zval`, then `prob *= scale_factor2`. -/
def edgeProb (c : CRF α) (i y1 y2 : Nat) : α :=
  m_Alpha c (i - 1) y1 * m_Beta c i y2 * (c.m_R i y2 * c.m_M2 y1 y2) / getPartitionZ c
    * scale_factor2 c i

/-! ## calculateProb -/

/-- One iteration of the loop of `calculateProb`; the state is `(seq_prob, tran, prev_y)`
and `label i` is `seq[i].label`. -/
def calculateProbStep (c : CRF α) (label : Nat → Nat) (st : α × α × Nat) (i : Nat) :
    α × α × Nat :=
  if i < c.m_seq_size - 1 then
    let y := label i
    let tran := if i > 0 then c.m_M2 st.2.2 y else st.2.1
    (st.1 * (c.m_R i y * tran) / scale c i, tran, y)
  else
    (st.1 / scale c i, st.2.1, m_default_oid)

/-- The function `calculateProb` for the label sequence `ys` (`seq[i].label = ys[i]`). -/
def calculateProb (c : CRF α) (ys : List Nat) : α :=
  let z := getPartitionZ c
  let st := (List.range c.m_seq_size).foldl (calculateProbStep c (fun i => ys.getD i 0))
    (1, 1, m_default_oid)
  st.1 / z

/-! ## viterbiSearch -/

/-- The maximisation loop of `viterbiSearch`: `max = -10000.0; max_k = 0;` then for
`k = 0 .. n-1`, `if (val > max) { max = val; max_k = k; }`. Returns `(max, max_k)`. -/
def maxLoop (n : Nat) (val : Nat → α) : α × Nat :=
  (List.range n).foldl (fun (st : α × Nat) k => if val k > st.1 then (val k, k) else st)
    (-10000, 0)

/-- Rows `delta[i]` and `psi[i]` pushed by the main loop of `viterbiSearch`
(`i < m_seq_size - 1`). For `i ≥ 1` every candidate is stored in
`double val = delta[i-1][k] * m_M2[MAT2(k,j)]` before it is compared: the argument
`toDouble` is this conversion of the `long double` product to `double`. Row 0 and the
product `max * m_R[MAT2(i, j)]` stay in `long double`. The bookkeeping of `maxj`, `max_j`,
`prev_maxj`, `prev_max_j` is never read afterwards and is left out. -/
def viterbiRow (toDouble : α → α) (c : CRF α) : Nat → List α × List Nat
  | 0 =>
      ((List.range c.m_state_size).map (fun j => 1 * c.m_R 0 j),
       (List.range c.m_state_size).map (fun _ => m_default_oid))
  | i + 1 =>
      let prev := (viterbiRow toDouble c i).1
      let best := fun j =>
        maxLoop c.m_state_size (fun k => toDouble (prev.getD k 0 * c.m_M2 k j))
      ((List.range c.m_state_size).map (fun j => (best j).1 * c.m_R (i + 1) j),
       (List.range c.m_state_size).map (fun j => (best j).2))

/-- The "last path" loop: the maximum of `double val = delta[m_seq_size-2][k]` and its
first index. -/
def viterbiLast (toDouble : α → α) (c : CRF α) : α × Nat :=
  maxLoop c.m_state_size
    (fun k => toDouble ((viterbiRow toDouble c (c.seqLen - 1)).1.getD k 0))

/-- The table `delta`; the last row is `-10000.0` except at `m_default_oid`. -/
def delta (toDouble : α → α) (c : CRF α) (i j : Nat) : α :=
  if i < c.seqLen then (viterbiRow toDouble c i).1.getD j 0
  else if j = m_default_oid then (viterbiLast toDouble c).1
  else -10000

/-- The table `psi`; the last row is `0` except at `m_default_oid`. -/
def psi (toDouble : α → α) (c : CRF α) (i j : Nat) : Nat :=
  if i < c.seqLen then (viterbiRow toDouble c i).2.getD j 0
  else if j = m_default_oid then (viterbiLast toDouble c).2
  else 0

/-- The back-tracking loop `for (i = n; i >= 1; i--) { y = psi[i][prev_y]; push y; prev_y = y }`:
the labels in the order they are pushed. -/
def backtrack (toDouble : α → α) (c : CRF α) : Nat → Nat → List Nat
  | 0, _ => []
  | i + 1, prev_y =>
      psi toDouble c (i + 1) prev_y :: backtrack toDouble c i (psi toDouble c (i + 1) prev_y)

/-- The function `viterbiSearch`: the reversed back-tracked labels and the out-parameter
`prob = delta[m_seq_size-1][m_default_oid]`. -/
def viterbiSearch (toDouble : α → α) (c : CRF α) : List Nat × α :=
  ((backtrack toDouble c (c.m_seq_size - 1) m_default_oid).reverse,
   delta toDouble c (c.m_seq_size - 1) m_default_oid)

/-- The conversion to `double` changes none of the candidates that the run of
`viterbiSearch` on `c` stores in `val`. -/
structure NarrowingExact (toDouble : α → α) (c : CRF α) : Prop where
  step : ∀ i k j, i + 1 < c.seqLen → k < c.m_state_size → j < c.m_state_size →
    toDouble ((viterbiRow toDouble c i).1.getD k 0 * c.m_M2 k j)
      = (viterbiRow toDouble c i).1.getD k 0 * c.m_M2 k j
  last : ∀ k, k < c.m_state_size →
    toDouble ((viterbiRow toDouble c (c.seqLen - 1)).1.getD k 0)
      = (viterbiRow toDouble c (c.seqLen - 1)).1.getD k 0

/-! ## The conversion to double -/

/-- Rounding of a rational to the nearest integer, ties to the even one. -/
def roundHalfEven (q : ℚ) : ℤ :=
  if Int.fract q < 1 / 2 then ⌊q⌋
  else if 1 / 2 < Int.fract q then ⌊q⌋ + 1
  else if ⌊q⌋ % 2 = 0 then ⌊q⌋ else ⌊q⌋ + 1

/-- The conversion of a value to `double` (IEEE 754 binary64, round to nearest, ties to
even): the value is rounded to a multiple of `2^e`, where `e` leaves 53 significant bits
and is at least `-1074`, the exponent of the subnormal numbers. Values that round to
`2^1024` or more become infinite in the code; for them the function keeps the rounded
rational, and nothing below uses it there. -/
def binary64 (x : ℚ) : ℚ :=
  (roundHalfEven (x / 2 ^ (max (Int.log 2 |x| - 52) (-1074))) : ℚ)
    * 2 ^ (max (Int.log 2 |x| - 52) (-1074))

/-! ## viterbiSearch in exact arithmetic -/

/-- Reference recursion of the proofs: the rows of `viterbiSearch` computed without the
conversion to `double`. -/
def viterbiRowExact (c : CRF α) : Nat → List α × List Nat
  | 0 =>
      ((List.range c.m_state_size).map (fun j => 1 * c.m_R 0 j),
       (List.range c.m_state_size).map (fun _ => m_default_oid))
  | i + 1 =>
      let prev := (viterbiRowExact c i).1
      let best := fun j => maxLoop c.m_state_size (fun k => prev.getD k 0 * c.m_M2 k j)
      ((List.range c.m_state_size).map (fun j => (best j).1 * c.m_R (i + 1) j),
       (List.range c.m_state_size).map (fun j => (best j).2))

/-- Reference recursion of the proofs: the "last path" loop without the conversion. -/
def viterbiLastExact (c : CRF α) : α × Nat :=
  maxLoop c.m_state_size (fun k => (viterbiRowExact c (c.seqLen - 1)).1.getD k 0)

/-- Reference recursion of the proofs: the table `delta` without the conversion. -/
def deltaExact (c : CRF α) (i j : Nat) : α :=
  if i < c.seqLen then (viterbiRowExact c i).1.getD j 0
  else if j = m_default_oid then (viterbiLastExact c).1
  else -10000

/-- Reference recursion of the proofs: the table `psi` without the conversion. -/
def psiExact (c : CRF α) (i j : Nat) : Nat :=
  if i < c.seqLen then (viterbiRowExact c i).2.getD j 0
  else if j = m_default_oid then (viterbiLastExact c).2
  else 0

/-- Reference recursion of the proofs: back-tracking through `psiExact`. -/
def backtrackExact (c : CRF α) : Nat → Nat → List Nat
  | 0, _ => []
  | i + 1, prev_y => psiExact c (i + 1) prev_y :: backtrackExact c i (psiExact c (i + 1) prev_y)

/-- Reference recursion of the proofs: `viterbiSearch` without the conversion. -/
def viterbiSearchExact (c : CRF α) : List Nat × α :=
  ((backtrackExact c (c.m_seq_size - 1) m_default_oid).reverse,
   deltaExact c (c.m_seq_size - 1) m_default_oid)

/-! ## Reference notions of the specification -/

/-- Unnormalised score of a label sequence `y` of length `T`:
`∏_{i<T} R[i,y_i] * ∏_{1≤i<T} M2[y_{i-1},y_i]`. -/
def score (c : CRF α) (y : List Nat) : α :=
  (∏ i in Finset.range y.length, c.m_R i (y.getD i 0)) *
    (∏ i in Finset.Ico 1 y.length, c.m_M2 (y.getD (i - 1) 0) (y.getD i 0))

/-- All label sequences of length `T` over the labels `0 .. n-1`. -/
def allSeqs (n : Nat) : Nat → List (List Nat)
  | 0 => [[]]
  | T + 1 => (List.range n).flatMap (fun y => (allSeqs n T).map (fun ys => y :: ys))

/-- Sum of `f` over all label sequences in `Y^T` of the engine `c`. -/
def sumSeqs (c : CRF α) (f : List Nat → α) : α :=
  ((allSeqs c.m_state_size c.seqLen).map f).sum

/-- The true partition function: the sum of `score` over all label sequences. -/
def partition (c : CRF α) : α := sumSeqs c (score c)

/-- Sum of the scores of the label sequences in `Y^T` that carry the label `y` at
position `i`. -/
def marginalSum (c : CRF α) (i y : Nat) : α :=
  (((allSeqs c.m_state_size c.seqLen).filter (fun ys => decide (ys.getD i 0 = y))).map
    (score c)).sum

/-- The index `k` is the smallest label id below `n` that maximises `val`. -/
def IsFirstArgmax (n : Nat) (val : Nat → α) (k : Nat) : Prop :=
  k < n ∧ (∀ k', k' < n → val k' ≤ val k) ∧ (∀ k', k' < k → val k' < val k)

/-- Strict positivity of the potentials `R` and `M2`. -/
structure Positive (c : CRF α) : Prop where
  R_pos : ∀ i y, 0 < c.m_R i y
  M2_pos : ∀ k j, 0 < c.m_M2 k j

/-- The predecessor lists are as `forward` needs them: every list holds labels, without
repetition, and every transition into `j` whose potential differs from `1` is listed. -/
structure PredOK (c : CRF α) : Prop where
  pred_lt : ∀ j k, k ∈ c.m_SelectedStateList1 j → k < c.m_state_size
  pred_nodup : ∀ j, (c.m_SelectedStateList1 j).Nodup
  pred_cover : ∀ j k, k < c.m_state_size → c.m_M2 k j ≠ 1 → k ∈ c.m_SelectedStateList1 j

/-- The successor lists are as `backward` needs them: every list holds labels, without
repetition, and every transition out of `j` whose potential differs from `1` is listed. -/
structure SuccOK (c : CRF α) : Prop where
  succ_lt : ∀ j k, k ∈ c.m_SelectedStateList2 j → k < c.m_state_size
  succ_nodup : ∀ j, (c.m_SelectedStateList2 j).Nodup
  succ_cover : ∀ j k, k < c.m_state_size → c.m_M2 j k ≠ 1 → k ∈ c.m_SelectedStateList2 j

/-- Both neighbour lists are as the engine needs them. -/
structure NeighborsOK (c : CRF α) : Prop where
  pred : PredOK c
  succ : SuccOK c

/-! ## Auxiliary notions of the proofs: unscaled recursions -/

/-- Score of the first `i + 1` labels of the labelling `f` (position `t` has label `f t`):
the product of `R[t, f t]` for `t ≤ i` and of `M2[f (t-1), f t]` for `1 ≤ t ≤ i`. -/
def prefixScore (c : CRF α) (f : Nat → Nat) : Nat → α
  | 0 => c.m_R 0 (f 0)
  | i + 1 => prefixScore c f i * c.m_M2 (f i) (f (i + 1)) * c.m_R (i + 1) (f (i + 1))

/-- Score of the labels `ys` placed at positions `s, s+1, ..` after the label `p`:
each label contributes its transition from the previous label and its observation
potential. -/
def sufScore (c : CRF α) : Nat → Nat → List Nat → α
  | _, _, [] => 1
  | s, p, y :: ys => c.m_M2 p y * c.m_R s y * sufScore c (s + 1) y ys

/-- The unscaled forward value of position `i` and label `j`: the sum of the prefix scores
of all labellings of positions `0 .. i` that end in `j`, by the dense recursion. -/
def fwdTrue (c : CRF α) : Nat → Nat → α
  | 0, j => c.m_R 0 j
  | i + 1, j =>
      c.m_R (i + 1) j * ∑ k in Finset.range c.m_state_size, fwdTrue c i k * c.m_M2 k j

/-- The unscaled backward value at distance `d` from the last real position
(position `seqLen - 1 - d`) and label `j`, by the dense recursion. -/
def bwdTrue (c : CRF α) : Nat → Nat → α
  | 0, _ => 1
  | d + 1, j =>
      ∑ k in Finset.range c.m_state_size,
        c.m_M2 j k * c.m_R (c.seqLen - 1 - d) k * bwdTrue c d k

/-- Product of the forward scales of positions `0 .. i`. -/
def scaleUpTo (c : CRF α) (i : Nat) : α := ∏ a in Finset.range (i + 1), (forwardRow c a).2

/-- Product of the backward scales of the rows at distance `0 .. d` from the last position. -/
def scale2UpTo (c : CRF α) (d : Nat) : α := ∏ a in Finset.range (d + 1), (backwardRow c a).2

/-- The engine `c` with the observation potential of position `i` set to `0` on every
label other than `y`; its label sequences with a non-zero score are those of `c` that
carry `y` at position `i`. -/
def pin (c : CRF α) (i y : Nat) : CRF α :=
  { c with m_R := fun t j => if t = i ∧ j ≠ y then 0 else c.m_R t j }

/-! ## Concrete engines -/

/-- The scenario "transition dominates observations": labels `A = 0`, `B = 1`, a sequence
of length 3, every observation potential equal to `r`, every transition potential `1`
except `M2[A,B] = e`. The neighbour lists name the single bound transition. -/
def transitionDominates (r e : α) : CRF α where
  m_state_size := 2
  seqLen := 3
  m_R := fun _ _ => r
  m_M2 := fun k j => if k = 0 ∧ j = 1 then e else 1
  m_SelectedStateList1 := fun j => if j = 1 then [0] else []
  m_SelectedStateList2 := fun k => if k = 0 then [1] else []

/-- An engine whose candidates underflow in `double`: labels `0`, `1`, a sequence of
length 2, `R[0,0] = 2^-600`, `R[0,1] = 2^-599`, `R[1,·] = 1` and every transition
potential `2^-600`. -/
def underflowing : CRF ℚ where
  m_state_size := 2
  seqLen := 2
  m_R := fun i j => if i = 0 then (if j = 0 then (1 / 2) ^ 600 else (1 / 2) ^ 599) else 1
  m_M2 := fun _ _ => (1 / 2) ^ 600
  m_SelectedStateList1 := fun _ => [0, 1]
  m_SelectedStateList2 := fun _ => [0, 1]

/-- An engine with a single label and a sequence of length 1 whose only observation
potential is `r`. -/
def oneLabel (r : α) : CRF α where
  m_state_size := 1
  seqLen := 1
  m_R := fun _ _ => r
  m_M2 := fun _ _ => 1
  m_SelectedStateList1 := fun _ => []
  m_SelectedStateList2 := fun _ => []

/-! ## The parameter table, events and the factor computer -/

/-- The macro `MAT2(I, X) = (m_state_size * (I)) + X`. -/
def MAT2 (m_state_size I X : Nat) : Nat := m_state_size * I + X

/-- One position of a sequence (`Event`): the label id, the feature value of the label
token and the sparse observation vector of `(obs_id, value)` pairs. -/
structure Event (α : Type) where
  /-- Label id `label`. -/
  label : Nat
  /-- Feature value `fval` of the event. -/
  fval : α
  /-- Observation vector `obs`. -/
  obs : List (Nat × α)

/-- One record of `m_StateIndex` (`StateParam`): a transition `y1 → y2`, its weight index
`fid` and its value `fval`. -/
structure StateParam (α : Type) where
  /-- Source label. -/
  y1 : Nat
  /-- Target label. -/
  y2 : Nat
  /-- Weight index. -/
  fid : Nat
  /-- Feature value. -/
  fval : α

/-- The members of the parameter table `m_Param` that `CRF.cpp` reads. The class `Param` is
not part of `CRF.cpp`; its tables are inputs here. Vectors are read as functions of their
index. -/
structure Param (α : Type) where
  /-- The weight vector `theta = m_Param.getWeight()`. -/
  getWeight : Nat → α
  /-- The table `m_ParamIndex`: observation id to its `(label, weight index)` pairs. -/
  m_ParamIndex : Nat → List (Nat × Nat)
  /-- The list `m_StateIndex` of transition records. -/
  m_StateIndex : List (StateParam α)
  /-- Predecessor lists. -/
  m_SelectedStateList1 : Nat → List Nat
  /-- Successor lists. -/
  m_SelectedStateList2 : Nat → List Nat
  /-- Number of labels `sizeStateVec()`. -/
  sizeStateVec : Nat
  /-- Number of weights `size()`. -/
  size : Nat

/-- The update `buf[idx] *= v` of a buffer read as a function of its flat index. -/
def mulAt (buf : Nat → α) (idx : Nat) (v : α) : Nat → α :=
  fun t => if t = idx then buf t * v else buf t

/-- The function `calculateEdge`: `m_M2` is filled with `1.0`, then every record of
`m_StateIndex` multiplies `m_M2[MAT2(y1, y2)]` by `exp(theta[fid] * fval)`. The exponential
is the argument `exp`. -/
def calculateEdge (exp : α → α) (P : Param α) (m_state_size : Nat) : Nat → α :=
  P.m_StateIndex.foldl
    (fun M2 it => mulAt M2 (MAT2 m_state_size it.y1 it.y2) (exp (P.getWeight it.fid * it.fval)))
    (fun _ => 1)

/-- The two inner loops of `calculateFactors` at position `i`: for every observation
`(obs_id, value)` and every `(label, wi)` of `m_ParamIndex[obs_id]`,
`m_R[MAT2(i, label)] *= exp(theta[wi] * value)`. -/
def calculateFactorsAt (exp : α → α) (P : Param α) (m_state_size i : Nat)
    (obs : List (Nat × α)) (R : Nat → α) : Nat → α :=
  obs.foldl
    (fun R ob => (P.m_ParamIndex ob.1).foldl
      (fun R pj => mulAt R (MAT2 m_state_size i pj.1) (exp (P.getWeight pj.2 * ob.2))) R)
    R

/-- The position loop of `calculateFactors` from position `i` on, over the remaining
events. -/
def calculateFactorsFrom (exp : α → α) (P : Param α) (m_state_size : Nat) :
    Nat → List (Event α) → (Nat → α) → (Nat → α)
  | _, [], R => R
  | i, ev :: rest, R =>
      calculateFactorsFrom exp P m_state_size (i + 1) rest
        (calculateFactorsAt exp P m_state_size i ev.obs R)

/-- The function `calculateFactors`: `m_R` is filled with `1.0` (all `m_seq_size` rows),
then the positions `0 .. seq.size()-1` are processed in order. -/
def calculateFactors (exp : α → α) (P : Param α) (m_state_size : Nat) (seq : List (Event α)) :
    Nat → α :=
  calculateFactorsFrom exp P m_state_size 0 seq (fun _ => 1)

/-- Sum of `theta[fid] * fval` over the records of `m_StateIndex` that bind `(y1, y2)`. -/
def edgeScore (P : Param α) (y1 y2 : Nat) : α :=
  ((P.m_StateIndex.filter (fun it => decide (it.y1 = y1 ∧ it.y2 = y2))).map
    (fun it => P.getWeight it.fid * it.fval)).sum

/-- Sum of `theta[wi] * value` over every observation `(obs_id, value)` of the list `obs`
and every `(y, wi)` in `m_ParamIndex[obs_id]`. -/
def obsScore (P : Param α) (obs : List (Nat × α)) (y : Nat) : α :=
  (obs.map (fun ob =>
    (((P.m_ParamIndex ob.1).filter (fun pj => decide (pj.1 = y))).map
      (fun pj => P.getWeight pj.2 * ob.2)).sum)).sum

/-- What the proofs use of the exponential function. -/
structure IsExp (exp : α → α) : Prop where
  zero : exp 0 = 1
  add : ∀ a b, exp (a + b) = exp a * exp b
  pos : ∀ a, 0 < exp a

/-- Every label id stored in `m_StateIndex` is a label. -/
def StateIndexOK (P : Param α) (m_state_size : Nat) : Prop :=
  ∀ it ∈ P.m_StateIndex, it.y1 < m_state_size ∧ it.y2 < m_state_size

/-- Every label id that `m_ParamIndex` binds to an observation of `obs` is a label. -/
def ObsOK (P : Param α) (m_state_size : Nat) (obs : List (Nat × α)) : Prop :=
  ∀ ob ∈ obs, ∀ pj ∈ P.m_ParamIndex ob.1, pj.1 < m_state_size

/-- A small parameter table: labels `A = 0`, `B = 1`, one observation (id `0`) bound to
label `A` with weight index `0`, one transition `A → B` with weight index `1` and value
`1`, and every weight equal to `w`. -/
def demoParam (w : α) : Param α where
  getWeight := fun _ => w
  m_ParamIndex := fun o => if o = 0 then [(0, 0)] else []
  m_StateIndex := [⟨0, 1, 1, 1⟩]
  m_SelectedStateList1 := fun j => if j = 1 then [0] else []
  m_SelectedStateList2 := fun k => if k = 0 then [1] else []
  sizeStateVec := 2
  size := 2

/-! ## Gradient buffer, evaluator calls and regularization -/

/-- The update `buf[idx] += v` of a buffer read as a function of its index. -/
def addAt (buf : Nat → α) (idx : Nat) (v : α) : Nat → α :=
  fun t => if t = idx then buf t + v else buf t

/-- The assignment `buf[idx] = v` of a buffer read as a function of its index. -/
def setAt (buf : Nat → α) (idx : Nat) (v : α) : Nat → α :=
  fun t => if t = idx then v else buf t

/-- The calls `CRF.cpp` makes on its `Evaluator` (a class that is not part of `CRF.cpp`),
recorded in call order: the arguments of `addLikelihood`, of `append` and of
`subLoglikelihood`. -/
structure Evaluator (α : Type) where
  /-- Arguments of the `addLikelihood` calls. -/
  likelihoods : List α
  /-- Arguments `(reference, hypothesis)` of the `append` calls. -/
  appended : List (List Nat × List Nat)
  /-- Arguments of the `subLoglikelihood` calls. -/
  penalties : List α

/-- The call `eval.addLikelihood(p)`. -/
def Evaluator.addLikelihood (e : Evaluator α) (p : α) : Evaluator α :=
  { e with likelihoods := e.likelihoods ++ [p] }

/-- The call `eval.append(reference, hypothesis)`. -/
def Evaluator.append (e : Evaluator α) (reference hypothesis : List Nat) : Evaluator α :=
  { e with appended := e.appended ++ [(reference, hypothesis)] }

/-- The call `eval.subLoglikelihood(x)`. -/
def Evaluator.subLoglikelihood (e : Evaluator α) (x : α) : Evaluator α :=
  { e with penalties := e.penalties ++ [x] }

/-- Modelled from the spec: the effect of the recorded `subLoglikelihood` calls on a
log-likelihood value `ll` of the evaluator (`Evaluator::subLoglikelihood` is not part of
`CRF.cpp`); each call subtracts its argument. -/
def Evaluator.penalized (e : Evaluator α) (ll : α) : α :=
  e.penalties.foldl (fun l x => l - x) ll

/-- The block "applying regularization" of `estimateWithLBFGS` and `estimateWithPL` (the
two blocks are the same text). The state is the gradient vector and the evaluator; the
counter `n_nonzero` is only reported and is left out. -/
def applyRegularization (sigma : α) (L1 : Bool) (P : Param α)
    (st : (Nat → α) × Evaluator α) : (Nat → α) × Evaluator α :=
  if sigma ≠ 0 then
    if L1 then
      (List.range P.size).foldl
        (fun st i => (st.1, st.2.subLoglikelihood (|P.getWeight i / sigma|))) st
    else
      (List.range P.size).foldl
        (fun st i => (addAt st.1 i (P.getWeight i / sigma),
          st.2.subLoglikelihood (P.getWeight i * P.getWeight i / (2 * sigma)))) st
  else st

/-! ## estimateWithPL: one training pass -/

/-- The vector `q` of `estimateWithPL` after its two accumulation loops ("w * f" and
"y_{t-1} state"): starting from `0.0`, `q[label] += theta[wi] * value` for every
observation of the event and every pair of `m_ParamIndex`, then
`q[y2] += theta[fid] * fval` for every record of `m_StateIndex` with `y1 == prev_outcome`. -/
def plScores (P : Param α) (ev : Event α) (prev_outcome : Nat) : Nat → α :=
  P.m_StateIndex.foldl
    (fun q it =>
      if it.y1 = prev_outcome then addAt q it.y2 (P.getWeight it.fid * it.fval) else q)
    (ev.obs.foldl
      (fun q ob => (P.m_ParamIndex ob.1).foldl
        (fun q pj => addAt q pj.1 (P.getWeight pj.2 * ob.2)) q)
      (fun _ => 0))

/-- The first "normalize" loop of `estimateWithPL`: for `j = 0 .. n-1`,
`q[j] = exp(q[j]); sum += q[j]; if (q[j] > max) { max = q[j]; max_outcome = j; }`.
The state is `(q, sum, max, max_outcome)`. -/
def plExpLoop (exp : α → α) (n : Nat) (q : Nat → α) : (Nat → α) × α × α × Nat :=
  (List.range n).foldl
    (fun (st : (Nat → α) × α × α × Nat) j =>
      if exp (st.1 j) > st.2.2.1 then
        (setAt st.1 j (exp (st.1 j)), st.2.1 + exp (st.1 j), exp (st.1 j), j)
      else
        (setAt st.1 j (exp (st.1 j)), st.2.1 + exp (st.1 j), st.2.2.1, st.2.2.2))
    (q, 0, 0, 0)

/-- The second "normalize" loop: `q[j] /= sum` for `j = 0 .. n-1`. -/
def plDivLoop (n : Nat) (sum : α) (q : Nat → α) : Nat → α :=
  (List.range n).foldl (fun q j => setAt q j (q j / sum)) q

/-- The normalized vector `q` of one position of `estimateWithPL`. -/
def plQ (exp : α → α) (P : Param α) (ev : Event α) (prev_outcome : Nat) : Nat → α :=
  plDivLoop P.sizeStateVec (plExpLoop exp P.sizeStateVec (plScores P ev prev_outcome)).2.1
    (plExpLoop exp P.sizeStateVec (plScores P ev prev_outcome)).1

/-- The label `max_outcome` of one position of `estimateWithPL`. -/
def plMaxOutcome (exp : α → α) (P : Param α) (ev : Event α) (prev_outcome : Nat) : Nat :=
  (plExpLoop exp P.sizeStateVec (plScores P ev prev_outcome)).2.2.2

/-- The two gradient loops of one position of `estimateWithPL`: the observation loop adds
`q[label] * value * count` to `gradient[wi]`; the transition loop assigns
`gradient[fid] = q[y2] * fval * count` for every record with `y1 == prev_outcome`. -/
def plGradient (P : Param α) (count : Nat) (prev_outcome : Nat) (q : Nat → α) (ev : Event α)
    (gradient : Nat → α) : Nat → α :=
  P.m_StateIndex.foldl
    (fun g it =>
      if it.y1 = prev_outcome then setAt g it.fid (q it.y2 * it.fval * (count : α)) else g)
    (ev.obs.foldl
      (fun g ob => (P.m_ParamIndex ob.1).foldl
        (fun g pj => addAt g pj.2 (q pj.1 * ob.2 * (count : α))) g)
      gradient)

/-- The loop state of one sequence of a training pass. -/
structure NodeState (α : Type) where
  /-- The gradient vector. -/
  gradient : Nat → α
  /-- The evaluator. -/
  eval : Evaluator α
  /-- The local `prev_outcome`. -/
  prev_outcome : Nat
  /-- The local `reference`. -/
  reference : List Nat
  /-- The local `hypothesis`. -/
  hypothesis : List Nat

/-- The body of the node loop of `estimateWithPL` for the event `ev`; `count` is the
multiplicity of the sequence (a whole number stored in a `double`). -/
def plNode (exp : α → α) (P : Param α) (count : Nat) (st : NodeState α) (ev : Event α) :
    NodeState α :=
  { gradient := plGradient P count st.prev_outcome (plQ exp P ev st.prev_outcome) ev st.gradient
    eval := (List.range count).foldl
      (fun e _ => e.addLikelihood (plQ exp P ev st.prev_outcome ev.label)) st.eval
    prev_outcome := ev.label
    reference := st.reference ++ [ev.label]
    hypothesis := st.hypothesis ++ [plMaxOutcome exp P ev st.prev_outcome] }

/-- The body of the training-set loop of `estimateWithPL` for one sequence and its count. -/
def plSequence (exp : α → α) (P : Param α) (st : (Nat → α) × Evaluator α)
    (sc : List (Event α) × Nat) : (Nat → α) × Evaluator α :=
  let r := sc.1.foldl (plNode exp P sc.2) ⟨st.1, st.2, m_default_oid, [], []⟩
  (r.gradient,
    (List.range sc.2).foldl (fun e _ => e.append r.reference r.hypothesis) r.eval)

/-- The training-set loop of one iteration of `estimateWithPL`, from the gradient and the
evaluator it starts with. -/
def plPass (exp : α → α) (P : Param α) (trainSet : List (List (Event α) × Nat))
    (st : (Nat → α) × Evaluator α) : (Nat → α) × Evaluator α :=
  trainSet.foldl (plSequence exp P) st

/-- The score `s_y` of the pseudo-likelihood node distribution. -/
def plScore (P : Param α) (ev : Event α) (p y : Nat) : α :=
  obsScore P ev.obs y + edgeScore P p y

/-- A parameter table with two labels, no observation feature, the single transition
`B → B` (weight index `0`, value `1`) and every weight `0`. -/
def loopParam : Param α where
  getWeight := fun _ => 0
  m_ParamIndex := fun _ => []
  m_StateIndex := [⟨1, 1, 0, 1⟩]
  m_SelectedStateList1 := fun j => if j = 1 then [1] else []
  m_SelectedStateList2 := fun k => if k = 1 then [1] else []
  sizeStateVec := 2
  size := 1

/-! ## estimateWithLBFGS: one training pass -/

/-- The members of the engine after `calculateEdge()` and `calculateFactors(seq)`:
`m_state_size` is `m_Param.sizeStateVec()` (set by `readTrainData` and `loadModel`), the
buffers `m_R` and `m_M2` are read through `MAT2`, the neighbour lists are those of the
parameter table. -/
def engineOf (exp : α → α) (P : Param α) (seq : List (Event α)) : CRF α where
  m_state_size := P.sizeStateVec
  seqLen := seq.length
  m_R := fun i y => calculateFactors exp P P.sizeStateVec seq (MAT2 P.sizeStateVec i y)
  m_M2 := fun k j => calculateEdge exp P P.sizeStateVec (MAT2 P.sizeStateVec k j)
  m_SelectedStateList1 := P.m_SelectedStateList1
  m_SelectedStateList2 := P.m_SelectedStateList2

/-- The two gradient loops of position `i` of `estimateWithLBFGS`: the observation loop
adds `prob * value * count` with the node posterior `prob`, and for `i > 0` the transition
loop adds `prob * fval * count` with the edge posterior `prob`. -/
def lbfgsGradient (P : Param α) (c : CRF α) (count : Nat) (i : Nat) (ev : Event α)
    (gradient : Nat → α) : Nat → α :=
  if i > 0 then
    P.m_StateIndex.foldl
      (fun g it => addAt g it.fid (edgeProb c i it.y1 it.y2 * it.fval * (count : α)))
      (ev.obs.foldl
        (fun g ob => (P.m_ParamIndex ob.1).foldl
          (fun g pj => addAt g pj.2 (nodeProb c i pj.1 * ob.2 * (count : α))) g)
        gradient)
  else
    ev.obs.foldl
      (fun g ob => (P.m_ParamIndex ob.1).foldl
        (fun g pj => addAt g pj.2 (nodeProb c i pj.1 * ob.2 * (count : α))) g)
      gradient

/-- The node loop of `estimateWithLBFGS` from position `i` on, over the remaining events;
`y_seq` is the Viterbi output. -/
def lbfgsNodes (P : Param α) (c : CRF α) (count : Nat) (y_seq : List Nat) :
    Nat → List (Event α) → NodeState α → NodeState α
  | _, [], st => st
  | i, ev :: rest, st =>
      lbfgsNodes P c count y_seq (i + 1) rest
        { gradient := lbfgsGradient P c count i ev st.gradient
          eval := st.eval
          prev_outcome := ev.label
          reference := st.reference ++ [ev.label]
          hypothesis := st.hypothesis ++ [y_seq.getD i 0] }

/-- The body of the training-set loop of `estimateWithLBFGS` for one sequence and its
count: factors, forward-backward, Viterbi, `calculateProb`, the node loop, and `count`
rounds of `addLikelihood` and `append`. -/
def lbfgsSequence (exp : α → α) (P : Param α) (st : (Nat → α) × Evaluator α)
    (sc : List (Event α) × Nat) : (Nat → α) × Evaluator α :=
  let c := engineOf exp P sc.1
  let r := lbfgsNodes P c sc.2 (viterbiSearchExact c).1 0 sc.1 ⟨st.1, st.2, 0, [], []⟩
  (r.gradient,
    (List.range sc.2).foldl
      (fun e _ => (e.addLikelihood (calculateProb c (sc.1.map Event.label))).append
        r.reference r.hypothesis) r.eval)

/-- The training-set loop of one iteration of `estimateWithLBFGS`, from the gradient and
the evaluator it starts with (before regularization). -/
def lbfgsPass (exp : α → α) (P : Param α) (trainSet : List (List (Event α) × Nat))
    (st : (Nat → α) × Evaluator α) : (Nat → α) × Evaluator α :=
  trainSet.foldl (lbfgsSequence exp P) st

/-- Expected count of the feature with weight index `w` at position `i` (for count `1`):
the node posteriors of the observation features and, for `i > 0`, the edge posteriors of
the transition features that carry `w`. -/
def expectedAt (P : Param α) (c : CRF α) (i : Nat) (ev : Event α) (w : Nat) : α :=
  (ev.obs.map (fun ob =>
    (((P.m_ParamIndex ob.1).filter (fun pj => decide (pj.2 = w))).map
      (fun pj => nodeProb c i pj.1 * ob.2)).sum)).sum
  + (if i > 0 then
      ((P.m_StateIndex.filter (fun it => decide (it.fid = w))).map
        (fun it => edgeProb c i it.y1 it.y2 * it.fval)).sum
     else 0)

/-- Expected count of the feature `w` over the events placed at positions `i, i+1, ..`. -/
def expectedFrom (P : Param α) (c : CRF α) : Nat → List (Event α) → Nat → α
  | _, [], _ => 0
  | i, ev :: rest, w => expectedAt P c i ev w + expectedFrom P c (i + 1) rest w

/-- The model expectation `E_model[f_w]` accumulated over a training set with counts. -/
def expectedCount (exp : α → α) (P : Param α) (trainSet : List (List (Event α) × Nat))
    (w : Nat) : α :=
  (trainSet.map (fun sc => expectedFrom P (engineOf exp P sc.1) 0 sc.1 w * (sc.2 : α))).sum

/-- Empirical count of the feature `w` at one position with true label `ev.label` and
previous true label `prev` (none at position 0): the values of the observation features
bound to the true label, and the values of the transition records from `prev` to the true
label. -/
def empiricalAt (P : Param α) (prev : Option Nat) (ev : Event α) (w : Nat) : α :=
  (ev.obs.map (fun ob =>
    (((P.m_ParamIndex ob.1).filter (fun pj => decide (pj.1 = ev.label ∧ pj.2 = w))).map
      (fun _ => ob.2)).sum)).sum
  + (match prev with
     | none => 0
     | some p =>
        ((P.m_StateIndex.filter
          (fun it => decide (it.y1 = p ∧ it.y2 = ev.label ∧ it.fid = w))).map
          (fun it => it.fval)).sum)

/-- Empirical count of the feature `w` along a sequence of true labels. -/
def empiricalFrom (P : Param α) : Option Nat → List (Event α) → Nat → α
  | _, [], _ => 0
  | prev, ev :: rest, w => empiricalAt P prev ev w + empiricalFrom P (some ev.label) rest w

/-- The empirical expectation `E_empirical[f_w]` over a training set with counts. -/
def empiricalCount (P : Param α) (trainSet : List (List (Event α) × Nat)) (w : Nat) : α :=
  (trainSet.map (fun sc => empiricalFrom P none sc.1 w * (sc.2 : α))).sum

/-- The `hypothesis` labels the node loop pushes from position `i` on. -/
def hypothesisFrom (y_seq : List Nat) : Nat → List (Event α) → List Nat
  | _, [] => []
  | i, _ :: rest => y_seq.getD i 0 :: hypothesisFrom y_seq (i + 1) rest

/-! ## readTrainData -/

/-- A call the reader makes on the parameter table `m_Param` (whose class is not part of
`CRF.cpp`); `updateParam` records the name of the observation whose id it is given. -/
inductive ParamCall (α : Type) where
  /-- The call `addNewState(fstr)`. -/
  | addNewState (fstr : String)
  /-- The call `addNewObs(name)`. -/
  | addNewObs (name : String)
  /-- The call `updateParam(label, pid, value)` where `pid` is the id of `obsName`. -/
  | updateParam (label : Nat) (obsName : String) (value : α)

/-- The locals and members of the second loop of `readTrainData`. The `std::map`
`train_data_map` is read as a partial function from token matrices to indices. -/
structure ReadState (α : Type) where
  /-- The local `seq`. -/
  seq : List (Event α)
  /-- The member `m_TrainSet`. -/
  m_TrainSet : List (List (Event α))
  /-- The member `m_TrainSetCount`; the counts are whole numbers stored as `double`. -/
  m_TrainSetCount : List Nat
  /-- The local `train_data_map`. -/
  train_data_map : List (List String) → Option Nat
  /-- The local `token_list`. -/
  token_list : List (List String)
  /-- The local `prev_label`. -/
  prev_label : String
  /-- The local `count`. -/
  count : Nat
  /-- The calls made on `m_Param` so far. -/
  calls : List (ParamCall α)

/-- The update `counts[idx] += 1.0`. -/
def incrAt : List Nat → Nat → List Nat
  | [], _ => []
  | c :: cs, 0 => (c + 1) :: cs
  | c :: cs, i + 1 => c :: incrAt cs i

/-- The block "State transition features" of `readTrainData` for the event `ev` read
after a line whose first token is `prev_label`: `addNewObs("@" + prev_label)`, then for
every state `i` the call `updateParam(ev.label, pid, ev.fval)` if `i == ev.label` and
`updateParam(i, pid, 0.0)` otherwise. -/
def transitionCalls (sizeStateVec : Nat) (prev_label : String) (ev : Event α) :
    List (ParamCall α) :=
  ParamCall.addNewObs ("@" ++ prev_label) ::
    (List.range sizeStateVec).map (fun i =>
      if i = ev.label then ParamCall.updateParam ev.label ("@" ++ prev_label) ev.fval
      else ParamCall.updateParam i ("@" ++ prev_label) 0)

/-- The body of the second `while` loop of `readTrainData` for one line, given by its
tokens (`tokenize` is not part of `CRF.cpp`; an empty or blank line has no tokens).
`packEvent` and the number of registered states `sizeStateVec` are inputs. -/
def readLine (packEvent : List String → Event α) (sizeStateVec : Nat) (st : ReadState α)
    (tokens : List String) : ReadState α :=
  if tokens = [] then
    match st.train_data_map st.token_list with
    | none =>
        { seq := []
          m_TrainSet := st.m_TrainSet ++ [st.seq]
          m_TrainSetCount := st.m_TrainSetCount ++ [1]
          train_data_map := fun k =>
            if k = st.token_list then some st.m_TrainSetCount.length else st.train_data_map k
          token_list := []
          prev_label := ""
          count := st.count + 1
          calls := st.calls }
    | some idx =>
        { seq := []
          m_TrainSet := st.m_TrainSet
          m_TrainSetCount := incrAt st.m_TrainSetCount idx
          train_data_map := st.train_data_map
          token_list := []
          prev_label := ""
          count := st.count + 1
          calls := st.calls }
  else
    { seq := st.seq ++ [packEvent tokens]
      m_TrainSet := st.m_TrainSet
      m_TrainSetCount := st.m_TrainSetCount
      train_data_map := st.train_data_map
      token_list := st.token_list ++ [tokens]
      prev_label := tokens.headD ""
      count := st.count
      calls :=
        if st.prev_label ≠ "" then
          st.calls ++ transitionCalls sizeStateVec st.prev_label (packEvent tokens)
        else st.calls }

/-- The string the first loop of `readTrainData` passes to `addNewState` for a first token
`fstr`: `tok = tokenize(fstr, ":")`, and `fstr = tok[0]` when `tok.size() > 1`. The helper
`tokenize` is the argument `tokenizeColon`. -/
def registeredLabel (tokenizeColon : String → List String) (fstr : String) : String :=
  if (tokenizeColon fstr).length > 1 then (tokenizeColon fstr).headD "" else fstr

/-- The first loop of `readTrainData`: the `addNewState` calls, one per non-empty line. -/
def registerLabels (tokenizeColon : String → List String) (lines : List (List String)) :
    List (ParamCall α) :=
  lines.filterMap (fun tokens =>
    match tokens with
    | [] => none
    | fstr :: _ => some (ParamCall.addNewState (registeredLabel tokenizeColon fstr)))

/-- The function `readTrainData` up to `m_Param.endUpdate()`: the first loop registers the
labels, the second loop runs over the same lines from cleared members. -/
def readTrainData (tokenizeColon : String → List String)
    (packEvent : List String → Event α) (sizeStateVec : Nat) (lines : List (List String)) :
    ReadState α :=
  lines.foldl (readLine packEvent sizeStateVec)
    ⟨[], [], [], fun _ => none, [], "", 0, registerLabels tokenizeColon lines⟩

/-- The distinct elements of a list in first-seen order. -/
def firstSeen {β : Type} [DecidableEq β] (l : List β) : List β :=
  l.foldl (fun acc x => if x ∈ acc then acc else acc ++ [x]) []

/-- The raw token matrices of the blank-line-terminated sequences of the remaining lines,
in order; `cur` holds the lines read since the last break. -/
def blocksFrom : List (List String) → List (List String) → List (List (List String))
  | _, [] => []
  | cur, l :: ls => if l = [] then cur :: blocksFrom [] ls else blocksFrom (cur ++ [l]) ls

/-- The raw token matrices of the blank-line-terminated sequences of an input. -/
def blocks (lines : List (List String)) : List (List (List String)) := blocksFrom [] lines

/-- Position of the first occurrence of `b` in a list (its length if there is none). -/
def posOf {β : Type} [DecidableEq β] (b : β) : List β → Nat
  | [] => 0
  | k :: ks => if k = b then 0 else posOf b ks + 1

/-- Number of occurrences of `b` in a list. -/
def occurrences {β : Type} [DecidableEq β] (b : β) (l : List β) : Nat :=
  (l.filter (fun x => decide (x = b))).length

/-- The reader state agrees with the token matrices `D` terminated so far. -/
structure ReadInv (packEvent : List String → Event α) (st : ReadState α)
    (D : List (List (List String))) : Prop where
  seq_eq : st.seq = st.token_list.map packEvent
  map_eq : ∀ k, st.train_data_map k =
    if k ∈ firstSeen D then some (posOf k (firstSeen D)) else none
  set_eq : st.m_TrainSet = (firstSeen D).map (fun b => b.map packEvent)
  count_eq : st.m_TrainSetCount = (firstSeen D).map (fun b => occurrences b D)
  sum_eq : st.m_TrainSetCount.sum = D.length
  n_eq : st.count = D.length

/-- Modelled from the spec: the helper `tokenize(str, delimiters)` (not part of `CRF.cpp`)
for a single delimiter character: the pieces between delimiters, empty pieces dropped. -/
def splitPieces (sep : Char) : List Char → List Char → List (List Char)
  | cur, [] => [cur]
  | cur, c :: cs =>
      if c = sep then cur :: splitPieces sep [] cs else splitPieces sep (cur ++ [c]) cs

/-- Modelled from the spec: `tokenize(str, sep)` on strings, see `splitPieces`. -/
def tokenizeOn (sep : Char) (s : String) : List String :=
  ((splitPieces sep [] s.data).filter (fun t => decide (t ≠ []))).map String.mk

/-- A stand-in for `packEvent` on the two-label data used below: the label is `B = 1` with
feature value `1` when the first token is `B`, and `A = 0` with feature value `2`
otherwise; observations are left out. -/
def demoPackEvent (tokens : List String) : Event ℚ :=
  if tokens.headD "" = "B" then ⟨1, 1, []⟩ else ⟨0, 2, []⟩

/-! ## eval -/

/-- The overload `eval(seq, output, prob)` with a scalar `prob`, after `calculateEdge()` and
`calculateFactors(seq)` have filled the engine: `forward()`, `zval = getPartitionZ()`,
`y_seq = viterbiSearch(dummy_prob)`, the loop
`for (i = 0; i < m_seq_size - 1; i++) dummy_prob /= scale[i]`, and
`prob = dummy_prob / zval`. The output is given as label ids (the code pushes their
names), together with `prob`; `toDouble` is the conversion inside `viterbiSearch`. -/
def eval (toDouble : α → α) (c : CRF α) : List Nat × α :=
  let zval := getPartitionZ c
  let dummy_prob := (viterbiSearch toDouble c).2
  ((viterbiSearch toDouble c).1,
   (List.range (c.m_seq_size - 1)).foldl (fun p i => p / scale c i) dummy_prob / zval)

/-! ## readDevData -/

/-- The locals and members of the loop of `readDevData`. -/
structure DevState (α : Type) where
  /-- The local `seq`. -/
  seq : List (Event α)
  /-- The member `m_DevSet`. -/
  m_DevSet : List (List (Event α))
  /-- The member `m_DevSetCount`. -/
  m_DevSetCount : List Nat
  /-- The local `dev_data_map`. -/
  dev_data_map : List (List String) → Option Nat
  /-- The local `token_list`. -/
  token_list : List (List String)
  /-- The local `prev_label`. -/
  prev_label : String
  /-- The local `count`. -/
  count : Nat

/-- The body of the `while` loop of `readDevData` for one line, given by its tokens;
`packEvent` stands for `packEvent(tokens, &m_Param, true)`. -/
def readDevLine (packEvent : List String → Event α) (st : DevState α)
    (tokens : List String) : DevState α :=
  if tokens = [] then
    match st.dev_data_map st.token_list with
    | none =>
        { seq := []
          m_DevSet := st.m_DevSet ++ [st.seq]
          m_DevSetCount := st.m_DevSetCount ++ [1]
          dev_data_map := fun k =>
            if k = st.token_list then some st.m_DevSetCount.length else st.dev_data_map k
          token_list := []
          prev_label := ""
          count := st.count + 1 }
    | some idx =>
        { seq := []
          m_DevSet := st.m_DevSet
          m_DevSetCount := incrAt st.m_DevSetCount idx
          dev_data_map := st.dev_data_map
          token_list := []
          prev_label := ""
          count := st.count + 1 }
  else
    { seq := st.seq ++ [packEvent tokens]
      m_DevSet := st.m_DevSet
      m_DevSetCount := st.m_DevSetCount
      dev_data_map := st.dev_data_map
      token_list := st.token_list ++ [tokens]
      prev_label := tokens.headD ""
      count := st.count }

/-- The function `readDevData`: the loop over the lines from cleared members. -/
def readDevData (packEvent : List String → Event α) (lines : List (List String)) :
    DevState α :=
  lines.foldl (readDevLine packEvent) ⟨[], [], [], fun _ => none, [], "", 0⟩

/-- Reference count of the specification: the blank lines that begin the input or directly
follow a blank line. Every line is paired with the line before it, the first line with a
blank one. -/
def emptyBreaks (lines : List (List String)) : Nat :=
  ((([] :: lines).zip lines).filter (fun p => decide (p.1 = [] ∧ p.2 = []))).length

/-- The subtraction `a - b` on the unsigned type `size_t` of width `w` bits. -/
def size_t_sub (w a b : Nat) : Nat := (a + 2 ^ w - b % 2 ^ w) % 2 ^ w

/-! ## The convergence test of the training loops -/

/-- The test `diff < eta` of the outer loops, where
`diff = (niter == 0 ? 1.0 : abs(old_obj - obj) / old_obj)`. When `old_obj` is `0` the
quotient of the code is infinite or not a number and the test fails; the quotient of the
field stands for the quotient of the code for a nonzero `old_obj` only. -/
def diffBelow (niter : Nat) (old_obj obj eta : α) : Bool :=
  if niter = 0 then decide ((1 : α) < eta)
  else if old_obj = 0 then false
  else decide (|old_obj - obj| / old_obj < eta)

/-- The outer loop of `estimateWithLBFGS` and of `estimateWithPL` as far as its break is
concerned: `obj niter` is the value of `eval.getObjFunc()` at iteration `niter` (the
evaluator is not part of `CRF.cpp`), the optimizer is taken to return a positive code, the
first argument counts the iterations left before `max_iter`. The body increments
`converge` if `diff < eta` and resets it otherwise, stores `old_obj = obj` and breaks when
`converge == 3`. The result is the iteration of the break, `none` if `max_iter` is
reached. -/
def convergenceLoopFrom (obj : Nat → α) (eta : α) : Nat → Nat → α → Nat → Option Nat
  | 0, _, _, _ => none
  | left + 1, niter, old_obj, converge =>
      let converge2 := if diffBelow niter old_obj (obj niter) eta then converge + 1 else 0
      if converge2 = 3 then some niter
      else convergenceLoopFrom obj eta left (niter + 1) (obj niter) converge2

/-- The loop from its initial state `old_obj = 1e+37`, `converge = 0`, `niter = 0`. -/
def convergenceLoop (obj : Nat → α) (eta : α) (max_iter : Nat) : Option Nat :=
  convergenceLoopFrom obj eta max_iter 0 (10 ^ 37) 0

/-- The outcome of the test `diff < eta` at iteration `n`: at `n ≥ 1` the variable
`old_obj` holds the objective of iteration `n - 1`. -/
def belowAt (obj : Nat → α) (eta : α) (n : Nat) : Bool :=
  diffBelow n (obj (n - 1)) (obj n) eta

/-- The value of `converge` after its update at iteration `n`, had the loop not been
left before. -/
def convergeAt (obj : Nat → α) (eta : α) : Nat → Nat
  | 0 => if belowAt obj eta 0 then 0 + 1 else 0
  | n + 1 => if belowAt obj eta (n + 1) then convergeAt obj eta n + 1 else 0

/-- How the header loop of `loadModel` ends. -/
inductive HeaderResult where
  /-- The statement `return false` that follows the report "Invalid model files". -/
  | invalid
  /-- The loop is left and `m_Param.load(f)` reads the lines that remain. -/
  | load (rest : List String)
  /-- The stream ends inside the header; what the loop does on the failed stream is not
  followed. -/
  | streamEnded
  deriving DecidableEq

/-- The header loop of `loadModel`: `line` is the line read last, `rest` the lines still in
the stream, `count` the local counter. While `line.empty() || line[0] == '#'`, the line
is checked if `count == 1` (`tok.size() < 2 || tok[1] != "CRF"` returns `false`), then
the next line is read and `count` is incremented. The helper `tokenize` is an input. -/
def headerLoop (tokenize : String → List String) : List String → Nat → String → HeaderResult
  | rest, count, line =>
    if line = "" ∨ line.data.head? = some '#' then
      if count = 1 ∧ ((tokenize line).length < 2 ∨ (tokenize line).getD 1 "" ≠ "CRF") then
        HeaderResult.invalid
      else
        match rest with
        | [] => HeaderResult.streamEnded
        | l :: ls => headerLoop tokenize ls (count + 1) l
    else HeaderResult.load rest

/-- The function `loadModel` up to the call `m_Param.load(f)`, on the lines of the file. -/
def loadModel (tokenize : String → List String) (lines : List String) : HeaderResult :=
  match lines with
  | [] => HeaderResult.streamEnded
  | l :: ls => headerLoop tokenize ls 0 l

/-! ## Generic list facts -/

theorem getD_map_range {β : Type} (n : Nat) (f : Nat → β) (d : β) (k : Nat) (h : k < n) :
    ((List.range n).map f).getD k d = f k := by
  simp [List.getD_eq_getElem?_getD, h]

theorem maxLoop_succ (n : Nat) (val : Nat → α) :
    maxLoop (n + 1) val =
      (if val n > (maxLoop n val).1 then (val n, n) else maxLoop n val) := by
  simp [maxLoop, List.range_succ, List.foldl_append]

/-- What the maximisation loop returns when every candidate exceeds the initial
`-10000`: the first index attaining the maximum, together with the maximum. -/
theorem maxLoop_spec (n : Nat) (val : Nat → α) (hv : ∀ k, k < n + 1 → -10000 < val k) :
    (maxLoop (n + 1) val).2 < n + 1 ∧
    (maxLoop (n + 1) val).1 = val (maxLoop (n + 1) val).2 ∧
    (∀ k, k < n + 1 → val k ≤ (maxLoop (n + 1) val).1) ∧
    (∀ k, k < (maxLoop (n + 1) val).2 → val k < (maxLoop (n + 1) val).1) := by
  induction n with
  | zero =>
    have h0 := hv 0 (by omega)
    have e : maxLoop (0 + 1) val = (val 0, 0) := by
      rw [maxLoop_succ 0]
      have z : maxLoop 0 val = (-10000, 0) := rfl
      rw [z, if_pos h0]
    rw [e]
    refine ⟨by simp, rfl, ?_, ?_⟩
    · intro k hk
      have : k = 0 := by omega
      subst this; exact le_refl _
    · intro k hk; simp at hk
  | succ n ih =>
    obtain ⟨h1, h2, h3, h4⟩ := ih (fun k hk => hv k (by omega))
    rw [maxLoop_succ (n + 1)]
    by_cases hc : val (n + 1) > (maxLoop (n + 1) val).1
    · rw [if_pos hc]
      refine ⟨by simp, rfl, ?_, ?_⟩
      · intro k hk
        by_cases hk2 : k < n + 1
        · exact le_of_lt (lt_of_le_of_lt (h3 k hk2) hc)
        · have : k = n + 1 := by omega
          subst this; exact le_refl _
      · intro k hk
        exact lt_of_le_of_lt (h3 k hk) hc
    · rw [if_neg hc]
      refine ⟨by omega, h2, ?_, h4⟩
      intro k hk
      by_cases hk2 : k < n + 1
      · exact h3 k hk2
      · have : k = n + 1 := by omega
        subst this; exact not_lt.mp hc

theorem maxLoop_pos (n : Nat) (val : Nat → α) (hn : 0 < n)
    (hv : ∀ k, k < n → -10000 < val k) :
    (maxLoop n val).2 < n ∧
    (maxLoop n val).1 = val (maxLoop n val).2 ∧
    (∀ k, k < n → val k ≤ (maxLoop n val).1) ∧
    (∀ k, k < (maxLoop n val).2 → val k < (maxLoop n val).1) := by
  cases n with
  | zero => omega
  | succ m => exact maxLoop_spec m val hv

/-! ## Scores -/

theorem prod_eq_prefixScore (c : CRF α) (f : Nat → Nat) (n : Nat) :
    (∏ i in Finset.range (n + 1), c.m_R i (f i)) *
      (∏ i in Finset.Ico 1 (n + 1), c.m_M2 (f (i - 1)) (f i)) = prefixScore c f n := by
  induction n with
  | zero => simp [prefixScore]
  | succ n ih =>
    rw [Finset.prod_range_succ, Finset.prod_Ico_succ_top (by omega : 1 ≤ n + 1)]
    simp only [prefixScore, ← ih, Nat.add_sub_cancel]
    ring

theorem score_eq_prefixScore (c : CRF α) (y : List Nat) (n : Nat) (h : y.length = n + 1) :
    score c y = prefixScore c (fun i => y.getD i 0) n := by
  unfold score
  rw [h]
  exact prod_eq_prefixScore c (fun i => y.getD i 0) n

/-! ## Viterbi rows in exact arithmetic -/

theorem viterbiRowExact_zero_delta (c : CRF α) (j : Nat) (hj : j < c.m_state_size) :
    (viterbiRowExact c 0).1.getD j 0 = 1 * c.m_R 0 j := by
  simp only [viterbiRowExact]
  exact getD_map_range _ _ _ _ hj

theorem viterbiRowExact_succ_delta (c : CRF α) (i j : Nat) (hj : j < c.m_state_size) :
    (viterbiRowExact c (i + 1)).1.getD j 0 =
      (maxLoop c.m_state_size (fun k => (viterbiRowExact c i).1.getD k 0 * c.m_M2 k j)).1
        * c.m_R (i + 1) j := by
  simp only [viterbiRowExact]
  exact getD_map_range _ _ _ _ hj

theorem viterbiRowExact_succ_psi (c : CRF α) (i j : Nat) (hj : j < c.m_state_size) :
    (viterbiRowExact c (i + 1)).2.getD j 0 =
      (maxLoop c.m_state_size (fun k => (viterbiRowExact c i).1.getD k 0 * c.m_M2 k j)).2 := by
  simp only [viterbiRowExact]
  exact getD_map_range _ _ _ _ hj

theorem viterbiRowExact_pos (c : CRF α) (hp : Positive c) (i : Nat) :
    ∀ j, j < c.m_state_size → 0 < (viterbiRowExact c i).1.getD j 0 := by
  induction i with
  | zero =>
    intro j hj
    rw [viterbiRowExact_zero_delta c j hj, one_mul]
    exact hp.R_pos 0 j
  | succ i ih =>
    intro j hj
    rw [viterbiRowExact_succ_delta c i j hj]
    have hv : ∀ k, k < c.m_state_size →
        (-10000 : α) < (viterbiRowExact c i).1.getD k 0 * c.m_M2 k j := by
      intro k hk
      have := mul_pos (ih k hk) (hp.M2_pos k j)
      linarith
    obtain ⟨h1, h2, -, -⟩ := maxLoop_pos c.m_state_size _ (by omega) hv
    rw [h2]
    exact mul_pos (mul_pos (ih _ h1) (hp.M2_pos _ j)) (hp.R_pos _ j)

theorem viterbiRowExact_gt (c : CRF α) (hp : Positive c) (i : Nat) (j : Nat) :
    ∀ k, k < c.m_state_size →
      (-10000 : α) < (viterbiRowExact c i).1.getD k 0 * c.m_M2 k j := by
  intro k hk
  have := mul_pos (viterbiRowExact_pos c hp i k hk) (hp.M2_pos k j)
  linarith

theorem viterbiLastExact_spec (c : CRF α) (hp : Positive c) (hY : 0 < c.m_state_size) :
    (viterbiLastExact c).2 < c.m_state_size ∧
    (viterbiLastExact c).1 = (viterbiRowExact c (c.seqLen - 1)).1.getD (viterbiLastExact c).2 0 ∧
    (∀ k, k < c.m_state_size →
      (viterbiRowExact c (c.seqLen - 1)).1.getD k 0 ≤ (viterbiLastExact c).1) ∧
    (∀ k, k < (viterbiLastExact c).2 →
      (viterbiRowExact c (c.seqLen - 1)).1.getD k 0 < (viterbiLastExact c).1) := by
  unfold viterbiLastExact
  apply maxLoop_pos c.m_state_size _ hY
  intro k hk
  have := viterbiRowExact_pos c hp (c.seqLen - 1) k hk
  linarith

theorem deltaExact_seqLen (c : CRF α) :
    deltaExact c c.seqLen m_default_oid = (viterbiLastExact c).1 := by
  simp [deltaExact]

theorem viterbiSearchExact_prob (c : CRF α) :
    (viterbiSearchExact c).2 = (viterbiLastExact c).1 := by
  simp [viterbiSearchExact, CRF.m_seq_size, deltaExact]

theorem backtrackExact_length (c : CRF α) (n : Nat) :
    ∀ p, (backtrackExact c n p).length = n := by
  induction n with
  | zero => intro p; rfl
  | succ n ih => intro p; simp [backtrackExact, ih]

theorem psiExact_lt (c : CRF α) (hp : Positive c) (hY : 0 < c.m_state_size) (i p : Nat)
    (hpl : p < c.m_state_size) : psiExact c i p < c.m_state_size := by
  unfold psiExact
  split_ifs with h1 h2
  · cases i with
    | zero =>
      simp only [viterbiRowExact]
      rw [getD_map_range _ _ _ _ hpl]
      exact hY
    | succ i =>
      rw [viterbiRowExact_succ_psi c i p hpl]
      exact (maxLoop_pos c.m_state_size _ hY (viterbiRowExact_gt c hp i p)).1
  · exact (viterbiLastExact_spec c hp hY).1
  · exact hY

theorem backtrackExact_lt (c : CRF α) (hp : Positive c) (hY : 0 < c.m_state_size) (n : Nat) :
    ∀ p, p < c.m_state_size → ∀ a ∈ backtrackExact c n p, a < c.m_state_size := by
  induction n with
  | zero => intro p _ a ha; simp [backtrackExact] at ha
  | succ n ih =>
    intro p hpl a ha
    simp only [backtrackExact, List.mem_cons] at ha
    have hps := psiExact_lt c hp hY (n + 1) p hpl
    rcases ha with ha | ha
    · rw [ha]; exact hps
    · exact ih _ hps a ha

/-- Entry `i` of the reversed back-tracked path is the `psi` predecessor of entry `i + 1`
(of the start label `p` for the last entry). -/
theorem backtrackExact_reverse_getD (c : CRF α) (n : Nat) :
    ∀ p i, i < n →
      (backtrackExact c n p).reverse.getD i 0 =
        psiExact c (i + 1)
          (if i + 1 = n then p else (backtrackExact c n p).reverse.getD (i + 1) 0) := by
  induction n with
  | zero => intro p i hi; omega
  | succ n ih =>
    intro p i hi
    have hlen : (backtrackExact c n (psiExact c (n + 1) p)).reverse.length = n := by
      rw [List.length_reverse, backtrackExact_length]
    simp only [backtrackExact, List.reverse_cons]
    by_cases hin : i < n
    · rw [List.getD_append _ _ _ _ (by rw [hlen]; exact hin), ih _ i hin]
      have hne : i + 1 ≠ n + 1 := by omega
      rw [if_neg hne]
      by_cases hin2 : i + 1 = n
      · rw [if_pos hin2, List.getD_append_right _ _ _ _ (by rw [hlen]; omega), hlen, hin2]
        simp
      · rw [if_neg hin2, List.getD_append _ _ _ _ (by rw [hlen]; omega)]
    · have hie : i = n := by omega
      subst hie
      rw [List.getD_append_right _ _ _ _ (by rw [hlen]), hlen]
      simp

theorem viterbiSearchExact_getD (c : CRF α) (i : Nat) (hi : i < c.seqLen) :
    (viterbiSearchExact c).1.getD i 0 =
      psiExact c (i + 1)
        (if i + 1 = c.seqLen then m_default_oid else (viterbiSearchExact c).1.getD (i + 1) 0) := by
  simp only [viterbiSearchExact, CRF.m_seq_size, Nat.add_sub_cancel]
  exact backtrackExact_reverse_getD c c.seqLen m_default_oid i hi

theorem viterbiSearchExact_last (c : CRF α) (hT : 0 < c.seqLen) :
    (viterbiSearchExact c).1.getD (c.seqLen - 1) 0 = (viterbiLastExact c).2 := by
  rw [viterbiSearchExact_getD c (c.seqLen - 1) (by omega)]
  have h : c.seqLen - 1 + 1 = c.seqLen := by omega
  rw [if_pos h, h]
  simp [psiExact]

theorem maxLoop_two_ge (val : Nat → α) (a b : α) (ha : val 0 = a) (hb : val 1 = b)
    (h0 : -10000 < a) (h : b ≤ a) : maxLoop 2 val = (a, 0) := by
  have z : maxLoop 0 val = (-10000, 0) := rfl
  have e1 : maxLoop 1 val = (val 0, 0) := by
    rw [maxLoop_succ 0, z, if_pos (by rw [ha]; exact h0)]
  rw [maxLoop_succ 1, e1, if_neg (by rw [ha, hb]; exact not_lt.mpr h), ha]

theorem maxLoop_two_lt (val : Nat → α) (a b : α) (ha : val 0 = a) (hb : val 1 = b)
    (h0 : -10000 < a) (h : a < b) : maxLoop 2 val = (b, 1) := by
  have z : maxLoop 0 val = (-10000, 0) := rfl
  have e1 : maxLoop 1 val = (val 0, 0) := by
    rw [maxLoop_succ 0, z, if_pos (by rw [ha]; exact h0)]
  rw [maxLoop_succ 1, e1, if_pos (by rw [ha, hb]; exact h), hb]

theorem viterbiRowExact_succ_eq (c : CRF α) (i : Nat) :
    viterbiRowExact c (i + 1) =
      ((List.range c.m_state_size).map (fun j =>
          (maxLoop c.m_state_size (fun k => (viterbiRowExact c i).1.getD k 0 * c.m_M2 k j)).1
            * c.m_R (i + 1) j),
       (List.range c.m_state_size).map (fun j =>
          (maxLoop c.m_state_size (fun k => (viterbiRowExact c i).1.getD k 0 * c.m_M2 k j)).2)) :=
  rfl

theorem transitionDominates_rows (r e : α) (hr : 0 < r) (he : 1 < e) :
    viterbiRowExact (transitionDominates r e) 0 = ([r, r], [0, 0]) ∧
    viterbiRowExact (transitionDominates r e) 1 = ([r * r, r * e * r], [0, 0]) ∧
    viterbiRowExact (transitionDominates r e) 2 = ([r * e * r * r, r * r * e * r], [1, 0]) := by
  have hre : 0 < r * e := mul_pos hr (by linarith)
  have hrr : 0 < r * r := mul_pos hr hr
  have hrer : 0 < r * e * r := mul_pos hre hr
  have hlt : r < r * e := by nlinarith
  have hlt2 : r * r < r * e * r := by nlinarith
  have hR : List.range 2 = [0, 1] := rfl
  have hn : (transitionDominates r e).m_state_size = 2 := rfl
  have hM : ∀ k j, (transitionDominates r e).m_M2 k j = if k = 0 ∧ j = 1 then e else 1 :=
    fun _ _ => rfl
  have hRr : ∀ i j, (transitionDominates r e).m_R i j = r := fun _ _ => rfl
  have h0 : viterbiRowExact (transitionDominates r e) 0 = ([r, r], [0, 0]) := by
    simp [viterbiRowExact, transitionDominates, hR, m_default_oid]
  have h1 : viterbiRowExact (transitionDominates r e) 1 = ([r * r, r * e * r], [0, 0]) := by
    rw [viterbiRowExact_succ_eq, h0, hn, hR]
    simp only [List.map_cons, List.map_nil, hM, hRr]
    rw [maxLoop_two_ge _ r r (by simp) (by simp) (by linarith) (le_refl _),
      maxLoop_two_ge _ (r * e) r (by simp) (by simp) (by linarith) (le_of_lt hlt)]
  have h2 : viterbiRowExact (transitionDominates r e) 2 =
      ([r * e * r * r, r * r * e * r], [1, 0]) := by
    rw [viterbiRowExact_succ_eq, h1, hn, hR]
    simp only [List.map_cons, List.map_nil, hM, hRr]
    rw [maxLoop_two_lt _ (r * r) (r * e * r) (by simp) (by simp) (by linarith) hlt2,
      maxLoop_two_ge _ (r * r * e) (r * e * r) (by simp) (by simp) (by nlinarith)
        (le_of_eq (by ring))]
  exact ⟨h0, h1, h2⟩

theorem transitionDominates_path (r e : α) (hr : 0 < r) (he : 1 < e) :
    (viterbiSearchExact (transitionDominates r e)).1 = [0, 1, 0] := by
  obtain ⟨h0, h1, h2⟩ := transitionDominates_rows r e hr he
  have hrer : 0 < r * e * r * r := mul_pos (mul_pos (mul_pos hr (by linarith)) hr) hr
  have hl : viterbiLastExact (transitionDominates r e) = (r * e * r * r, 0) := by
    unfold viterbiLastExact
    have hs : (transitionDominates r e).seqLen - 1 = 2 := rfl
    have hn : (transitionDominates r e).m_state_size = 2 := rfl
    rw [hs, hn, h2]
    exact maxLoop_two_ge _ (r * e * r * r) (r * r * e * r) (by simp) (by simp)
      (by linarith) (le_of_eq (by ring))
  have hT : (transitionDominates r e).seqLen = 3 := rfl
  have hm : (transitionDominates r e).m_seq_size - 1 = 3 := rfl
  simp only [viterbiSearchExact, hm, backtrackExact, psiExact, hT, m_default_oid, hl, h1, h2]
  simp

theorem transitionDominates_positive (r e : α) (hr : 0 < r) (he : 0 < e) :
    Positive (transitionDominates r e) := by
  constructor
  · intro i y; exact hr
  · intro k j
    show 0 < (if k = 0 ∧ j = 1 then e else 1)
    split_ifs
    · exact he
    · exact one_pos

theorem transitionDominates_neighbors (r e : α) : NeighborsOK (transitionDominates r e) := by
  refine ⟨⟨?_, ?_, ?_⟩, ⟨?_, ?_, ?_⟩⟩
  · intro j k hk
    have : k ∈ (if j = 1 then [0] else []) := hk
    split_ifs at this
    · simp at this; subst this; show 0 < 2; omega
    · simp at this
  · intro j
    show (if j = 1 then [0] else ([] : List Nat)).Nodup
    split_ifs <;> simp
  · intro j k _ hne
    show k ∈ (if j = 1 then [0] else [])
    have hne2 : (if k = 0 ∧ j = 1 then e else 1) ≠ 1 := hne
    by_cases h : k = 0 ∧ j = 1
    · simp [h.1, h.2]
    · rw [if_neg h] at hne2; exact absurd rfl hne2
  · intro j k hk
    have : k ∈ (if j = 0 then [1] else []) := hk
    split_ifs at this
    · simp at this; subst this; show 1 < 2; omega
    · simp at this
  · intro j
    show (if j = 0 then [1] else ([] : List Nat)).Nodup
    split_ifs <;> simp
  · intro j k _ hne
    show k ∈ (if j = 0 then [1] else [])
    have hne2 : (if j = 0 ∧ k = 1 then e else 1) ≠ 1 := hne
    by_cases h : j = 0 ∧ k = 1
    · simp [h.1, h.2]
    · rw [if_neg h] at hne2; exact absurd rfl hne2

theorem psiExact_firstArgmax (c : CRF α) (hp : Positive c) (hY : 0 < c.m_state_size)
    (i y : Nat) (hi1 : 1 ≤ i) (hiT : i < c.seqLen) (hy : y < c.m_state_size) :
    IsFirstArgmax c.m_state_size (fun k => deltaExact c (i - 1) k * c.m_M2 k y)
      (psiExact c i y) := by
  obtain ⟨i', rfl⟩ : ∃ i', i = i' + 1 := ⟨i - 1, by omega⟩
  have hd : ∀ k, deltaExact c (i' + 1 - 1) k = (viterbiRowExact c i').1.getD k 0 := by
    intro k
    simp only [deltaExact, Nat.add_sub_cancel]
    rw [if_pos (by omega)]
  have hpsi : psiExact c (i' + 1) y =
      (maxLoop c.m_state_size (fun k => (viterbiRowExact c i').1.getD k 0 * c.m_M2 k y)).2 := by
    unfold psiExact
    rw [if_pos hiT, viterbiRowExact_succ_psi c i' y hy]
  obtain ⟨h1, h2, h3, h4⟩ := maxLoop_pos c.m_state_size _ hY (viterbiRowExact_gt c hp i' y)
  simp only [IsFirstArgmax, hd, hpsi]
  refine ⟨h1, ?_, ?_⟩
  · intro k hk
    have := h3 k hk
    rw [h2] at this
    exact this
  · intro k hk
    have := h4 k hk
    rw [h2] at this
    exact this

theorem lastExact_firstArgmax (c : CRF α) (hp : Positive c) (hY : 0 < c.m_state_size)
    (hT : 0 < c.seqLen) :
    IsFirstArgmax c.m_state_size (fun k => deltaExact c (c.seqLen - 1) k)
      ((viterbiSearchExact c).1.getD (c.seqLen - 1) 0) := by
  rw [viterbiSearchExact_last c hT]
  have hd : ∀ k, deltaExact c (c.seqLen - 1) k
      = (viterbiRowExact c (c.seqLen - 1)).1.getD k 0 := by
    intro k
    simp only [deltaExact]
    rw [if_pos (by omega)]
  obtain ⟨h1, h2, h3, h4⟩ := viterbiLastExact_spec c hp hY
  simp only [IsFirstArgmax, hd]
  refine ⟨h1, ?_, ?_⟩
  · intro k hk
    have := h3 k hk
    rw [h2] at this
    exact this
  · intro k hk
    have := h4 k hk
    rw [h2] at this
    exact this

theorem viterbiSearchExact_mem_lt (c : CRF α) (hp : Positive c) (hY : 0 < c.m_state_size) :
    ∀ a ∈ (viterbiSearchExact c).1, a < c.m_state_size := by
  intro a ha
  simp only [viterbiSearchExact, List.mem_reverse] at ha
  exact backtrackExact_lt c hp hY _ m_default_oid hY a ha

/-! ## Facts about the conversion to double -/

theorem roundHalfEven_intCast (n : ℤ) : roundHalfEven (n : ℚ) = n := by
  unfold roundHalfEven
  rw [Int.fract_intCast, if_pos (by norm_num), Int.floor_intCast]

theorem roundHalfEven_small (q : ℚ) (h0 : 0 ≤ q) (h : q < 1 / 2) : roundHalfEven q = 0 := by
  have hf : ⌊q⌋ = 0 := Int.floor_eq_zero_iff.mpr ⟨h0, by linarith⟩
  have hfr : Int.fract q = q := by
    rw [Int.fract, hf]
    simp
  unfold roundHalfEven
  rw [hfr, if_pos h, hf]

theorem roundHalfEven_nonneg (q : ℚ) (h0 : 0 ≤ q) : 0 ≤ roundHalfEven q := by
  have hf : 0 ≤ ⌊q⌋ := Int.floor_nonneg.mpr h0
  unfold roundHalfEven
  split_ifs <;> omega

theorem binary64_zero : binary64 0 = 0 := by
  unfold binary64
  rw [zero_div]
  have : roundHalfEven 0 = 0 := roundHalfEven_small 0 (le_refl _) (by norm_num)
  rw [this]
  simp

/-- Underflow: a value below `2^-1075`, half the smallest subnormal number, is converted
to `0`. -/
theorem binary64_underflow (x : ℚ) (h0 : 0 ≤ x) (h : x < 2 ^ (-1075 : ℤ)) :
    binary64 x = 0 := by
  rcases eq_or_lt_of_le h0 with h00 | hpos
  · rw [← h00]
    exact binary64_zero
  · have habs : |x| = x := abs_of_pos hpos
    have hlog : Int.log 2 x < -1075 :=
      (Int.lt_zpow_iff_log_lt (by norm_num) hpos).mp (by exact_mod_cast h)
    have he : max (Int.log 2 |x| - 52) (-1074) = -1074 := by
      rw [habs]
      apply max_eq_right
      omega
    unfold binary64
    rw [he]
    have hq : x / 2 ^ (-1074 : ℤ) < 1 / 2 := by
      rw [div_lt_iff₀ (by positivity)]
      calc x < 2 ^ (-1075 : ℤ) := h
        _ = 1 / 2 * 2 ^ (-1074 : ℤ) := by
          rw [show (-1075 : ℤ) = -1 + -1074 by norm_num, zpow_add₀ (by norm_num)]
          norm_num
    rw [roundHalfEven_small _ (by positivity) hq]
    simp

/-- A value with at most 53 significant bits and exponent at least `-1074` is converted
to itself. -/
theorem binary64_exact (m k : ℤ) (hm : |m| < 2 ^ 53) (hk : -1074 ≤ k) :
    binary64 ((m : ℚ) * 2 ^ k) = (m : ℚ) * 2 ^ k := by
  by_cases hm0 : m = 0
  · subst hm0
    simp [binary64_zero]
  · have hpos : (0 : ℚ) < |(m : ℚ) * 2 ^ k| := by
      apply abs_pos.mpr
      apply mul_ne_zero
      · exact_mod_cast hm0
      · positivity
    have hm2 : |(m : ℚ)| < 2 ^ (53 : ℤ) := by
      have h1 : ((|m| : ℤ) : ℚ) < ((2 ^ 53 : ℤ) : ℚ) := Int.cast_lt.mpr hm
      rw [Int.cast_abs] at h1
      rw [zpow_ofNat]
      exact_mod_cast h1
    have hlt : |(m : ℚ) * 2 ^ k| < (2 : ℚ) ^ (53 + k) := by
      rw [abs_mul, abs_of_pos (by positivity : (0 : ℚ) < 2 ^ k), zpow_add₀ (by norm_num)]
      exact mul_lt_mul_of_pos_right hm2 (by positivity)
    have hlog : Int.log 2 |(m : ℚ) * 2 ^ k| < 53 + k :=
      (Int.lt_zpow_iff_log_lt (by norm_num) hpos).mp (by exact_mod_cast hlt)
    obtain ⟨d, hd⟩ : ∃ d : ℕ, k = max (Int.log 2 |(m : ℚ) * 2 ^ k| - 52) (-1074) + d := by
      refine ⟨(k - max (Int.log 2 |(m : ℚ) * 2 ^ k| - 52) (-1074)).toNat, ?_⟩
      have : max (Int.log 2 |(m : ℚ) * 2 ^ k| - 52) (-1074) ≤ k := max_le (by omega) hk
      omega
    unfold binary64
    generalize max (Int.log 2 |(m : ℚ) * 2 ^ k| - 52) (-1074) = e at hd
    have hk2 : (2 : ℚ) ^ k = 2 ^ e * 2 ^ d := by
      rw [hd, zpow_add₀ (by norm_num), zpow_natCast]
    have hq : (m : ℚ) * 2 ^ k / 2 ^ e = ((m * 2 ^ d : ℤ) : ℚ) := by
      rw [hk2]
      push_cast
      field_simp
      ring
    rw [hq, roundHalfEven_intCast, hk2]
    push_cast
    ring

theorem binary64_nonneg (x : ℚ) (h0 : 0 ≤ x) : 0 ≤ binary64 x := by
  unfold binary64
  apply mul_nonneg
  · exact_mod_cast roundHalfEven_nonneg _ (by positivity)
  · positivity

theorem binary64_one : binary64 1 = 1 := by
  have := binary64_exact 1 0 (by norm_num) (by norm_num)
  simpa using this

/-- The `double` nearest to `exp 5`, `0x1.28d389970338fp+7`, is converted to itself. -/
theorem binary64_exp5 :
    binary64 (5221823812744079 / 2 ^ 45) = 5221823812744079 / 2 ^ 45 := by
  have := binary64_exact 5221823812744079 (-45) (by norm_num) (by norm_num)
  have e : ((5221823812744079 : ℤ) : ℚ) * 2 ^ (-45 : ℤ) = 5221823812744079 / 2 ^ 45 := by
    norm_num
  rw [e] at this
  exact this

/-! ## The decoder with the conversion to double -/

theorem maxLoop_congr (n : Nat) (f g : Nat → α) (h : ∀ k, k < n → f k = g k) :
    maxLoop n f = maxLoop n g := by
  induction n with
  | zero => rfl
  | succ n ih =>
    rw [maxLoop_succ, maxLoop_succ, ih (fun k hk => h k (by omega)), h n (by omega)]

/-- The index the maximisation loop returns is an index of the loop. -/
theorem maxLoop_snd_lt (n : Nat) (val : Nat → α) (hn : 0 < n) : (maxLoop n val).2 < n := by
  induction n with
  | zero => omega
  | succ n ih =>
    rw [maxLoop_succ]
    by_cases hc : val n > (maxLoop n val).1
    · rw [if_pos hc]
      exact Nat.lt_succ_self n
    · rw [if_neg hc]
      cases n with
      | zero => exact Nat.zero_lt_one
      | succ m =>
        have := ih (by omega)
        omega

theorem viterbiRow_succ_eq (toDouble : α → α) (c : CRF α) (i : Nat) :
    viterbiRow toDouble c (i + 1) =
      ((List.range c.m_state_size).map (fun j =>
          (maxLoop c.m_state_size
            (fun k => toDouble ((viterbiRow toDouble c i).1.getD k 0 * c.m_M2 k j))).1
            * c.m_R (i + 1) j),
       (List.range c.m_state_size).map (fun j =>
          (maxLoop c.m_state_size
            (fun k => toDouble ((viterbiRow toDouble c i).1.getD k 0 * c.m_M2 k j))).2)) :=
  rfl

theorem viterbiRow_length (toDouble : α → α) (c : CRF α) (i : Nat) :
    (viterbiRow toDouble c i).1.length = c.m_state_size ∧
    (viterbiRow toDouble c i).2.length = c.m_state_size := by
  cases i <;> simp [viterbiRow]

theorem viterbiRow_zero_delta (toDouble : α → α) (c : CRF α) (j : Nat)
    (hj : j < c.m_state_size) : (viterbiRow toDouble c 0).1.getD j 0 = 1 * c.m_R 0 j := by
  simp only [viterbiRow]
  exact getD_map_range _ _ _ _ hj

theorem viterbiRow_succ_delta (toDouble : α → α) (c : CRF α) (i j : Nat)
    (hj : j < c.m_state_size) :
    (viterbiRow toDouble c (i + 1)).1.getD j 0 =
      (maxLoop c.m_state_size
        (fun k => toDouble ((viterbiRow toDouble c i).1.getD k 0 * c.m_M2 k j))).1
        * c.m_R (i + 1) j := by
  rw [viterbiRow_succ_eq]
  exact getD_map_range _ _ _ _ hj

theorem viterbiRow_succ_psi (toDouble : α → α) (c : CRF α) (i j : Nat)
    (hj : j < c.m_state_size) :
    (viterbiRow toDouble c (i + 1)).2.getD j 0 =
      (maxLoop c.m_state_size
        (fun k => toDouble ((viterbiRow toDouble c i).1.getD k 0 * c.m_M2 k j))).2 := by
  rw [viterbiRow_succ_eq]
  exact getD_map_range _ _ _ _ hj

theorem backtrack_length (toDouble : α → α) (c : CRF α) (n : Nat) :
    ∀ p, (backtrack toDouble c n p).length = n := by
  induction n with
  | zero => intro p; rfl
  | succ n ih => intro p; simp [backtrack, ih]

/-- Every entry of `psi` is a label, whatever the conversion does. -/
theorem psi_lt (toDouble : α → α) (c : CRF α) (hY : 0 < c.m_state_size) (i p : Nat)
    (hpl : p < c.m_state_size) : psi toDouble c i p < c.m_state_size := by
  unfold psi
  split_ifs with h1 h2
  · cases i with
    | zero =>
      simp only [viterbiRow]
      rw [getD_map_range _ _ _ _ hpl]
      exact hY
    | succ i =>
      rw [viterbiRow_succ_psi toDouble c i p hpl]
      exact maxLoop_snd_lt _ _ hY
  · exact maxLoop_snd_lt _ _ hY
  · exact hY

theorem backtrack_lt (toDouble : α → α) (c : CRF α) (hY : 0 < c.m_state_size) (n : Nat) :
    ∀ p, p < c.m_state_size → ∀ a ∈ backtrack toDouble c n p, a < c.m_state_size := by
  induction n with
  | zero => intro p _ a ha; simp [backtrack] at ha
  | succ n ih =>
    intro p hpl a ha
    simp only [backtrack, List.mem_cons] at ha
    have hps := psi_lt toDouble c hY (n + 1) p hpl
    rcases ha with ha | ha
    · rw [ha]; exact hps
    · exact ih _ hps a ha

theorem viterbiSearch_length (toDouble : α → α) (c : CRF α) :
    (viterbiSearch toDouble c).1.length = c.seqLen := by
  simp [viterbiSearch, CRF.m_seq_size, backtrack_length]

theorem viterbiSearch_mem_lt (toDouble : α → α) (c : CRF α) (hY : 0 < c.m_state_size) :
    ∀ a ∈ (viterbiSearch toDouble c).1, a < c.m_state_size := by
  intro a ha
  simp only [viterbiSearch, List.mem_reverse] at ha
  exact backtrack_lt toDouble c hY _ m_default_oid hY a ha

/-- If the conversion changes no candidate of the exact recursion up to a row, the rows
of the code are those of the exact recursion. The premise may use the equality of the
rows before. -/
theorem viterbiRow_eq_exact_of (toDouble : α → α) (c : CRF α)
    (h : ∀ i k j, i + 1 < c.seqLen → k < c.m_state_size → j < c.m_state_size →
      viterbiRow toDouble c i = viterbiRowExact c i →
      toDouble ((viterbiRowExact c i).1.getD k 0 * c.m_M2 k j)
        = (viterbiRowExact c i).1.getD k 0 * c.m_M2 k j) :
    ∀ i, i ≤ c.seqLen - 1 → viterbiRow toDouble c i = viterbiRowExact c i := by
  intro i
  induction i with
  | zero => intro _; rfl
  | succ i ih =>
    intro hi
    have hrow := ih (by omega)
    rw [viterbiRow_succ_eq, viterbiRowExact_succ_eq, hrow]
    have hm : ∀ j, j < c.m_state_size →
        maxLoop c.m_state_size
          (fun k => toDouble ((viterbiRowExact c i).1.getD k 0 * c.m_M2 k j)) =
        maxLoop c.m_state_size (fun k => (viterbiRowExact c i).1.getD k 0 * c.m_M2 k j) :=
      fun j hj => maxLoop_congr _ _ _ (fun k hk => h i k j (by omega) hk hj hrow)
    congr 1
    · apply List.map_congr_left
      intro j hj
      rw [hm j (List.mem_range.mp hj)]
    · apply List.map_congr_left
      intro j hj
      rw [hm j (List.mem_range.mp hj)]

theorem viterbiRow_eq_exact (toDouble : α → α) (c : CRF α) (h : NarrowingExact toDouble c) :
    ∀ i, i ≤ c.seqLen - 1 → viterbiRow toDouble c i = viterbiRowExact c i := by
  apply viterbiRow_eq_exact_of
  intro i k j hi hk hj hrow
  have := h.step i k j hi hk hj
  rw [hrow] at this
  exact this

/-- The conversion changes no candidate of the run if it changes none of the exact
recursion. -/
theorem narrowingExact_of_exact (toDouble : α → α) (c : CRF α)
    (hstep : ∀ i k j, i + 1 < c.seqLen → k < c.m_state_size → j < c.m_state_size →
      toDouble ((viterbiRowExact c i).1.getD k 0 * c.m_M2 k j)
        = (viterbiRowExact c i).1.getD k 0 * c.m_M2 k j)
    (hlast : ∀ k, k < c.m_state_size →
      toDouble ((viterbiRowExact c (c.seqLen - 1)).1.getD k 0)
        = (viterbiRowExact c (c.seqLen - 1)).1.getD k 0) :
    NarrowingExact toDouble c := by
  have hrow := viterbiRow_eq_exact_of toDouble c
    (fun i k j hi hk hj _ => hstep i k j hi hk hj)
  constructor
  · intro i k j hi hk hj
    rw [hrow i (by omega)]
    exact hstep i k j hi hk hj
  · intro k hk
    rw [hrow _ (le_refl _)]
    exact hlast k hk

theorem viterbiLast_eq_exact (toDouble : α → α) (c : CRF α) (h : NarrowingExact toDouble c) :
    viterbiLast toDouble c = viterbiLastExact c := by
  unfold viterbiLast viterbiLastExact
  rw [← viterbiRow_eq_exact toDouble c h _ (le_refl _)]
  exact maxLoop_congr _ _ _ (fun k hk => h.last k hk)

theorem psi_eq_exact (toDouble : α → α) (c : CRF α) (h : NarrowingExact toDouble c)
    (i j : Nat) : psi toDouble c i j = psiExact c i j := by
  unfold psi psiExact
  by_cases hi : i < c.seqLen
  · rw [if_pos hi, if_pos hi, viterbiRow_eq_exact toDouble c h i (by omega)]
  · rw [if_neg hi, if_neg hi, viterbiLast_eq_exact toDouble c h]

theorem delta_eq_exact (toDouble : α → α) (c : CRF α) (h : NarrowingExact toDouble c)
    (i j : Nat) : delta toDouble c i j = deltaExact c i j := by
  unfold delta deltaExact
  by_cases hi : i < c.seqLen
  · rw [if_pos hi, if_pos hi, viterbiRow_eq_exact toDouble c h i (by omega)]
  · rw [if_neg hi, if_neg hi, viterbiLast_eq_exact toDouble c h]

theorem backtrack_eq_exact (toDouble : α → α) (c : CRF α) (h : NarrowingExact toDouble c)
    (n : Nat) : ∀ p, backtrack toDouble c n p = backtrackExact c n p := by
  induction n with
  | zero => intro p; rfl
  | succ n ih =>
    intro p
    simp only [backtrack, backtrackExact, psi_eq_exact toDouble c h, ih]

/-- When the conversion changes no candidate, the decoder is the exact recursion. -/
theorem viterbiSearch_eq_exact (toDouble : α → α) (c : CRF α)
    (h : NarrowingExact toDouble c) : viterbiSearch toDouble c = viterbiSearchExact c := by
  unfold viterbiSearch viterbiSearchExact
  rw [backtrack_eq_exact toDouble c h, delta_eq_exact toDouble c h]

/-- Rows of `delta` are not negative when the conversion keeps values non-negative. -/
theorem viterbiRow_nonneg (toDouble : α → α) (hnn : ∀ x, 0 ≤ x → 0 ≤ toDouble x)
    (c : CRF α) (hp : Positive c) (i : Nat) :
    ∀ j, j < c.m_state_size → 0 ≤ (viterbiRow toDouble c i).1.getD j 0 := by
  induction i with
  | zero =>
    intro j hj
    rw [viterbiRow_zero_delta toDouble c j hj, one_mul]
    exact (hp.R_pos 0 j).le
  | succ i ih =>
    intro j hj
    rw [viterbiRow_succ_delta toDouble c i j hj]
    have hv : ∀ k, k < c.m_state_size →
        (-10000 : α) < toDouble ((viterbiRow toDouble c i).1.getD k 0 * c.m_M2 k j) := by
      intro k hk
      have := hnn _ (mul_nonneg (ih k hk) (hp.M2_pos k j).le)
      linarith
    obtain ⟨h1, h2, -, -⟩ := maxLoop_pos c.m_state_size _ (by omega) hv
    rw [h2]
    exact mul_nonneg (hnn _ (mul_nonneg (ih _ h1) (hp.M2_pos _ j).le)) (hp.R_pos _ j).le

theorem viterbiSearch_last (toDouble : α → α) (c : CRF α) (hT : 0 < c.seqLen) :
    (viterbiSearch toDouble c).1.getD (c.seqLen - 1) 0 = (viterbiLast toDouble c).2 := by
  have hlen : (backtrack toDouble c (c.seqLen - 1)
      (psi toDouble c c.seqLen m_default_oid)).reverse.length = c.seqLen - 1 := by
    rw [List.length_reverse, backtrack_length]
  obtain ⟨n, hn⟩ : ∃ n, c.seqLen = n + 1 := ⟨c.seqLen - 1, by omega⟩
  have hpsi : psi toDouble c c.seqLen m_default_oid = (viterbiLast toDouble c).2 := by
    simp [psi]
  simp only [viterbiSearch, CRF.m_seq_size, Nat.add_sub_cancel]
  rw [hn] at hlen ⊢
  simp only [backtrack, List.reverse_cons, Nat.add_sub_cancel] at hlen ⊢
  rw [List.getD_append_right _ _ _ _ (by rw [hlen]), hlen, ← hn, hpsi]
  simp

/-- The tie-break of the code: `psi` holds the first index that maximises the converted
candidates. -/
theorem psi_firstArgmax (toDouble : α → α) (hnn : ∀ x, 0 ≤ x → 0 ≤ toDouble x)
    (c : CRF α) (hp : Positive c) (hY : 0 < c.m_state_size)
    (i y : Nat) (hi1 : 1 ≤ i) (hiT : i < c.seqLen) (hy : y < c.m_state_size) :
    IsFirstArgmax c.m_state_size
      (fun k => toDouble (delta toDouble c (i - 1) k * c.m_M2 k y)) (psi toDouble c i y) := by
  obtain ⟨i', rfl⟩ : ∃ i', i = i' + 1 := ⟨i - 1, by omega⟩
  have hd : ∀ k, delta toDouble c (i' + 1 - 1) k = (viterbiRow toDouble c i').1.getD k 0 := by
    intro k
    simp only [delta, Nat.add_sub_cancel]
    rw [if_pos (by omega)]
  have hpsi : psi toDouble c (i' + 1) y =
      (maxLoop c.m_state_size
        (fun k => toDouble ((viterbiRow toDouble c i').1.getD k 0 * c.m_M2 k y))).2 := by
    unfold psi
    rw [if_pos hiT, viterbiRow_succ_psi toDouble c i' y hy]
  have hv : ∀ k, k < c.m_state_size →
      (-10000 : α) < toDouble ((viterbiRow toDouble c i').1.getD k 0 * c.m_M2 k y) := by
    intro k hk
    have := hnn _ (mul_nonneg (viterbiRow_nonneg toDouble hnn c hp i' k hk)
      (hp.M2_pos k y).le)
    linarith
  obtain ⟨h1, h2, h3, h4⟩ := maxLoop_pos c.m_state_size _ hY hv
  simp only [IsFirstArgmax, hd, hpsi]
  refine ⟨h1, ?_, ?_⟩
  · intro k hk
    have := h3 k hk
    rw [h2] at this
    exact this
  · intro k hk
    have := h4 k hk
    rw [h2] at this
    exact this

theorem last_firstArgmax (toDouble : α → α) (hnn : ∀ x, 0 ≤ x → 0 ≤ toDouble x)
    (c : CRF α) (hp : Positive c) (hY : 0 < c.m_state_size) (hT : 0 < c.seqLen) :
    IsFirstArgmax c.m_state_size (fun k => toDouble (delta toDouble c (c.seqLen - 1) k))
      ((viterbiSearch toDouble c).1.getD (c.seqLen - 1) 0) := by
  rw [viterbiSearch_last toDouble c hT]
  have hd : ∀ k, delta toDouble c (c.seqLen - 1) k
      = (viterbiRow toDouble c (c.seqLen - 1)).1.getD k 0 := by
    intro k
    simp only [delta]
    rw [if_pos (by omega)]
  have hv : ∀ k, k < c.m_state_size →
      (-10000 : α) < toDouble ((viterbiRow toDouble c (c.seqLen - 1)).1.getD k 0) := by
    intro k hk
    have := hnn _ (viterbiRow_nonneg toDouble hnn c hp (c.seqLen - 1) k hk)
    linarith
  obtain ⟨h1, h2, h3, h4⟩ := maxLoop_pos c.m_state_size _ hY hv
  simp only [IsFirstArgmax, hd]
  refine ⟨h1, ?_, ?_⟩
  · intro k hk
    have := h3 k hk
    rw [h2] at this
    exact this
  · intro k hk
    have := h4 k hk
    rw [h2] at this
    exact this

/-! ## The decoder on two concrete engines -/

theorem underflowing_positive : Positive underflowing := by
  constructor
  · intro i y
    show (0 : ℚ) < if i = 0 then (if y = 0 then (1 / 2) ^ 600 else (1 / 2) ^ 599) else 1
    split_ifs <;> positivity
  · intro k j
    show (0 : ℚ) < (1 / 2) ^ 600
    positivity

/-- The run of `viterbiSearch` on `underflowing`: both candidates of row 1,
`2^-1200` and `2^-1199`, are converted to `0`. -/
theorem underflowing_rows :
    viterbiRow binary64 underflowing 0 = ([(1 / 2) ^ 600, (1 / 2) ^ 599], [0, 0]) ∧
    viterbiRow binary64 underflowing 1 = ([0, 0], [0, 0]) ∧
    viterbiLast binary64 underflowing = (0, 0) := by
  have hR : List.range 2 = [0, 1] := rfl
  have hn : underflowing.m_state_size = 2 := rfl
  have hM : ∀ k j, underflowing.m_M2 k j = (1 / 2) ^ 600 := fun _ _ => rfl
  have hR1 : ∀ j, underflowing.m_R (0 + 1) j = 1 := fun _ => rfl
  have hu0 : binary64 ((1 / 2) ^ 600 * (1 / 2) ^ 600) = 0 :=
    binary64_underflow _ (by positivity) (by norm_num)
  have hu1 : binary64 ((1 / 2) ^ 599 * (1 / 2) ^ 600) = 0 :=
    binary64_underflow _ (by positivity) (by norm_num)
  have h0 : viterbiRow binary64 underflowing 0 =
      ([(1 / 2) ^ 600, (1 / 2) ^ 599], [0, 0]) := by
    have hR00 : underflowing.m_R 0 0 = (1 / 2) ^ 600 := rfl
    have hR01 : underflowing.m_R 0 1 = (1 / 2) ^ 599 := rfl
    simp only [viterbiRow, hn, hR, List.map_cons, List.map_nil, one_mul, hR00, hR01,
      m_default_oid]
  have hm : ∀ j, maxLoop 2 (fun k => binary64
      (([(1 / 2) ^ 600, (1 / 2) ^ 599] : List ℚ).getD k 0 * underflowing.m_M2 k j))
        = (0, 0) := by
    intro j
    exact maxLoop_two_ge _ 0 0 hu0 hu1 (by norm_num) (le_refl _)
  have h1 : viterbiRow binary64 underflowing 1 = ([0, 0], [0, 0]) := by
    rw [viterbiRow_succ_eq, h0, hn, hR]
    simp only [List.map_cons, List.map_nil, hm, hR1]
    norm_num
  refine ⟨h0, h1, ?_⟩
  unfold viterbiLast
  have hs : underflowing.seqLen - 1 = 1 := rfl
  rw [hs, hn, h1]
  exact maxLoop_two_ge _ 0 0 (by simpa using binary64_zero) (by simpa using binary64_zero)
    (by norm_num) (le_refl _)

/-- In the scenario "transition dominates observations" with `R = 1` every candidate is
`1` or `e`: a conversion that keeps these two values changes no candidate. -/
theorem transitionDominates_narrowingExact (toDouble : α → α) (e : α) (he : 1 < e)
    (h1 : toDouble 1 = 1) (h2 : toDouble e = e) :
    NarrowingExact toDouble (transitionDominates 1 e) := by
  obtain ⟨r0, r1, r2⟩ := transitionDominates_rows (1 : α) e one_pos he
  have hM : ∀ k j, (transitionDominates (1 : α) e).m_M2 k j
      = if k = 0 ∧ j = 1 then e else 1 := fun _ _ => rfl
  apply narrowingExact_of_exact
  · intro i k j hi hk hj
    have hi2 : i + 1 < 3 := hi
    have hk2 : k < 2 := hk
    have hj2 : j < 2 := hj
    have hi3 : i = 0 ∨ i = 1 := by omega
    have hk3 : k = 0 ∨ k = 1 := by omega
    have hj3 : j = 0 ∨ j = 1 := by omega
    rcases hi3 with rfl | rfl <;> rcases hk3 with rfl | rfl <;> rcases hj3 with rfl | rfl <;>
      simp [r0, r1, hM, h1, h2]
  · intro k hk
    have hk2 : k < 2 := hk
    have hs : (transitionDominates (1 : α) e).seqLen - 1 = 2 := rfl
    have hk3 : k = 0 ∨ k = 1 := by omega
    rw [hs, r2]
    rcases hk3 with rfl | rfl <;> simp [h2]

theorem transitionDominates_search (toDouble : α → α) (e : α) (he : 1 < e)
    (h1 : toDouble 1 = 1) (h2 : toDouble e = e) :
    viterbiSearch toDouble (transitionDominates 1 e) = ([0, 1, 0], e) := by
  rw [viterbiSearch_eq_exact toDouble _ (transitionDominates_narrowingExact toDouble e he h1 h2)]
  have hp := transitionDominates_path (1 : α) e one_pos he
  have hl : (viterbiSearchExact (transitionDominates (1 : α) e)).2 = e := by
    rw [viterbiSearchExact_prob]
    obtain ⟨_, _, r2⟩ := transitionDominates_rows (1 : α) e one_pos he
    unfold viterbiLastExact
    have hs : (transitionDominates (1 : α) e).seqLen - 1 = 2 := rfl
    have hn : (transitionDominates (1 : α) e).m_state_size = 2 := rfl
    rw [hs, hn, r2]
    rw [maxLoop_two_ge _ (1 * e * 1 * 1) (1 * 1 * e * 1) (by simp) (by simp)
      (by simp; linarith) (le_of_eq (by ring))]
    simp
  exact Prod.ext hp hl

theorem transitionDominates_scores (e : α) :
    score (transitionDominates 1 e) [0, 0, 1] = e ∧
    score (transitionDominates 1 e) [0, 1, 0] = e ∧
    score (transitionDominates 1 e) [0, 1, 1] = e ∧
    score (transitionDominates 1 e) [1, 0, 1] = e := by
  refine ⟨?_, ?_, ?_, ?_⟩ <;>
    simp [score, transitionDominates, Finset.prod_range_succ, Finset.prod_Ico_succ_top]

/-! ## Claims about `viterbiSearch` -/

/-- C9 (as the code behaves). In the scenario "transition dominates observations" with
`R = 1` everywhere and `M2[A,B] = e`, where `e > 1` is the stored `double` (so the
conversion keeps `1` and `e`), `viterbiSearch` returns `A B A` with `prob = e`: the
sequences `A A B`, `A B A`, `A B B` and `B A B` all have the score `e` and the tie is
broken towards the lowest id. -/
theorem transitionDominates_returns_ABA (toDouble : α → α) (e : α) (he : 1 < e)
    (h1 : toDouble 1 = 1) (h2 : toDouble e = e) :
    viterbiSearch toDouble (transitionDominates 1 e) = ([0, 1, 0], e) ∧
    score (transitionDominates 1 e) [0, 0, 1] = e ∧
    score (transitionDominates 1 e) [0, 1, 0] = e ∧
    score (transitionDominates 1 e) [0, 1, 1] = e ∧
    score (transitionDominates 1 e) [1, 0, 1] = e :=
  ⟨transitionDominates_search toDouble e he h1 h2, transitionDominates_scores e⟩

theorem transitionDominates_returns_ABA_witness :
    viterbiSearch binary64 (transitionDominates 1 (5221823812744079 / 2 ^ 45))
      = ([0, 1, 0], 5221823812744079 / 2 ^ 45) :=
  (transitionDominates_returns_ABA binary64 (5221823812744079 / 2 ^ 45) (by norm_num)
    binary64_one binary64_exp5).1

/-- C9 as stated fails: with `R = 1` everywhere and `M2[A,B]` the `double` nearest to
`exp 5` the decoder does not return `A B B`. -/
theorem transitionDominates_not_ABB :
    (viterbiSearch binary64 (transitionDominates 1 (5221823812744079 / 2 ^ 45))).1
      ≠ [0, 1, 1] := by
  rw [transitionDominates_search binary64 _ (by norm_num) binary64_one binary64_exp5]
  decide

/-- C10 as stated fails: on the engine `underflowing` the stored predecessor `psi[1][0]` is
`0`, while `delta[0][1] * M2[1,0] = 2^-1199` exceeds `delta[0][0] * M2[0,0] = 2^-1200`:
both candidates are converted to `0` and the first one is kept. -/
theorem psi_underflow_not_argmax :
    Positive underflowing ∧
    psi binary64 underflowing 1 0 = 0 ∧
    delta binary64 underflowing 0 0 * underflowing.m_M2 0 0
      < delta binary64 underflowing 0 1 * underflowing.m_M2 1 0 ∧
    ¬ IsFirstArgmax 2 (fun k => delta binary64 underflowing 0 k * underflowing.m_M2 k 0)
        (psi binary64 underflowing 1 0) := by
  obtain ⟨h0, h1, _⟩ := underflowing_rows
  have hT : underflowing.seqLen = 2 := rfl
  have hpsi : psi binary64 underflowing 1 0 = 0 := by
    simp [psi, hT, h1]
  have hd0 : delta binary64 underflowing 0 0 = (1 / 2) ^ 600 := by
    simp [delta, hT, h0]
  have hd1 : delta binary64 underflowing 0 1 = (1 / 2) ^ 599 := by
    simp [delta, hT, h0]
  have hM : ∀ k j, underflowing.m_M2 k j = (1 / 2) ^ 600 := fun _ _ => rfl
  have hlt : delta binary64 underflowing 0 0 * underflowing.m_M2 0 0
      < delta binary64 underflowing 0 1 * underflowing.m_M2 1 0 := by
    rw [hd0, hd1, hM, hM]
    norm_num
  refine ⟨underflowing_positive, hpsi, hlt, ?_⟩
  rw [hpsi]
  intro h
  have := h.2.1 1 (by norm_num)
  exact absurd hlt (not_lt.mpr this)

/-- C10. Viterbi tie-break: for strictly positive potentials and a conversion to `double`
that keeps non-negative values non-negative, at every position `1 ≤ i < T` and label `y`
the stored predecessor `psi[i][y]` is the smallest label id maximising the candidate
`delta[i-1][k] * M2[k,y]` as converted to `double`, and the last label of the returned
sequence (of length `T`) is the smallest label id maximising `delta[T-1][k]` as converted
to `double`. -/
theorem viterbiSearch_tie_break (toDouble : α → α) (hnn : ∀ x, 0 ≤ x → 0 ≤ toDouble x)
    (c : CRF α) (hY : 1 ≤ c.m_state_size) (hT : 1 ≤ c.seqLen) (hp : Positive c) :
    (∀ i y, 1 ≤ i → i < c.seqLen → y < c.m_state_size →
      IsFirstArgmax c.m_state_size
        (fun k => toDouble (delta toDouble c (i - 1) k * c.m_M2 k y))
        (psi toDouble c i y)) ∧
    (viterbiSearch toDouble c).1.length = c.seqLen ∧
    IsFirstArgmax c.m_state_size (fun k => toDouble (delta toDouble c (c.seqLen - 1) k))
      ((viterbiSearch toDouble c).1.getD (c.seqLen - 1) 0) :=
  ⟨fun i y hi1 hiT hy => psi_firstArgmax toDouble hnn c hp hY i y hi1 hiT hy,
    viterbiSearch_length toDouble c, last_firstArgmax toDouble hnn c hp hY hT⟩

theorem viterbiSearch_tie_break_witness :
    IsFirstArgmax 2 (fun k => binary64 (delta binary64 underflowing (2 - 1) k))
      ((viterbiSearch binary64 underflowing).1.getD (2 - 1) 0) :=
  (viterbiSearch_tie_break binary64 binary64_nonneg underflowing (by decide) (by decide)
    underflowing_positive).2.2

/-! ## Loops as sums -/

theorem sumLoop_eq (n : Nat) (f : Nat → α) : sumLoop n f = ∑ j in Finset.range n, f j := by
  induction n with
  | zero => rfl
  | succ n ih =>
    have h : sumLoop (n + 1) f = sumLoop n f + f n := by
      simp [sumLoop, List.range_succ, List.foldl_append]
    rw [h, ih, Finset.sum_range_succ]

theorem foldl_add_eq (l : List Nat) (f : Nat → α) :
    ∀ a : α, l.foldl (fun acc k => acc + f k) a = a + (l.map f).sum := by
  induction l with
  | nil => intro a; simp
  | cons x xs ih =>
    intro a
    simp only [List.foldl_cons, List.map_cons, List.sum_cons]
    rw [ih]
    ring

/-- A sum over a duplicate-free list of labels that covers the support of `f` is the sum
over all labels. -/
theorem list_sum_eq_range (n : Nat) (l : List Nat) (f : Nat → α) (hnd : l.Nodup)
    (hlt : ∀ k ∈ l, k < n) (hz : ∀ k, k < n → k ∉ l → f k = 0) :
    (l.map f).sum = ∑ k in Finset.range n, f k := by
  rw [← List.sum_toFinset f hnd]
  apply Finset.sum_subset
  · intro k hk
    rw [List.mem_toFinset] at hk
    exact Finset.mem_range.mpr (hlt k hk)
  · intro k hk hnk
    rw [List.mem_toFinset] at hnk
    exact hz k (Finset.mem_range.mp hk) hnk

theorem normalizeRow_getD (n : Nat) (raw : Nat → α) (j : Nat) (hj : j < n) :
    (normalizeRow n raw).1.getD j 0 = raw j / ∑ k in Finset.range n, raw k := by
  simp only [normalizeRow, sumLoop_eq]
  exact getD_map_range _ _ _ _ hj

theorem normalizeRow_snd (n : Nat) (raw : Nat → α) :
    (normalizeRow n raw).2 = ∑ k in Finset.range n, raw k := by
  simp only [normalizeRow, sumLoop_eq]

/-- The factored forward step is the dense one when the previous row sums to `1`. -/
theorem alphaRawStep_eq (c : CRF α) (hn : PredOK c) (prev : List α) (i j : Nat)
    (hsum : ∑ k in Finset.range c.m_state_size, prev.getD k 0 = 1) :
    alphaRawStep c prev i j =
      c.m_R i j * ∑ k in Finset.range c.m_state_size, prev.getD k 0 * c.m_M2 k j := by
  unfold alphaRawStep
  rw [foldl_add_eq, zero_add,
    list_sum_eq_range c.m_state_size _ _ (hn.pred_nodup j) (hn.pred_lt j)]
  · have h1 : ∑ k in Finset.range c.m_state_size, prev.getD k 0 * c.m_R i j * (c.m_M2 k j - 1) =
        c.m_R i j * (∑ k in Finset.range c.m_state_size, prev.getD k 0 * c.m_M2 k j
          - ∑ k in Finset.range c.m_state_size, prev.getD k 0) := by
      rw [← Finset.sum_sub_distrib, Finset.mul_sum]
      apply Finset.sum_congr rfl
      intro k _
      ring
    rw [h1, hsum]
    ring
  · intro k hk hnk
    have h1 : c.m_M2 k j = 1 := by
      by_contra hne
      exact hnk (hn.pred_cover j k hk hne)
    rw [h1]
    ring

/-- The factored backward step is the dense one. -/
theorem betaRawStep_eq (c : CRF α) (hn : SuccOK c) (next : List α) (i j : Nat) :
    betaRawStep c next i j =
      ∑ k in Finset.range c.m_state_size, c.m_M2 j k * c.m_R i k * next.getD k 0 := by
  unfold betaRawStep
  rw [foldl_add_eq, zero_add, sumLoop_eq,
    list_sum_eq_range c.m_state_size _ _ (hn.succ_nodup j) (hn.succ_lt j)]
  · rw [← Finset.sum_add_distrib]
    apply Finset.sum_congr rfl
    intro k _
    ring
  · intro k hk hnk
    have h1 : c.m_M2 j k = 1 := by
      by_contra hne
      exact hnk (hn.succ_cover j k hk hne)
    rw [h1]
    ring

/-! ## Rescaled rows against the unscaled recursions -/

theorem normalizeRow_props (n : Nat) (raw : Nat → α) (hn : 0 < n)
    (hraw : ∀ j, j < n → 0 < raw j) :
    0 < (normalizeRow n raw).2 ∧
    (∀ j, j < n → 0 < (normalizeRow n raw).1.getD j 0) ∧
    ∑ j in Finset.range n, (normalizeRow n raw).1.getD j 0 = 1 ∧
    (∀ j, j < n → (normalizeRow n raw).1.getD j 0 * (normalizeRow n raw).2 = raw j) := by
  have hs : 0 < ∑ k in Finset.range n, raw k :=
    Finset.sum_pos (fun j hj => hraw j (Finset.mem_range.mp hj))
      ⟨0, Finset.mem_range.mpr hn⟩
  refine ⟨by rw [normalizeRow_snd]; exact hs, ?_, ?_, ?_⟩
  · intro j hj
    rw [normalizeRow_getD n raw j hj]
    exact div_pos (hraw j hj) hs
  · have h1 : ∑ j in Finset.range n, (normalizeRow n raw).1.getD j 0 =
        ∑ j in Finset.range n, raw j / ∑ k in Finset.range n, raw k :=
      Finset.sum_congr rfl (fun j hj => normalizeRow_getD n raw j (Finset.mem_range.mp hj))
    rw [h1, ← Finset.sum_div, div_self (ne_of_gt hs)]
  · intro j hj
    rw [normalizeRow_getD n raw j hj, normalizeRow_snd, div_mul_cancel₀ _ (ne_of_gt hs)]

theorem scaleUpTo_succ (c : CRF α) (i : Nat) :
    scaleUpTo c (i + 1) = scaleUpTo c i * (forwardRow c (i + 1)).2 := by
  simp only [scaleUpTo]
  rw [Finset.prod_range_succ]

theorem scale2UpTo_succ (c : CRF α) (d : Nat) :
    scale2UpTo c (d + 1) = scale2UpTo c d * (backwardRow c (d + 1)).2 := by
  simp only [scale2UpTo]
  rw [Finset.prod_range_succ]

/-- The rows of `forward`: positive scale, positive entries summing to `1`, and each entry
times the product of the scales so far is the unscaled forward value. -/
theorem forwardRow_spec (c : CRF α) (hp : Positive c) (hn : PredOK c)
    (hY : 0 < c.m_state_size) (i : Nat) :
    0 < (forwardRow c i).2 ∧
    (∀ j, j < c.m_state_size → 0 < (forwardRow c i).1.getD j 0) ∧
    ∑ j in Finset.range c.m_state_size, (forwardRow c i).1.getD j 0 = 1 ∧
    (∀ j, j < c.m_state_size →
      (forwardRow c i).1.getD j 0 * scaleUpTo c i = fwdTrue c i j) := by
  induction i with
  | zero =>
    have hraw : ∀ j, j < c.m_state_size → 0 < alphaRaw0 c j := by
      intro j _
      simp only [alphaRaw0, zero_add, mul_one]
      exact hp.R_pos 0 j
    obtain ⟨h1, h2, h3, h4⟩ := normalizeRow_props c.m_state_size (alphaRaw0 c) hY hraw
    refine ⟨h1, h2, h3, ?_⟩
    intro j hj
    have := h4 j hj
    simp only [scaleUpTo, zero_add, Finset.prod_range_one, forwardRow, fwdTrue]
    rw [this]
    simp [alphaRaw0]
  | succ i ih =>
    obtain ⟨_, i2, i3, i4⟩ := ih
    have hraw : ∀ j, j < c.m_state_size →
        0 < alphaRawStep c (forwardRow c i).1 (i + 1) j := by
      intro j _
      rw [alphaRawStep_eq c hn _ _ _ i3]
      apply mul_pos (hp.R_pos _ _)
      exact Finset.sum_pos
        (fun k hk => mul_pos (i2 k (Finset.mem_range.mp hk)) (hp.M2_pos k j))
        ⟨0, Finset.mem_range.mpr hY⟩
    obtain ⟨h1, h2, h3, h4⟩ := normalizeRow_props c.m_state_size _ hY hraw
    refine ⟨h1, h2, h3, ?_⟩
    intro j hj
    have h5 := h4 j hj
    rw [scaleUpTo_succ]
    have e : (forwardRow c (i + 1)).1.getD j 0 * (scaleUpTo c i * (forwardRow c (i + 1)).2)
        = ((forwardRow c (i + 1)).1.getD j 0 * (forwardRow c (i + 1)).2) * scaleUpTo c i := by
      ring
    rw [e]
    simp only [forwardRow] at h5 ⊢
    rw [h5, alphaRawStep_eq c hn _ _ _ i3]
    simp only [fwdTrue]
    rw [mul_assoc, Finset.sum_mul]
    congr 1
    apply Finset.sum_congr rfl
    intro k hk
    rw [← i4 k (Finset.mem_range.mp hk)]
    ring

/-- The rows of `backward`: positive scale, positive entries, and each entry times the
product of the backward scales so far is the unscaled backward value. -/
theorem backwardRow_spec (c : CRF α) (hp : Positive c) (hn : SuccOK c)
    (hY : 0 < c.m_state_size) (d : Nat) :
    0 < (backwardRow c d).2 ∧
    (∀ j, j < c.m_state_size → 0 < (backwardRow c d).1.getD j 0) ∧
    (∀ j, j < c.m_state_size →
      (backwardRow c d).1.getD j 0 * scale2UpTo c d = bwdTrue c d j) := by
  induction d with
  | zero =>
    have hraw : ∀ j, j < c.m_state_size → 0 < (fun _ : Nat => (0 : α) + 1) j := by
      intro j _
      simp
    obtain ⟨h1, h2, _, h4⟩ := normalizeRow_props c.m_state_size _ hY hraw
    refine ⟨h1, h2, ?_⟩
    intro j hj
    have h5 := h4 j hj
    simp only [scale2UpTo, zero_add, Finset.prod_range_one, backwardRow, bwdTrue] at h5 ⊢
    exact h5
  | succ d ih =>
    obtain ⟨_, i2, i4⟩ := ih
    have hraw : ∀ j, j < c.m_state_size →
        0 < betaRawStep c (backwardRow c d).1 (c.seqLen - 1 - d) j := by
      intro j _
      rw [betaRawStep_eq c hn]
      exact Finset.sum_pos
        (fun k hk => mul_pos (mul_pos (hp.M2_pos j k) (hp.R_pos _ k))
          (i2 k (Finset.mem_range.mp hk)))
        ⟨0, Finset.mem_range.mpr hY⟩
    obtain ⟨h1, h2, _, h4⟩ := normalizeRow_props c.m_state_size _ hY hraw
    refine ⟨h1, h2, ?_⟩
    intro j hj
    have h5 := h4 j hj
    rw [scale2UpTo_succ]
    have e : (backwardRow c (d + 1)).1.getD j 0 * (scale2UpTo c d * (backwardRow c (d + 1)).2)
        = ((backwardRow c (d + 1)).1.getD j 0 * (backwardRow c (d + 1)).2) * scale2UpTo c d := by
      ring
    rw [e]
    simp only [backwardRow] at h5 ⊢
    rw [h5, betaRawStep_eq c hn]
    simp only [bwdTrue]
    rw [Finset.sum_mul]
    apply Finset.sum_congr rfl
    intro k hk
    rw [← i4 k (Finset.mem_range.mp hk)]
    ring

theorem scaleUpTo_pos (c : CRF α) (hp : Positive c) (hn : PredOK c)
    (hY : 0 < c.m_state_size) (i : Nat) : 0 < scaleUpTo c i :=
  Finset.prod_pos (fun a _ => (forwardRow_spec c hp hn hY a).1)

theorem scale2UpTo_pos (c : CRF α) (hp : Positive c) (hn : SuccOK c)
    (hY : 0 < c.m_state_size) (d : Nat) : 0 < scale2UpTo c d :=
  Finset.prod_pos (fun a _ => (backwardRow_spec c hp hn hY a).1)

theorem sum_fwdTrue (c : CRF α) (hp : Positive c) (hn : PredOK c)
    (hY : 0 < c.m_state_size) (i : Nat) :
    ∑ j in Finset.range c.m_state_size, fwdTrue c i j = scaleUpTo c i := by
  obtain ⟨_, _, h3, h4⟩ := forwardRow_spec c hp hn hY i
  have : ∑ j in Finset.range c.m_state_size, fwdTrue c i j =
      ∑ j in Finset.range c.m_state_size, (forwardRow c i).1.getD j 0 * scaleUpTo c i :=
    Finset.sum_congr rfl (fun j hj => (h4 j (Finset.mem_range.mp hj)).symm)
  rw [this, ← Finset.sum_mul, h3, one_mul]

/-- One step of the forward-backward invariant: the sum over labels of forward times
backward values does not depend on the position. -/
theorem fwd_bwd_step (c : CRF α) (i : Nat) (hi : i + 1 < c.seqLen) :
    ∑ j in Finset.range c.m_state_size, fwdTrue c (i + 1) j * bwdTrue c (c.seqLen - 1 - (i + 1)) j
      = ∑ k in Finset.range c.m_state_size, fwdTrue c i k * bwdTrue c (c.seqLen - 1 - i) k := by
  obtain ⟨d, hd⟩ : ∃ d, c.seqLen - 1 - (i + 1) = d := ⟨_, rfl⟩
  have hd1 : c.seqLen - 1 - i = d + 1 := by omega
  have hd2 : c.seqLen - 1 - d = i + 1 := by omega
  rw [hd, hd1]
  simp only [fwdTrue, bwdTrue, hd2]
  simp only [Finset.mul_sum, Finset.sum_mul]
  rw [Finset.sum_comm]
  apply Finset.sum_congr rfl
  intro k _
  apply Finset.sum_congr rfl
  intro j _
  ring

theorem fwd_bwd_const (c : CRF α) (i : Nat) (hi : i < c.seqLen) :
    ∑ j in Finset.range c.m_state_size, fwdTrue c i j * bwdTrue c (c.seqLen - 1 - i) j
      = ∑ j in Finset.range c.m_state_size, c.m_R 0 j * bwdTrue c (c.seqLen - 1) j := by
  induction i with
  | zero => rfl
  | succ i ih => rw [fwd_bwd_step c i hi, ih (by omega)]

/-! ## Sums over all label sequences -/

theorem sum_map_range (n : Nat) (f : Nat → α) :
    ((List.range n).map f).sum = ∑ j in Finset.range n, f j := by
  induction n with
  | zero => rfl
  | succ n ih =>
    rw [List.range_succ, List.map_append, List.sum_append, ih, Finset.sum_range_succ]
    simp

theorem sum_map_flatMap {β γ : Type} (l : List β) (g : β → List γ) (f : γ → α) :
    ((l.flatMap g).map f).sum = (l.map (fun x => ((g x).map f).sum)).sum := by
  induction l with
  | nil => rfl
  | cons x xs ih =>
    rw [List.flatMap_cons, List.map_append, List.sum_append, ih]
    rfl

theorem sum_allSeqs_succ (n T : Nat) (f : List Nat → α) :
    ((allSeqs n (T + 1)).map f).sum =
      ∑ y in Finset.range n, ((allSeqs n T).map (fun ys => f (y :: ys))).sum := by
  simp only [allSeqs]
  rw [sum_map_flatMap, sum_map_range]
  apply Finset.sum_congr rfl
  intro y _
  rw [List.map_map]
  rfl

theorem getD_cons_eq (y : Nat) (ys : List Nat) (t : Nat) :
    (y :: ys).getD t 0 = if t = 0 then y else ys.getD (t - 1) 0 := by
  cases t with
  | zero => simp
  | succ t => simp

theorem sufScore_eq_prod (c : CRF α) (ys : List Nat) :
    ∀ s p, sufScore c s p ys =
      ∏ t in Finset.range ys.length,
        (c.m_M2 (if t = 0 then p else ys.getD (t - 1) 0) (ys.getD t 0)
          * c.m_R (s + t) (ys.getD t 0)) := by
  induction ys with
  | nil => intro s p; simp [sufScore]
  | cons y ys ih =>
    intro s p
    simp only [sufScore, List.length_cons]
    rw [Finset.prod_range_succ', ih (s + 1) y]
    simp only [List.getD_cons_succ, List.getD_cons_zero, Nat.add_sub_cancel, if_true,
      Nat.add_zero, Nat.succ_ne_zero, if_false]
    rw [mul_comm]
    congr 1
    apply Finset.prod_congr rfl
    intro t _
    rw [getD_cons_eq y ys t]
    congr 2
    omega

theorem score_cons (c : CRF α) (y : Nat) (ys : List Nat) :
    score c (y :: ys) = c.m_R 0 y * sufScore c 1 y ys := by
  rw [sufScore_eq_prod]
  simp only [score, List.length_cons]
  rw [Finset.prod_range_succ', Finset.prod_Ico_eq_prod_range]
  simp only [Nat.add_sub_cancel, List.getD_cons_zero, List.getD_cons_succ]
  rw [mul_comm (∏ k in Finset.range ys.length, c.m_R (k + 1) (ys.getD k 0)), mul_assoc,
    ← Finset.prod_mul_distrib]
  congr 1
  apply Finset.prod_congr rfl
  intro t _
  rw [Nat.add_sub_cancel_left, getD_cons_eq y ys t, getD_cons_eq y ys (1 + t)]
  have h1 : ¬ (1 + t = 0) := by omega
  rw [if_neg h1, Nat.add_sub_cancel_left, Nat.add_comm t 1]
  ring

/-- The suffix sums over all label sequences follow the backward recursion. -/
theorem sum_sufScore (c : CRF α) (n : Nat) :
    ∀ s p, s + n = c.seqLen →
      ((allSeqs c.m_state_size n).map (sufScore c s p)).sum = bwdTrue c n p := by
  induction n with
  | zero => intro s p _; simp [allSeqs, sufScore, bwdTrue]
  | succ n ih =>
    intro s p hs
    rw [sum_allSeqs_succ]
    simp only [bwdTrue, sufScore]
    have hs2 : c.seqLen - 1 - n = s := by omega
    rw [hs2]
    apply Finset.sum_congr rfl
    intro y _
    rw [← ih (s + 1) y (by omega), ← List.sum_map_mul_left]

/-- The partition function as a sum over the first label. -/
theorem partition_eq (c : CRF α) (hT : 0 < c.seqLen) :
    partition c = ∑ j in Finset.range c.m_state_size, c.m_R 0 j * bwdTrue c (c.seqLen - 1) j := by
  obtain ⟨T, hT2⟩ : ∃ T, c.seqLen = T + 1 := ⟨c.seqLen - 1, by omega⟩
  simp only [partition, sumSeqs, hT2, Nat.add_sub_cancel]
  rw [sum_allSeqs_succ]
  apply Finset.sum_congr rfl
  intro y _
  rw [← sum_sufScore c T 1 y (by omega), ← List.sum_map_mul_left]
  congr 1
  apply List.map_congr_left
  intro ys _
  exact score_cons c y ys

/-- The partition function is the forward-backward sum at every position. -/
theorem partition_eq_fwd_bwd (c : CRF α) (i : Nat) (hi : i < c.seqLen) :
    partition c =
      ∑ j in Finset.range c.m_state_size, fwdTrue c i j * bwdTrue c (c.seqLen - 1 - i) j := by
  rw [partition_eq c (by omega), fwd_bwd_const c i hi]

/-- The partition function is the product of the forward scales of all real positions. -/
theorem partition_eq_scaleUpTo (c : CRF α) (hp : Positive c) (hn : PredOK c)
    (hY : 0 < c.m_state_size) (hT : 0 < c.seqLen) :
    partition c = scaleUpTo c (c.seqLen - 1) := by
  rw [partition_eq_fwd_bwd c (c.seqLen - 1) (by omega), ← sum_fwdTrue c hp hn hY]
  apply Finset.sum_congr rfl
  intro j _
  rw [Nat.sub_self]
  simp [bwdTrue]

/-! ## The buffers after `forward()` and `backward()` -/

theorem prodLoop_spec (sc : Nat → α) (m : Nat) (n : Nat) (hn : n ≤ m) :
    (prodLoop sc m n).1 = ∏ a in Finset.Ico (m - n) m, sc a ∧
    (prodLoop sc m n).2.length = n ∧
    (∀ t, t < n → (prodLoop sc m n).2.getD t 0 = ∏ a in Finset.Ico (m - 1 - t) m, sc a) := by
  induction n with
  | zero => simp [prodLoop]
  | succ n ih =>
    obtain ⟨h1, h2, h3⟩ := ih (by omega)
    have e1 : m - (n + 1) = m - 1 - n := by omega
    have e2 : m - 1 - n + 1 = m - n := by omega
    have hnew : (prodLoop sc m n).1 * sc (m - 1 - n) = ∏ a in Finset.Ico (m - 1 - n) m, sc a := by
      rw [Finset.prod_eq_prod_Ico_succ_bot (by omega : m - 1 - n < m), e2, h1, mul_comm]
    simp only [prodLoop]
    refine ⟨by rw [hnew, e1], by simp [h2], ?_⟩
    intro t ht
    by_cases htn : t < n
    · rw [List.getD_append _ _ _ _ (by rw [h2]; exact htn)]
      exact h3 t htn
    · have hte : t = n := by omega
      subst hte
      rw [List.getD_append_right _ _ _ _ (by rw [h2]), h2]
      simp [hnew]

theorem prodLoop_reverse_getD (sc : Nat → α) (m i : Nat) (hi : i < m) :
    (prodLoop sc m m).2.reverse.getD i 0 = ∏ a in Finset.Ico i m, sc a := by
  obtain ⟨_, h2, h3⟩ := prodLoop_spec sc m m (le_refl _)
  have h4 := h3 (m - 1 - i) (by omega)
  have e : m - 1 - (m - 1 - i) = i := by omega
  rw [e] at h4
  rw [← h4, List.getD_eq_getElem?_getD, List.getD_eq_getElem?_getD,
    List.getElem?_reverse (by rw [h2]; exact hi), h2]

theorem m_Alpha_lt (c : CRF α) (i j : Nat) (hi : i < c.seqLen) :
    m_Alpha c i j = (forwardRow c i).1.getD j 0 := by
  simp [m_Alpha, hi]

theorem m_Beta_lt (c : CRF α) (i j : Nat) (hi : i < c.seqLen) :
    m_Beta c i j = (backwardRow c (c.seqLen - 1 - i)).1.getD j 0 := by
  simp [m_Beta, hi]

theorem scale_lt (c : CRF α) (i : Nat) (hi : i < c.seqLen) :
    scale c i = (forwardRow c i).2 := by
  simp [scale, hi]

theorem scale2_lt (c : CRF α) (i : Nat) (hi : i < c.seqLen) :
    scale2 c i = (backwardRow c (c.seqLen - 1 - i)).2 := by
  simp [scale2, hi]

theorem scale2_last (c : CRF α) : scale2 c c.seqLen = 1 := by
  simp [scale2]

/-- The terminal alpha entry, hence the stored partition value, is `1`. -/
theorem m_Alpha_last (c : CRF α) (hp : Positive c) (hn : PredOK c)
    (hY : 0 < c.m_state_size) : m_Alpha c c.seqLen m_default_oid = 1 := by
  simp only [m_Alpha, lt_irrefl, if_false, true_and, if_true, sumLoop_eq]
  exact (forwardRow_spec c hp hn hY (c.seqLen - 1)).2.2.1

theorem getPartitionZ_eq_one (c : CRF α) (hp : Positive c) (hn : PredOK c)
    (hY : 0 < c.m_state_size) : getPartitionZ c = 1 := by
  simp only [getPartitionZ, CRF.m_seq_size, Nat.add_sub_cancel]
  exact m_Alpha_last c hp hn hY

theorem scale_last (c : CRF α) (hp : Positive c) (hn : PredOK c)
    (hY : 0 < c.m_state_size) : scale c c.seqLen = 1 := by
  simp only [scale, lt_irrefl, if_false, if_true]
  exact m_Alpha_last c hp hn hY

theorem scaleUpTo_eq (c : CRF α) (i : Nat) (hi : i < c.seqLen) :
    scaleUpTo c i = ∏ a in Finset.range (i + 1), scale c a := by
  simp only [scaleUpTo]
  apply Finset.prod_congr rfl
  intro a ha
  rw [scale_lt c a (by have := Finset.mem_range.mp ha; omega)]

theorem prod_scale_getD (c : CRF α) (i : Nat) (hi : i ≤ c.seqLen) :
    (prod_scale c).getD i 0 = ∏ a in Finset.Ico i (c.seqLen + 1), scale c a := by
  simp only [prod_scale, CRF.m_seq_size]
  exact prodLoop_reverse_getD _ _ i (by omega)

theorem prod_scale2_getD (c : CRF α) (i : Nat) (hi : i ≤ c.seqLen) :
    (prod_scale2 c).getD i 0 = ∏ a in Finset.Ico i (c.seqLen + 1), scale2 c a := by
  simp only [prod_scale2, CRF.m_seq_size]
  exact prodLoop_reverse_getD _ _ i (by omega)

/-- The forward scales before position `i + 1` and the suffix product `prod_scale[i+1]`
multiply to the partition function. -/
theorem scaleUpTo_mul_prod_scale (c : CRF α) (hp : Positive c) (hn : PredOK c)
    (hY : 0 < c.m_state_size) (i : Nat) (hi : i < c.seqLen) :
    scaleUpTo c i * (prod_scale c).getD (i + 1) 0 = partition c := by
  rw [prod_scale_getD c (i + 1) (by omega), Finset.prod_Ico_succ_top (by omega),
    scale_last c hp hn hY, mul_one, scaleUpTo_eq c i hi,
    Finset.prod_range_mul_prod_Ico _ (by omega : i + 1 ≤ c.seqLen),
    partition_eq_scaleUpTo c hp hn hY (by omega), scaleUpTo_eq c _ (by omega)]
  have e : c.seqLen - 1 + 1 = c.seqLen := by omega
  rw [e]

/-- The suffix product `prod_scale2[i]` is the product of the backward scales of the rows
from the last position back to position `i`. -/
theorem prod_scale2_eq (c : CRF α) (i : Nat) (hi : i < c.seqLen) :
    (prod_scale2 c).getD i 0 = scale2UpTo c (c.seqLen - 1 - i) := by
  rw [prod_scale2_getD c i (by omega), Finset.prod_Ico_succ_top (by omega), scale2_last,
    mul_one]
  have h1 : ∏ a in Finset.Ico i c.seqLen, scale2 c a =
      ∏ a in Finset.Ico i c.seqLen, (fun d => (backwardRow c d).2) (c.seqLen - 1 - a) := by
    apply Finset.prod_congr rfl
    intro a ha
    rw [scale2_lt c a (Finset.mem_Ico.mp ha).2]
  have h2 := @Finset.prod_Ico_reflect α _ (fun d => (backwardRow c d).2) i c.seqLen
    (c.seqLen - 1) (by omega)
  rw [h1, h2]
  have e1 : c.seqLen - 1 + 1 - c.seqLen = 0 := by omega
  have e2 : c.seqLen - 1 + 1 - i = c.seqLen - 1 - i + 1 := by omega
  rw [e1, e2, ← Finset.range_eq_Ico]
  rfl

theorem m_Alpha_mul (c : CRF α) (hp : Positive c) (hn : PredOK c)
    (hY : 0 < c.m_state_size) (i j : Nat) (hi : i < c.seqLen) (hj : j < c.m_state_size) :
    m_Alpha c i j * scaleUpTo c i = fwdTrue c i j := by
  rw [m_Alpha_lt c i j hi]
  exact (forwardRow_spec c hp hn hY i).2.2.2 j hj

theorem m_Beta_mul (c : CRF α) (hp : Positive c) (hn : SuccOK c)
    (hY : 0 < c.m_state_size) (i j : Nat) (hi : i < c.seqLen) (hj : j < c.m_state_size) :
    m_Beta c i j * (prod_scale2 c).getD i 0 = bwdTrue c (c.seqLen - 1 - i) j := by
  rw [m_Beta_lt c i j hi, prod_scale2_eq c i hi]
  exact (backwardRow_spec c hp hn hY _).2.2 j hj

theorem partition_pos (c : CRF α) (hp : Positive c) (hn : PredOK c)
    (hY : 0 < c.m_state_size) (hT : 0 < c.seqLen) : 0 < partition c := by
  rw [partition_eq_scaleUpTo c hp hn hY hT]
  exact scaleUpTo_pos c hp hn hY _

theorem prod_scale2_pos (c : CRF α) (hp : Positive c) (hn : SuccOK c)
    (hY : 0 < c.m_state_size) (i : Nat) (hi : i < c.seqLen) :
    0 < (prod_scale2 c).getD i 0 := by
  rw [prod_scale2_eq c i hi]
  exact scale2UpTo_pos c hp hn hY _

theorem node_algebra (a b S P2 P1 Z : α) (hS : S ≠ 0) (hP1 : P1 ≠ 0)
    (h : S * P1 = Z) : a * b / 1 * (P2 / P1) = (a * S) * (b * P2) / Z := by
  subst h
  field_simp
  ring

/-- The node posterior of the gradient loop in terms of the unscaled recursions. -/
theorem nodeProb_eq (c : CRF α) (hp : Positive c) (hn : NeighborsOK c)
    (hY : 0 < c.m_state_size) (i y : Nat) (hi : i < c.seqLen) (hy : y < c.m_state_size) :
    nodeProb c i y = fwdTrue c i y * bwdTrue c (c.seqLen - 1 - i) y / partition c := by
  have hS := scaleUpTo_pos c hp hn.pred hY i
  have hZ := partition_pos c hp hn.pred hY (by omega)
  have h1 := scaleUpTo_mul_prod_scale c hp hn.pred hY i hi
  have hP1 : (prod_scale c).getD (i + 1) 0 ≠ 0 := by
    intro h0
    rw [h0, mul_zero] at h1
    exact (ne_of_gt hZ) h1.symm
  rw [← m_Alpha_mul c hp hn.pred hY i y hi hy, ← m_Beta_mul c hp hn.succ hY i y hi hy]
  unfold nodeProb scale_factor
  rw [getPartitionZ_eq_one c hp hn.pred hY]
  exact node_algebra _ _ _ _ _ _ (ne_of_gt hS) hP1 h1

/-! ## Pinning a label: marginal sums -/

theorem sum_map_filter (l : List (List Nat)) (p : List Nat → Bool) (f : List Nat → α) :
    ((l.filter p).map f).sum = (l.map (fun x => if p x then f x else 0)).sum := by
  induction l with
  | nil => rfl
  | cons x xs ih =>
    by_cases h : p x
    · simp [List.filter_cons, h, ih]
    · simp [List.filter_cons, h, ih]

theorem allSeqs_length (n T : Nat) : ∀ ys ∈ allSeqs n T, ys.length = T := by
  induction T with
  | zero => intro ys h; simp [allSeqs] at h; simp [h]
  | succ T ih =>
    intro ys h
    simp only [allSeqs, List.mem_flatMap, List.mem_map] at h
    obtain ⟨y, _, zs, hzs, rfl⟩ := h
    simp [ih zs hzs]

theorem allSeqs_lt (n T : Nat) : ∀ ys ∈ allSeqs n T, ∀ a ∈ ys, a < n := by
  induction T with
  | zero => intro ys h a ha; simp [allSeqs] at h; simp [h] at ha
  | succ T ih =>
    intro ys h a ha
    simp only [allSeqs, List.mem_flatMap, List.mem_map] at h
    obtain ⟨y, hy, zs, hzs, rfl⟩ := h
    rcases List.mem_cons.mp ha with h1 | h1
    · rw [h1]; exact List.mem_range.mp hy
    · exact ih zs hzs a h1

/-- No label sequence is listed twice, so `sumSeqs` counts every element of `Y^T` once. -/
theorem allSeqs_nodup (n T : Nat) : (allSeqs n T).Nodup := by
  induction T with
  | zero => simp [allSeqs]
  | succ T ih =>
    simp only [allSeqs]
    rw [List.nodup_flatMap]
    refine ⟨?_, ?_⟩
    · intro y _
      exact ih.map (fun a b h => (List.cons.inj h).2)
    · apply List.Nodup.pairwise_of_forall_ne (List.nodup_range n)
      intro y _ z _ hyz
      intro a h1 h2
      simp only [List.mem_map] at h1 h2
      obtain ⟨u, _, rfl⟩ := h1
      obtain ⟨v, _, hv⟩ := h2
      exact hyz (List.cons.inj hv).1.symm

theorem score_pin (c : CRF α) (i y : Nat) (ys : List Nat) (hi : i < ys.length) :
    score (pin c i y) ys = if ys.getD i 0 = y then score c ys else 0 := by
  simp only [score, pin]
  by_cases h : ys.getD i 0 = y
  · rw [if_pos h]
    congr 1
    apply Finset.prod_congr rfl
    intro t _
    have h0 : ¬ (t = i ∧ ys.getD t 0 ≠ y) := by
      rintro ⟨h1, h2⟩
      subst h1
      exact h2 h
    rw [if_neg h0]
  · rw [if_neg h]
    have : ∏ t in Finset.range ys.length,
        (if t = i ∧ ys.getD t 0 ≠ y then (0 : α) else c.m_R t (ys.getD t 0)) = 0 := by
      apply Finset.prod_eq_zero (Finset.mem_range.mpr hi)
      rw [if_pos ⟨rfl, h⟩]
    rw [this, zero_mul]

theorem marginalSum_eq (c : CRF α) (i y : Nat) (hi : i < c.seqLen) :
    marginalSum c i y = partition (pin c i y) := by
  simp only [marginalSum, partition, sumSeqs]
  rw [sum_map_filter]
  congr 1
  apply List.map_congr_left
  intro ys hys
  have hlen := allSeqs_length _ _ ys hys
  have hlen2 : ys.length = c.seqLen := hlen
  rw [score_pin c i y ys (by omega)]
  simp

theorem fwdTrue_pin_lt (c : CRF α) (i y : Nat) (t : Nat) :
    t < i → ∀ j, fwdTrue (pin c i y) t j = fwdTrue c t j := by
  induction t with
  | zero =>
    intro h j
    have h0 : ¬ (0 = i ∧ j ≠ y) := by omega
    simp only [fwdTrue, pin, if_neg h0]
  | succ t ih =>
    intro h j
    have h0 : ¬ (t + 1 = i ∧ j ≠ y) := by omega
    have ih2 := ih (by omega)
    simp only [fwdTrue]
    have e1 : (pin c i y).m_R (t + 1) j = c.m_R (t + 1) j := by
      simp only [pin, if_neg h0]
    rw [e1]
    congr 1
    apply Finset.sum_congr rfl
    intro k _
    rw [ih2 k]
    rfl

theorem fwdTrue_pin_eq (c : CRF α) (i y j : Nat) :
    fwdTrue (pin c i y) i j = if j = y then fwdTrue c i j else 0 := by
  cases i with
  | zero =>
    simp only [fwdTrue, pin]
    by_cases h : j = y
    · simp [h]
    · simp [h]
  | succ t =>
    simp only [fwdTrue]
    have e2 : ∑ k in Finset.range (pin c (t + 1) y).m_state_size,
          fwdTrue (pin c (t + 1) y) t k * (pin c (t + 1) y).m_M2 k j =
        ∑ k in Finset.range c.m_state_size, fwdTrue c t k * c.m_M2 k j := by
      apply Finset.sum_congr rfl
      intro k _
      rw [fwdTrue_pin_lt c (t + 1) y t (by omega) k]
      rfl
    rw [e2]
    by_cases h : j = y
    · simp [pin, h]
    · simp [pin, h]

theorem bwdTrue_pin (c : CRF α) (i y : Nat) (hi : i < c.seqLen) (d : Nat) :
    d ≤ c.seqLen - 1 - i → ∀ j, bwdTrue (pin c i y) d j = bwdTrue c d j := by
  induction d with
  | zero => intro _ j; rfl
  | succ d ih =>
    intro h j
    have ih2 := ih (by omega)
    simp only [bwdTrue]
    apply Finset.sum_congr rfl
    intro k _
    rw [ih2 k]
    have h0 : ¬ (c.seqLen - 1 - d = i ∧ k ≠ y) := by omega
    have e1 : (pin c i y).m_R ((pin c i y).seqLen - 1 - d) k = c.m_R (c.seqLen - 1 - d) k := by
      show (if c.seqLen - 1 - d = i ∧ k ≠ y then (0 : α) else c.m_R (c.seqLen - 1 - d) k) = _
      rw [if_neg h0]
    rw [e1]
    rfl

/-- The scores of the label sequences through label `y` at position `i` sum to the product
of the unscaled forward and backward values. -/
theorem marginalSum_eq_fwd_bwd (c : CRF α) (i y : Nat) (hi : i < c.seqLen)
    (hy : y < c.m_state_size) :
    marginalSum c i y = fwdTrue c i y * bwdTrue c (c.seqLen - 1 - i) y := by
  rw [marginalSum_eq c i y hi, partition_eq_fwd_bwd (pin c i y) i hi]
  have hsz : (pin c i y).m_state_size = c.m_state_size := rfl
  have hT : (pin c i y).seqLen = c.seqLen := rfl
  rw [hsz, hT, Finset.sum_eq_single y]
  · rw [fwdTrue_pin_eq, if_pos rfl, bwdTrue_pin c i y hi _ (le_refl _)]
  · intro j _ hj
    rw [fwdTrue_pin_eq, if_neg hj, zero_mul]
  · intro h
    exact absurd (Finset.mem_range.mpr hy) h

/-! ## Edge posteriors, the two partition values and `calculateProb` -/

theorem edge_algebra (a b m S P2 P1 Z : α) (hS : S ≠ 0) (hP1 : P1 ≠ 0) (h : S * P1 = Z) :
    a * b * m / 1 * (P2 / P1) = (a * S) * m * (b * P2) / Z := by
  subst h
  field_simp
  ring

/-- The edge posterior of the gradient loop in terms of the unscaled recursions. -/
theorem edgeProb_eq (c : CRF α) (hp : Positive c) (hn : NeighborsOK c)
    (hY : 0 < c.m_state_size) (i y1 y2 : Nat) (hi : i + 1 < c.seqLen)
    (hy1 : y1 < c.m_state_size) (hy2 : y2 < c.m_state_size) :
    edgeProb c (i + 1) y1 y2 =
      fwdTrue c i y1 * (c.m_R (i + 1) y2 * c.m_M2 y1 y2)
        * bwdTrue c (c.seqLen - 1 - (i + 1)) y2 / partition c := by
  have hS := scaleUpTo_pos c hp hn.pred hY i
  have hZ := partition_pos c hp hn.pred hY (by omega)
  have h1 := scaleUpTo_mul_prod_scale c hp hn.pred hY i (by omega)
  have hP1 : (prod_scale c).getD (i + 1) 0 ≠ 0 := by
    intro h0
    rw [h0, mul_zero] at h1
    exact (ne_of_gt hZ) h1.symm
  rw [← m_Alpha_mul c hp hn.pred hY i y1 (by omega) hy1,
    ← m_Beta_mul c hp hn.succ hY (i + 1) y2 hi hy2]
  unfold edgeProb scale_factor2
  rw [getPartitionZ_eq_one c hp hn.pred hY, Nat.add_sub_cancel]
  exact edge_algebra _ _ _ _ _ _ _ (ne_of_gt hS) hP1 h1

theorem sum_edgeProb (c : CRF α) (hp : Positive c) (hn : NeighborsOK c)
    (hY : 0 < c.m_state_size) (i : Nat) (hi : i + 1 < c.seqLen) :
    ∑ y1 in Finset.range c.m_state_size, ∑ y2 in Finset.range c.m_state_size,
      edgeProb c (i + 1) y1 y2 = 1 := by
  have hZ := partition_pos c hp hn.pred hY (by omega)
  have h1 : ∑ y1 in Finset.range c.m_state_size, ∑ y2 in Finset.range c.m_state_size,
      edgeProb c (i + 1) y1 y2 =
      ∑ y1 in Finset.range c.m_state_size, ∑ y2 in Finset.range c.m_state_size,
        fwdTrue c i y1 * (c.m_R (i + 1) y2 * c.m_M2 y1 y2)
          * bwdTrue c (c.seqLen - 1 - (i + 1)) y2 / partition c := by
    apply Finset.sum_congr rfl
    intro y1 h1
    apply Finset.sum_congr rfl
    intro y2 h2
    exact edgeProb_eq c hp hn hY i y1 y2 hi (Finset.mem_range.mp h1) (Finset.mem_range.mp h2)
  rw [h1, Finset.sum_comm]
  have h2 : ∑ y2 in Finset.range c.m_state_size, ∑ y1 in Finset.range c.m_state_size,
        fwdTrue c i y1 * (c.m_R (i + 1) y2 * c.m_M2 y1 y2)
          * bwdTrue c (c.seqLen - 1 - (i + 1)) y2 / partition c =
      (∑ y2 in Finset.range c.m_state_size,
        fwdTrue c (i + 1) y2 * bwdTrue c (c.seqLen - 1 - (i + 1)) y2) / partition c := by
    rw [Finset.sum_div]
    apply Finset.sum_congr rfl
    intro y2 _
    rw [← Finset.sum_div]
    congr 1
    simp only [fwdTrue]
    rw [Finset.mul_sum, Finset.sum_mul]
    apply Finset.sum_congr rfl
    intro y1 _
    ring
  rw [h2, ← partition_eq_fwd_bwd c (i + 1) hi, div_self (ne_of_gt hZ)]

theorem sum_nodeProb (c : CRF α) (hp : Positive c) (hn : NeighborsOK c)
    (hY : 0 < c.m_state_size) (i : Nat) (hi : i < c.seqLen) :
    ∑ y in Finset.range c.m_state_size, nodeProb c i y = 1 := by
  have hZ := partition_pos c hp hn.pred hY (by omega)
  have h1 : ∑ y in Finset.range c.m_state_size, nodeProb c i y =
      ∑ y in Finset.range c.m_state_size,
        fwdTrue c i y * bwdTrue c (c.seqLen - 1 - i) y / partition c :=
    Finset.sum_congr rfl
      (fun y hy => nodeProb_eq c hp hn hY i y hi (Finset.mem_range.mp hy))
  rw [h1, ← Finset.sum_div, ← partition_eq_fwd_bwd c i hi, div_self (ne_of_gt hZ)]

theorem prod_scale_range (c : CRF α) (hp : Positive c) (hn : PredOK c)
    (hY : 0 < c.m_state_size) (hT : 0 < c.seqLen) :
    ∏ a in Finset.range c.seqLen, scale c a = partition c := by
  rw [partition_eq_scaleUpTo c hp hn hY hT, scaleUpTo_eq c _ (by omega)]
  have e : c.seqLen - 1 + 1 = c.seqLen := by omega
  rw [e]

/-- The forward partition value: terminal alpha times all stored forward scales. -/
theorem forwardZ_eq (c : CRF α) (hp : Positive c) (hn : PredOK c)
    (hY : 0 < c.m_state_size) (hT : 0 < c.seqLen) :
    m_Alpha c c.seqLen m_default_oid * ∏ a in Finset.range (c.seqLen + 1), scale c a
      = partition c := by
  rw [m_Alpha_last c hp hn hY, one_mul, Finset.prod_range_succ, scale_last c hp hn hY,
    mul_one, prod_scale_range c hp hn hY hT]

/-- A beta entry of position `0` times all stored backward scales is the unscaled
backward value of position `0`. -/
theorem backward0_eq (c : CRF α) (hp : Positive c) (hn : SuccOK c)
    (hY : 0 < c.m_state_size) (hT : 0 < c.seqLen) (j : Nat) (hj : j < c.m_state_size) :
    m_Beta c 0 j * ∏ a in Finset.range (c.seqLen + 1), scale2 c a
      = bwdTrue c (c.seqLen - 1) j := by
  have h := m_Beta_mul c hp hn hY 0 j hT hj
  rw [prod_scale2_getD c 0 (Nat.zero_le _), ← Finset.range_eq_Ico] at h
  exact h

theorem calculateProb_loop (c : CRF α) (f : Nat → Nat) (n : Nat) (hn : n < c.seqLen) :
    (List.range (n + 1)).foldl (calculateProbStep c f) (1, 1, m_default_oid) =
      (prefixScore c f n / ∏ a in Finset.range (n + 1), scale c a,
       (if n = 0 then 1 else c.m_M2 (f (n - 1)) (f n)), f n) := by
  induction n with
  | zero =>
    have hR : List.range (0 + 1) = [0] := rfl
    have h0 : 0 < c.m_seq_size - 1 := by simp only [CRF.m_seq_size]; omega
    rw [hR]
    simp only [List.foldl_cons, List.foldl_nil, calculateProbStep, if_pos h0, lt_irrefl,
      if_false, prefixScore, zero_add, Finset.prod_range_one, if_true]
    simp
  | succ n ih =>
    have h1 : n + 1 < c.m_seq_size - 1 := by simp only [CRF.m_seq_size]; omega
    rw [List.range_succ, List.foldl_append, ih (by omega)]
    simp only [List.foldl_cons, List.foldl_nil, calculateProbStep, if_pos h1,
      if_pos (Nat.succ_pos n), prefixScore, Nat.add_sub_cancel, Nat.succ_ne_zero, if_false]
    rw [Finset.prod_range_succ _ (n + 1)]
    congr 1
    field_simp
    ring

theorem calculateProb_eq_score (c : CRF α) (hp : Positive c) (hn : PredOK c)
    (hY : 0 < c.m_state_size) (hT : 0 < c.seqLen) (ys : List Nat)
    (hlen : ys.length = c.seqLen) :
    calculateProb c ys = score c ys / partition c := by
  obtain ⟨T, hT2⟩ : ∃ T, c.seqLen = T + 1 := ⟨c.seqLen - 1, by omega⟩
  have hlast : ¬ (T + 1 < c.m_seq_size - 1) := by simp only [CRF.m_seq_size]; omega
  have hm : c.m_seq_size = T + 1 + 1 := by simp only [CRF.m_seq_size]; omega
  unfold calculateProb
  simp only []
  rw [getPartitionZ_eq_one c hp hn hY, hm, List.range_succ, List.foldl_append,
    calculateProb_loop c _ T (by omega)]
  simp only [List.foldl_cons, List.foldl_nil, calculateProbStep, if_neg hlast]
  have hs := scale_last c hp hn hY
  rw [hT2] at hs
  rw [hs, div_one, div_one, score_eq_prefixScore c ys T (by omega)]
  have hZ := prod_scale_range c hp hn hY hT
  rw [hT2] at hZ
  rw [hZ]

theorem sum_calculateProb (c : CRF α) (hp : Positive c) (hn : PredOK c)
    (hY : 0 < c.m_state_size) (hT : 0 < c.seqLen) : sumSeqs c (calculateProb c) = 1 := by
  have hZ := partition_pos c hp hn hY hT
  have h1 : sumSeqs c (calculateProb c) =
      sumSeqs c (fun ys => score c ys * (partition c)⁻¹) := by
    simp only [sumSeqs]
    congr 1
    apply List.map_congr_left
    intro ys hys
    rw [calculateProb_eq_score c hp hn hY hT ys (allSeqs_length _ _ ys hys), div_eq_mul_inv]
  rw [h1]
  simp only [sumSeqs]
  rw [List.sum_map_mul_right]
  exact mul_inv_cancel₀ (ne_of_gt hZ)

theorem oneLabel_positive (r : α) (hr : 0 < r) : Positive (oneLabel r) :=
  ⟨fun _ _ => hr, fun _ _ => one_pos⟩

theorem oneLabel_neighbors (r : α) : NeighborsOK (oneLabel r) := by
  refine ⟨⟨?_, ?_, ?_⟩, ⟨?_, ?_, ?_⟩⟩
  · intro j k hk; exact absurd hk (List.not_mem_nil k)
  · intro j; exact List.nodup_nil
  · intro j k _ hne; exact absurd rfl hne
  · intro j k hk; exact absurd hk (List.not_mem_nil k)
  · intro j; exact List.nodup_nil
  · intro j k _ hne; exact absurd rfl hne

theorem oneLabel_partition (r : α) : partition (oneLabel r) = r := by
  have hT : 0 < (oneLabel r).seqLen := Nat.one_pos
  rw [partition_eq (oneLabel r) hT]
  have hn : (oneLabel r).m_state_size = 1 := rfl
  have hs : (oneLabel r).seqLen - 1 = 0 := rfl
  rw [hn, hs, Finset.sum_range_one]
  simp [bwdTrue, oneLabel]

/-! ## Claims about `forward`, `backward` and the posteriors -/

/-- C3. The node posterior used by the gradient assembler is the genuine marginal: with
strictly positive potentials and neighbour lists that list, without repetition, every
transition whose potential differs from `1`, for every position `i < T` and label `y` the
value `alpha[i,y] * beta[i,y] / Z * (prod_scale2[i] / prod_scale[i+1])` equals the sum of
the scores of the label sequences with `y` at position `i` divided by the sum of all
scores, where `prod_scale2[i]` and `prod_scale[i+1]` are the suffix products of the two
scale vectors. -/
theorem node_posterior_is_marginal (c : CRF α) (hY : 1 ≤ c.m_state_size)
    (_hT : 1 ≤ c.seqLen) (hp : Positive c) (hn : NeighborsOK c) (i y : Nat)
    (hi : i < c.seqLen) (hy : y < c.m_state_size) :
    m_Alpha c i y * m_Beta c i y / getPartitionZ c
        * ((prod_scale2 c).getD i 0 / (prod_scale c).getD (i + 1) 0)
      = marginalSum c i y / partition c ∧
    (prod_scale2 c).getD i 0 = ∏ a in Finset.Ico i (c.seqLen + 1), scale2 c a ∧
    (prod_scale c).getD (i + 1) 0 = ∏ a in Finset.Ico (i + 1) (c.seqLen + 1), scale c a := by
  refine ⟨?_, prod_scale2_getD c i (by omega), prod_scale_getD c (i + 1) (by omega)⟩
  rw [marginalSum_eq_fwd_bwd c i y hi hy]
  exact nodeProb_eq c hp hn hY i y hi hy

theorem node_posterior_is_marginal_witness :
    m_Alpha (transitionDominates (1 : ℚ) 148) 1 0 * m_Beta (transitionDominates (1 : ℚ) 148) 1 0
        / getPartitionZ (transitionDominates (1 : ℚ) 148)
        * ((prod_scale2 (transitionDominates (1 : ℚ) 148)).getD 1 0
            / (prod_scale (transitionDominates (1 : ℚ) 148)).getD (1 + 1) 0)
      = marginalSum (transitionDominates (1 : ℚ) 148) 1 0
          / partition (transitionDominates (1 : ℚ) 148) :=
  (node_posterior_is_marginal (transitionDominates (1 : ℚ) 148) (by decide) (by decide)
    (transitionDominates_positive 1 148 (by norm_num) (by norm_num))
    (transitionDominates_neighbors 1 148) 1 0 (by decide) (by decide)).1

/-- C4. The true partition function is recovered from the stored value and the scales:
with strictly positive potentials and predecessor lists covering every bound transition
once, `getPartitionZ()` times the product of `scale[0..T-1]` is the sum of the scores of
all label sequences in `Y^T`. -/
theorem partition_recovered (c : CRF α) (hY : 1 ≤ c.m_state_size) (hT : 1 ≤ c.seqLen)
    (hp : Positive c) (hn : PredOK c) :
    getPartitionZ c * ∏ i in Finset.range c.seqLen, scale c i = sumSeqs c (score c) := by
  rw [getPartitionZ_eq_one c hp hn hY, one_mul, prod_scale_range c hp hn hY hT]
  rfl

theorem partition_recovered_witness :
    getPartitionZ (transitionDominates (1 : ℚ) 148)
        * ∏ i in Finset.range (transitionDominates (1 : ℚ) 148).seqLen,
            scale (transitionDominates (1 : ℚ) 148) i
      = sumSeqs (transitionDominates (1 : ℚ) 148) (score (transitionDominates (1 : ℚ) 148)) :=
  partition_recovered (transitionDominates (1 : ℚ) 148) (by decide) (by decide)
    (transitionDominates_positive 1 148 (by norm_num) (by norm_num))
    (transitionDominates_neighbors 1 148).pred

/-- C5. `calculateProb` returns the conditional probability of the observed label
sequence: after `forward()`, for a label sequence of length `T` with labels below `|Y|`,
the returned value is its score divided by the sum of the scores of all label sequences,
and the returned values over all label sequences sum to `1`. -/
theorem calculateProb_is_conditional (c : CRF α) (hY : 1 ≤ c.m_state_size)
    (hT : 1 ≤ c.seqLen) (hp : Positive c) (hn : PredOK c) (ys : List Nat)
    (hlen : ys.length = c.seqLen) (_hlab : ∀ a ∈ ys, a < c.m_state_size) :
    calculateProb c ys = score c ys / sumSeqs c (score c) ∧
    sumSeqs c (calculateProb c) = 1 :=
  ⟨calculateProb_eq_score c hp hn hY hT ys hlen, sum_calculateProb c hp hn hY hT⟩

theorem calculateProb_is_conditional_witness :
    calculateProb (transitionDominates (1 : ℚ) 148) [0, 1, 1]
      = score (transitionDominates (1 : ℚ) 148) [0, 1, 1]
          / sumSeqs (transitionDominates (1 : ℚ) 148)
              (score (transitionDominates (1 : ℚ) 148)) :=
  (calculateProb_is_conditional (transitionDominates (1 : ℚ) 148) (by decide) (by decide)
    (transitionDominates_positive 1 148 (by norm_num) (by norm_num))
    (transitionDominates_neighbors 1 148).pred [0, 1, 1] rfl (by decide)).1

/-- C6. Node posteriors are normalized at every position: after `forward()` and
`backward()`, for every position `i < T`, the sum over the labels `y` of
`alpha[i,y] * beta[i,y] / Z * (prod_scale2[i] / prod_scale[i+1])` is `1`, where
`Z = getPartitionZ()`. -/
theorem node_posteriors_normalized (c : CRF α) (hY : 1 ≤ c.m_state_size)
    (_hT : 1 ≤ c.seqLen) (hp : Positive c) (hn : NeighborsOK c) (i : Nat)
    (hi : i < c.seqLen) :
    ∑ y in Finset.range c.m_state_size,
      m_Alpha c i y * m_Beta c i y / getPartitionZ c
        * ((prod_scale2 c).getD i 0 / (prod_scale c).getD (i + 1) 0) = 1 :=
  sum_nodeProb c hp hn hY i hi

theorem node_posteriors_normalized_witness :
    ∑ y in Finset.range (transitionDominates (1 : ℚ) 148).m_state_size,
      m_Alpha (transitionDominates (1 : ℚ) 148) 2 y
        * m_Beta (transitionDominates (1 : ℚ) 148) 2 y
        / getPartitionZ (transitionDominates (1 : ℚ) 148)
        * ((prod_scale2 (transitionDominates (1 : ℚ) 148)).getD 2 0
            / (prod_scale (transitionDominates (1 : ℚ) 148)).getD (2 + 1) 0) = 1 :=
  node_posteriors_normalized (transitionDominates (1 : ℚ) 148) (by decide) (by decide)
    (transitionDominates_positive 1 148 (by norm_num) (by norm_num))
    (transitionDominates_neighbors 1 148) 2 (by decide)

/-- C7. Edge posteriors are normalized at every position: for `T ≥ 2`, after `forward()`
and `backward()`, for every position `1 ≤ i ≤ T-1`, the sum over all label pairs
`(y1, y2)` of `alpha[i-1,y1] * beta[i,y2] * (R[i,y2] * M2[y1,y2]) / Z
* (prod_scale2[i] / prod_scale[i])` is `1`. -/
theorem edge_posteriors_normalized (c : CRF α) (hY : 1 ≤ c.m_state_size)
    (_hT : 2 ≤ c.seqLen) (hp : Positive c) (hn : NeighborsOK c) (i : Nat)
    (hi1 : 1 ≤ i) (hi2 : i ≤ c.seqLen - 1) :
    ∑ y1 in Finset.range c.m_state_size, ∑ y2 in Finset.range c.m_state_size,
      m_Alpha c (i - 1) y1 * m_Beta c i y2 * (c.m_R i y2 * c.m_M2 y1 y2) / getPartitionZ c
        * ((prod_scale2 c).getD i 0 / (prod_scale c).getD i 0) = 1 := by
  obtain ⟨i', rfl⟩ : ∃ i', i = i' + 1 := ⟨i - 1, by omega⟩
  exact sum_edgeProb c hp hn hY i' (by omega)

theorem edge_posteriors_normalized_witness :
    ∑ y1 in Finset.range (transitionDominates (1 : ℚ) 148).m_state_size,
      ∑ y2 in Finset.range (transitionDominates (1 : ℚ) 148).m_state_size,
        m_Alpha (transitionDominates (1 : ℚ) 148) (1 - 1) y1
          * m_Beta (transitionDominates (1 : ℚ) 148) 1 y2
          * ((transitionDominates (1 : ℚ) 148).m_R 1 y2
              * (transitionDominates (1 : ℚ) 148).m_M2 y1 y2)
          / getPartitionZ (transitionDominates (1 : ℚ) 148)
          * ((prod_scale2 (transitionDominates (1 : ℚ) 148)).getD 1 0
              / (prod_scale (transitionDominates (1 : ℚ) 148)).getD 1 0) = 1 :=
  edge_posteriors_normalized (transitionDominates (1 : ℚ) 148) (by decide) (by decide)
    (transitionDominates_positive 1 148 (by norm_num) (by norm_num))
    (transitionDominates_neighbors 1 148) 1 (by decide) (by decide)

/-- C8 (as the code behaves). The forward partition value `alpha[T,default_oid]` times
all stored forward scales equals the sum over the labels `y` of `R[0,y] * beta[0,y]` times
all stored backward scales: `backward()` keeps no virtual start row, so the backward
partition value is obtained by summing over the labels of position `0`. -/
theorem forwardZ_eq_backwardZ (c : CRF α) (hY : 1 ≤ c.m_state_size) (hT : 1 ≤ c.seqLen)
    (hp : Positive c) (hn : NeighborsOK c) :
    m_Alpha c c.seqLen m_default_oid * ∏ i in Finset.range (c.seqLen + 1), scale c i =
      (∑ y in Finset.range c.m_state_size, c.m_R 0 y * m_Beta c 0 y)
        * ∏ i in Finset.range (c.seqLen + 1), scale2 c i := by
  rw [forwardZ_eq c hp hn.pred hY hT, partition_eq c hT, Finset.sum_mul]
  apply Finset.sum_congr rfl
  intro y hy
  rw [← backward0_eq c hp hn.succ hY hT y (Finset.mem_range.mp hy)]
  ring

theorem forwardZ_eq_backwardZ_witness :
    m_Alpha (oneLabel (2 : ℚ)) (oneLabel (2 : ℚ)).seqLen m_default_oid
        * ∏ i in Finset.range ((oneLabel (2 : ℚ)).seqLen + 1), scale (oneLabel (2 : ℚ)) i =
      (∑ y in Finset.range (oneLabel (2 : ℚ)).m_state_size,
          (oneLabel (2 : ℚ)).m_R 0 y * m_Beta (oneLabel (2 : ℚ)) 0 y)
        * ∏ i in Finset.range ((oneLabel (2 : ℚ)).seqLen + 1), scale2 (oneLabel (2 : ℚ)) i :=
  forwardZ_eq_backwardZ (oneLabel (2 : ℚ)) (by decide) (by decide)
    (oneLabel_positive 2 (by norm_num)) (oneLabel_neighbors 2)

/-- C8 as stated fails: with one label, one position and `R[0,0] = 2` the forward value
`alpha[T,default_oid] * ∏ scale[i]` is `2` while `beta[0,default_oid] * ∏ scale2[i]`
is `1`. -/
theorem forwardZ_ne_backwardZ :
    m_Alpha (oneLabel (2 : ℚ)) 1 m_default_oid
        * ∏ i in Finset.range 2, scale (oneLabel (2 : ℚ)) i ≠
      m_Beta (oneLabel (2 : ℚ)) 0 m_default_oid
        * ∏ i in Finset.range 2, scale2 (oneLabel (2 : ℚ)) i := by
  have hp := oneLabel_positive (2 : ℚ) (by norm_num)
  have hn := oneLabel_neighbors (2 : ℚ)
  have h1 : m_Alpha (oneLabel (2 : ℚ)) 1 m_default_oid
        * ∏ i in Finset.range 2, scale (oneLabel (2 : ℚ)) i = 2 := by
    have := forwardZ_eq (oneLabel (2 : ℚ)) hp hn.pred Nat.one_pos Nat.one_pos
    rw [oneLabel_partition] at this
    exact this
  have h2 : m_Beta (oneLabel (2 : ℚ)) 0 m_default_oid
        * ∏ i in Finset.range 2, scale2 (oneLabel (2 : ℚ)) i = 1 :=
    backward0_eq (oneLabel (2 : ℚ)) hp hn.succ Nat.one_pos Nat.one_pos 0 Nat.one_pos
  rw [h1, h2]
  norm_num

/-! ## The factor computer -/

theorem MAT2_inj (n i j x y : Nat) (hx : x < n) (hy : y < n) :
    MAT2 n i x = MAT2 n j y ↔ i = j ∧ x = y := by
  unfold MAT2
  constructor
  · intro h
    have h1 : (n * i + x) / n = (n * j + y) / n := by rw [h]
    have h2 : (n * i + x) % n = (n * j + y) % n := by rw [h]
    have hn : 0 < n := by omega
    rw [Nat.mul_add_div hn, Nat.mul_add_div hn, Nat.div_eq_of_lt hx,
      Nat.div_eq_of_lt hy] at h1
    rw [Nat.mul_add_mod, Nat.mul_add_mod, Nat.mod_eq_of_lt hx, Nat.mod_eq_of_lt hy] at h2
    exact ⟨by omega, h2⟩
  · rintro ⟨rfl, rfl⟩
    rfl

/-- A loop of `buf[idx u] *= exp (a u)` multiplies the entry `t` by the exponential of
the sum of `a u` over the updates that hit `t`. -/
theorem foldl_mulAt {β : Type} (exp : α → α) (he : IsExp exp) (l : List β) (idx : β → Nat)
    (a : β → α) (t : Nat) :
    ∀ M0 : Nat → α,
      (l.foldl (fun M u => mulAt M (idx u) (exp (a u))) M0) t =
        M0 t * exp ((l.filter (fun u => decide (idx u = t))).map a).sum := by
  induction l with
  | nil => intro M0; simp [he.zero]
  | cons u us ih =>
    intro M0
    rw [List.foldl_cons, ih]
    by_cases h : idx u = t
    · have h2 : t = idx u := h.symm
      simp only [mulAt, if_pos h2, List.filter_cons, h, decide_True, if_true, List.map_cons,
        List.sum_cons, he.add]
      ring
    · have h2 : ¬ t = idx u := fun e => h e.symm
      simp only [mulAt, if_neg h2, List.filter_cons, h, decide_False]
      simp

theorem filter_congr_mem {β : Type} (l : List β) (p q : β → Bool)
    (h : ∀ x ∈ l, p x = q x) : l.filter p = l.filter q := by
  induction l with
  | nil => rfl
  | cons x xs ih =>
    have hx := h x (List.mem_cons_self _ _)
    have ih2 := ih (fun y hy => h y (List.mem_cons_of_mem _ hy))
    simp only [List.filter_cons, hx, ih2]

theorem calculateEdge_eq (exp : α → α) (he : IsExp exp) (P : Param α) (n : Nat)
    (hok : StateIndexOK P n) (y1 y2 : Nat) (h2 : y2 < n) :
    calculateEdge exp P n (MAT2 n y1 y2) = exp (edgeScore P y1 y2) := by
  unfold calculateEdge
  rw [foldl_mulAt exp he P.m_StateIndex (fun it => MAT2 n it.y1 it.y2)
    (fun it => P.getWeight it.fid * it.fval), one_mul]
  unfold edgeScore
  congr 3
  apply filter_congr_mem
  intro it hit
  have hlt := (hok it hit).2
  have := MAT2_inj n it.y1 y1 it.y2 y2 hlt h2
  simp only [this]

theorem calculateFactorsAt_eq (exp : α → α) (he : IsExp exp) (P : Param α) (n i : Nat)
    (obs : List (Nat × α)) (t : Nat) :
    ∀ R : Nat → α,
      calculateFactorsAt exp P n i obs R t =
        R t * exp (obs.map (fun ob =>
          (((P.m_ParamIndex ob.1).filter (fun pj => decide (MAT2 n i pj.1 = t))).map
            (fun pj => P.getWeight pj.2 * ob.2)).sum)).sum := by
  induction obs with
  | nil => intro R; simp [calculateFactorsAt, he.zero]
  | cons ob obs ih =>
    intro R
    have hstep : calculateFactorsAt exp P n i (ob :: obs) R =
        calculateFactorsAt exp P n i obs
          ((P.m_ParamIndex ob.1).foldl
            (fun R pj => mulAt R (MAT2 n i pj.1) (exp (P.getWeight pj.2 * ob.2))) R) := rfl
    rw [hstep, ih,
      foldl_mulAt exp he (P.m_ParamIndex ob.1) (fun pj => MAT2 n i pj.1)
        (fun pj => P.getWeight pj.2 * ob.2)]
    simp only [List.map_cons, List.sum_cons, he.add]
    ring

/-- Position `i` of `calculateFactors` at one of its own cells: the exponential of the
observation score. -/
theorem calculateFactorsAt_own (exp : α → α) (he : IsExp exp) (P : Param α) (n i : Nat)
    (obs : List (Nat × α)) (hok : ObsOK P n obs) (y : Nat) (hy : y < n) (R : Nat → α) :
    calculateFactorsAt exp P n i obs R (MAT2 n i y) = R (MAT2 n i y) * exp (obsScore P obs y) := by
  rw [calculateFactorsAt_eq exp he]
  unfold obsScore
  congr 3
  apply List.map_congr_left
  intro ob hob
  congr 2
  apply filter_congr_mem
  intro pj hpj
  have := MAT2_inj n i i pj.1 y (hok ob hob pj hpj) hy
  simp only [this, true_and]

/-- Position `i` of `calculateFactors` leaves the cells of every other row alone. -/
theorem calculateFactorsAt_other (exp : α → α) (he : IsExp exp) (P : Param α) (n i : Nat)
    (obs : List (Nat × α)) (hok : ObsOK P n obs) (j y : Nat) (hy : y < n) (hij : i ≠ j)
    (R : Nat → α) :
    calculateFactorsAt exp P n i obs R (MAT2 n j y) = R (MAT2 n j y) := by
  rw [calculateFactorsAt_eq exp he]
  have hz : (obs.map (fun ob =>
      (((P.m_ParamIndex ob.1).filter (fun pj => decide (MAT2 n i pj.1 = MAT2 n j y))).map
        (fun pj => P.getWeight pj.2 * ob.2)).sum)).sum = 0 := by
    apply List.sum_eq_zero
    intro x hx
    obtain ⟨ob, hob, rfl⟩ := List.mem_map.mp hx
    have hnil : (P.m_ParamIndex ob.1).filter
        (fun pj => decide (MAT2 n i pj.1 = MAT2 n j y)) = [] := by
      rw [List.filter_eq_nil_iff]
      intro pj hpj
      have := MAT2_inj n i j pj.1 y (hok ob hob pj hpj) hy
      simp only [this, decide_eq_true_eq]
      intro h
      exact hij h.1
    rw [hnil]
    rfl
  rw [hz, he.zero, mul_one]

theorem calculateFactorsFrom_eq (exp : α → α) (he : IsExp exp) (P : Param α) (n : Nat)
    (seq : List (Event α)) :
    ∀ (s : Nat) (R : Nat → α), (∀ ev ∈ seq, ObsOK P n ev.obs) →
      ∀ j y, y < n →
        calculateFactorsFrom exp P n s seq R (MAT2 n j y) =
          if s ≤ j ∧ j < s + seq.length then
            R (MAT2 n j y) * exp (obsScore P (seq.getD (j - s) ⟨0, 0, []⟩).obs y)
          else R (MAT2 n j y) := by
  induction seq with
  | nil =>
    intro s R _ j y _
    have : ¬ (s ≤ j ∧ j < s + ([] : List (Event α)).length) := by
      simp only [List.length_nil]; omega
    rw [if_neg this]
    rfl
  | cons ev rest ih =>
    intro s R hok j y hy
    have hev := hok ev (List.mem_cons_self _ _)
    have hrest : ∀ e ∈ rest, ObsOK P n e.obs := fun e he2 => hok e (List.mem_cons_of_mem _ he2)
    have hstep : calculateFactorsFrom exp P n s (ev :: rest) R =
        calculateFactorsFrom exp P n (s + 1) rest (calculateFactorsAt exp P n s ev.obs R) := rfl
    rw [hstep, ih (s + 1) _ hrest j y hy]
    simp only [List.length_cons]
    by_cases hsj : s = j
    · subst hsj
      have c1 : ¬ (s + 1 ≤ s ∧ s < s + 1 + rest.length) := by omega
      have c2 : s ≤ s ∧ s < s + (rest.length + 1) := by omega
      rw [if_neg c1, if_pos c2, calculateFactorsAt_own exp he P n s ev.obs hev y hy,
        Nat.sub_self]
      rfl
    · rw [calculateFactorsAt_other exp he P n s ev.obs hev j y hy hsj]
      by_cases hin : s + 1 ≤ j ∧ j < s + 1 + rest.length
      · have c2 : s ≤ j ∧ j < s + (rest.length + 1) := by omega
        rw [if_pos hin, if_pos c2]
        have e1 : j - s = (j - (s + 1)) + 1 := by omega
        rw [e1, List.getD_cons_succ]
      · have c2 : ¬ (s ≤ j ∧ j < s + (rest.length + 1)) := by omega
        rw [if_neg hin, if_neg c2]

theorem real_isExp : IsExp Real.exp :=
  ⟨Real.exp_zero, Real.exp_add, Real.exp_pos⟩

theorem edgeScore_eq_zero (P : Param α) (y1 y2 : Nat)
    (h : ∀ it ∈ P.m_StateIndex, ¬ (it.y1 = y1 ∧ it.y2 = y2)) : edgeScore P y1 y2 = 0 := by
  unfold edgeScore
  have hnil : P.m_StateIndex.filter (fun it => decide (it.y1 = y1 ∧ it.y2 = y2)) = [] := by
    rw [List.filter_eq_nil_iff]
    intro it hit
    simp only [decide_eq_true_eq]
    exact h it hit
  rw [hnil]
  rfl

theorem obsScore_eq_zero (P : Param α) (obs : List (Nat × α)) (y : Nat)
    (h : ∀ ob ∈ obs, ∀ pj ∈ P.m_ParamIndex ob.1, pj.1 ≠ y) : obsScore P obs y = 0 := by
  unfold obsScore
  apply List.sum_eq_zero
  intro x hx
  obtain ⟨ob, hob, rfl⟩ := List.mem_map.mp hx
  have hnil : (P.m_ParamIndex ob.1).filter (fun pj => decide (pj.1 = y)) = [] := by
    rw [List.filter_eq_nil_iff]
    intro pj hpj
    simp only [decide_eq_true_eq]
    exact h ob hob pj hpj
  rw [hnil]
  rfl

theorem calculateFactors_eq (exp : α → α) (he : IsExp exp) (P : Param α) (n : Nat)
    (seq : List (Event α)) (hok : ∀ ev ∈ seq, ObsOK P n ev.obs) (i y : Nat) (hy : y < n)
    (hi : i < seq.length) :
    calculateFactors exp P n seq (MAT2 n i y) =
      exp (obsScore P (seq.getD i ⟨0, 0, []⟩).obs y) := by
  unfold calculateFactors
  rw [calculateFactorsFrom_eq exp he P n seq 0 _ hok i y hy,
    if_pos ⟨Nat.zero_le _, by omega⟩, one_mul, Nat.sub_zero]

theorem calculateFactors_terminal (exp : α → α) (he : IsExp exp) (P : Param α) (n : Nat)
    (seq : List (Event α)) (hok : ∀ ev ∈ seq, ObsOK P n ev.obs) (i y : Nat) (hy : y < n)
    (hi : seq.length ≤ i) :
    calculateFactors exp P n seq (MAT2 n i y) = 1 := by
  unfold calculateFactors
  rw [calculateFactorsFrom_eq exp he P n seq 0 _ hok i y hy, if_neg (by omega)]

theorem demoParam_stateIndexOK (w : α) : StateIndexOK (demoParam w) 2 := by
  intro it hit
  have h : it ∈ [(⟨0, 1, 1, 1⟩ : StateParam α)] := hit
  rw [List.mem_singleton] at h
  subst h
  exact ⟨Nat.zero_lt_two, Nat.one_lt_two⟩

theorem demoParam_obsOK (w : α) (obs : List (Nat × α)) : ObsOK (demoParam w) 2 obs := by
  intro ob _ pj hpj
  have h : pj ∈ (if ob.1 = 0 then [((0 : Nat), (0 : Nat))] else []) := hpj
  split_ifs at h
  · rw [List.mem_singleton] at h
    subst h
    decide
  · exact absurd h (List.not_mem_nil _)

/-! ## Claims about the factor computer -/

/-- C11. `calculateEdge` computes the transition potentials: for every weight vector and
every `m_StateIndex` list (of records between labels), for all labels `y1, y2 < |Y|`,
`M2[y1,y2]` is the exponential of the sum of `theta[fid] * fval` over the records that bind
`(y1, y2)`; it is `1` when no record binds `(y1, y2)`, and it is strictly positive. -/
theorem calculateEdge_potentials (P : Param ℝ) (n : Nat) (hok : StateIndexOK P n)
    (y1 y2 : Nat) (_h1 : y1 < n) (h2 : y2 < n) :
    calculateEdge Real.exp P n (MAT2 n y1 y2) = Real.exp (edgeScore P y1 y2) ∧
    ((∀ it ∈ P.m_StateIndex, ¬ (it.y1 = y1 ∧ it.y2 = y2)) →
      calculateEdge Real.exp P n (MAT2 n y1 y2) = 1) ∧
    0 < calculateEdge Real.exp P n (MAT2 n y1 y2) := by
  have h := calculateEdge_eq Real.exp real_isExp P n hok y1 y2 h2
  refine ⟨h, ?_, ?_⟩
  · intro hno
    rw [h, edgeScore_eq_zero P y1 y2 hno, Real.exp_zero]
  · rw [h]
    exact Real.exp_pos _

theorem calculateEdge_potentials_witness :
    calculateEdge Real.exp (demoParam (5 : ℝ)) 2 (MAT2 2 0 1)
      = Real.exp (edgeScore (demoParam (5 : ℝ)) 0 1) :=
  (calculateEdge_potentials (demoParam (5 : ℝ)) 2 (demoParam_stateIndexOK 5) 0 1
    (by decide) (by decide)).1

/-- C12. `calculateFactors` computes the observation potentials: for every sequence (whose
observations are bound to labels by `m_ParamIndex`), every label `y` and every position
`i < T`, `R[i,y]` is the exponential of the sum of `theta[wi] * value` over the observations
`(obs_id, value)` at `i` and the pairs `(y, wi)` of `m_ParamIndex[obs_id]`; it is `1` when
nothing binds `y` at `i`, and every entry of the terminal row `R[T,·]` is `1`. -/
theorem calculateFactors_potentials (P : Param ℝ) (n : Nat) (seq : List (Event ℝ))
    (hok : ∀ ev ∈ seq, ObsOK P n ev.obs) (y : Nat) (hy : y < n) :
    (∀ i, i < seq.length →
      calculateFactors Real.exp P n seq (MAT2 n i y) =
        Real.exp (obsScore P (seq.getD i ⟨0, 0, []⟩).obs y) ∧
      ((∀ ob ∈ (seq.getD i ⟨0, 0, []⟩).obs, ∀ pj ∈ P.m_ParamIndex ob.1, pj.1 ≠ y) →
        calculateFactors Real.exp P n seq (MAT2 n i y) = 1)) ∧
    calculateFactors Real.exp P n seq (MAT2 n seq.length y) = 1 := by
  refine ⟨?_, calculateFactors_terminal Real.exp real_isExp P n seq hok _ y hy (le_refl _)⟩
  intro i hi
  have h := calculateFactors_eq Real.exp real_isExp P n seq hok i y hy hi
  refine ⟨h, ?_⟩
  intro hno
  rw [h, obsScore_eq_zero P _ y hno, Real.exp_zero]

theorem calculateFactors_potentials_witness :
    calculateFactors Real.exp (demoParam (5 : ℝ)) 2 [⟨0, 1, [(0, 1)]⟩, ⟨1, 1, [(0, 1)]⟩]
      (MAT2 2 2 0) = 1 :=
  (calculateFactors_potentials (demoParam (5 : ℝ)) 2 [⟨0, 1, [(0, 1)]⟩, ⟨1, 1, [(0, 1)]⟩]
    (fun ev _ => demoParam_obsOK 5 ev.obs) 0 (by decide)).2

/-! ## Regularization -/

theorem penalized_append (e : Evaluator α) (xs : List α) (ll : α) :
    Evaluator.penalized { e with penalties := e.penalties ++ xs } ll =
      Evaluator.penalized e ll - xs.sum := by
  simp only [Evaluator.penalized, List.foldl_append]
  generalize e.penalties.foldl (fun l x => l - x) ll = a
  induction xs generalizing a with
  | nil => simp
  | cons x xs ih =>
    rw [List.foldl_cons, ih, List.sum_cons]
    ring

theorem regularize_L2_loop (P : Param α) (sigma : α) (n : Nat) (g : Nat → α)
    (e : Evaluator α) :
    (List.range n).foldl
        (fun (st : (Nat → α) × Evaluator α) i => (addAt st.1 i (P.getWeight i / sigma),
          st.2.subLoglikelihood (P.getWeight i * P.getWeight i / (2 * sigma)))) (g, e) =
      ((fun t => if t < n then g t + P.getWeight t / sigma else g t),
        { e with penalties := e.penalties ++
            (List.range n).map (fun i => P.getWeight i * P.getWeight i / (2 * sigma)) }) := by
  induction n with
  | zero => simp
  | succ n ih =>
    rw [List.range_succ, List.foldl_append, ih]
    simp only [List.foldl_cons, List.foldl_nil, Evaluator.subLoglikelihood, List.map_append,
      List.map_cons, List.map_nil, List.append_assoc]
    congr 1
    funext t
    unfold addAt
    by_cases h1 : t = n
    · subst h1
      simp
    · by_cases h2 : t < n
      · have h3 : t < n + 1 := by omega
        simp [h1, h2, h3]
      · have h3 : ¬ t < n + 1 := by omega
        simp [h1, h2, h3]

theorem regularize_L1_loop (P : Param α) (sigma : α) (n : Nat) (g : Nat → α)
    (e : Evaluator α) :
    (List.range n).foldl
        (fun (st : (Nat → α) × Evaluator α) i =>
          (st.1, st.2.subLoglikelihood (|P.getWeight i / sigma|))) (g, e) =
      (g, { e with penalties := e.penalties ++
            (List.range n).map (fun i => |P.getWeight i / sigma|) }) := by
  induction n with
  | zero => simp
  | succ n ih =>
    rw [List.range_succ, List.foldl_append, ih]
    simp only [List.foldl_cons, List.foldl_nil, Evaluator.subLoglikelihood, List.map_append,
      List.map_cons, List.map_nil, List.append_assoc]

/-! ## Claims about regularization -/

/-- C14. L2 regularization step: for `sigma ≠ 0` and `L1 = false`, the regularization
block changes each gradient entry `i < F` from `g[i]` to `g[i] + theta[i] / sigma`, leaves
the other entries and the other evaluator calls alone, and passes `theta[i]^2 / (2 sigma)`
for every `i < F` to `subLoglikelihood`, so that in total `Σ_i theta[i]^2 / (2 sigma)` is
subtracted from the evaluator's log-likelihood. -/
theorem regularization_L2 (sigma : α) (hs : sigma ≠ 0) (P : Param α) (g : Nat → α)
    (e : Evaluator α) (ll : α) :
    (∀ i, i < P.size →
      (applyRegularization sigma false P (g, e)).1 i = g i + P.getWeight i / sigma) ∧
    (∀ i, P.size ≤ i → (applyRegularization sigma false P (g, e)).1 i = g i) ∧
    (applyRegularization sigma false P (g, e)).2.penalties =
      e.penalties ++ (List.range P.size).map (fun i => P.getWeight i ^ 2 / (2 * sigma)) ∧
    (applyRegularization sigma false P (g, e)).2.likelihoods = e.likelihoods ∧
    (applyRegularization sigma false P (g, e)).2.appended = e.appended ∧
    (applyRegularization sigma false P (g, e)).2.penalized ll =
      e.penalized ll - ∑ i in Finset.range P.size, P.getWeight i ^ 2 / (2 * sigma) := by
  have h : applyRegularization sigma false P (g, e) =
      ((fun t => if t < P.size then g t + P.getWeight t / sigma else g t),
        { e with penalties := e.penalties ++
            (List.range P.size).map (fun i => P.getWeight i * P.getWeight i / (2 * sigma)) }) := by
    unfold applyRegularization
    rw [if_pos hs]
    simp only [Bool.false_eq_true, if_false]
    exact regularize_L2_loop P sigma P.size g e
  have hsq : (fun i => P.getWeight i * P.getWeight i / (2 * sigma)) =
      (fun i => P.getWeight i ^ 2 / (2 * sigma)) := by
    funext i
    rw [pow_two]
  rw [h, hsq]
  refine ⟨?_, ?_, rfl, rfl, rfl, ?_⟩
  · intro i hi
    simp only [if_pos hi]
  · intro i hi
    simp only [if_neg (not_lt.mpr hi)]
  · rw [penalized_append, sum_map_range]

theorem regularization_L2_witness :
    (applyRegularization (2 : ℚ) false (demoParam (3 : ℚ))
      ((fun _ => 0), ⟨[], [], []⟩)).2.penalized 0 =
      (⟨[], [], []⟩ : Evaluator ℚ).penalized 0
        - ∑ i in Finset.range (demoParam (3 : ℚ)).size,
            (demoParam (3 : ℚ)).getWeight i ^ 2 / (2 * 2) :=
  (regularization_L2 (2 : ℚ) (by norm_num) (demoParam (3 : ℚ)) (fun _ => 0) ⟨[], [], []⟩
    0).2.2.2.2.2

/-- C15. L1 regularization step: for `sigma > 0` and `L1 = true`, the regularization block
leaves every entry of the gradient vector unchanged and passes `|theta[i]| / sigma` for
every `i < F` to `subLoglikelihood`, so that in total `Σ_i |theta[i]| / sigma` is
subtracted from the evaluator's log-likelihood. -/
theorem regularization_L1 (sigma : α) (hs : 0 < sigma) (P : Param α) (g : Nat → α)
    (e : Evaluator α) (ll : α) :
    (applyRegularization sigma true P (g, e)).1 = g ∧
    (applyRegularization sigma true P (g, e)).2.penalties =
      e.penalties ++ (List.range P.size).map (fun i => |P.getWeight i| / sigma) ∧
    (applyRegularization sigma true P (g, e)).2.likelihoods = e.likelihoods ∧
    (applyRegularization sigma true P (g, e)).2.appended = e.appended ∧
    (applyRegularization sigma true P (g, e)).2.penalized ll =
      e.penalized ll - ∑ i in Finset.range P.size, |P.getWeight i| / sigma := by
  have h : applyRegularization sigma true P (g, e) =
      (g, { e with penalties := e.penalties ++
            (List.range P.size).map (fun i => |P.getWeight i / sigma|) }) := by
    unfold applyRegularization
    rw [if_pos (ne_of_gt hs)]
    simp only [if_true]
    exact regularize_L1_loop P sigma P.size g e
  have habs : (fun i => |P.getWeight i / sigma|) = (fun i => |P.getWeight i| / sigma) := by
    funext i
    rw [abs_div, abs_of_pos hs]
  rw [h, habs]
  refine ⟨rfl, rfl, rfl, rfl, ?_⟩
  rw [penalized_append, sum_map_range]

theorem regularization_L1_witness :
    (applyRegularization (2 : ℚ) true (demoParam (-3 : ℚ)) ((fun _ => 1), ⟨[], [], []⟩)).1
      = (fun _ => 1) :=
  (regularization_L1 (2 : ℚ) (by norm_num) (demoParam (-3 : ℚ)) (fun _ => 1) ⟨[], [], []⟩
    0).1

/-! ## Pseudo-likelihood -/

theorem foldl_addAt {β : Type} (l : List β) (idx : β → Nat) (a : β → α) (t : Nat) :
    ∀ g : Nat → α,
      (l.foldl (fun g u => addAt g (idx u) (a u)) g) t =
        g t + ((l.filter (fun u => decide (idx u = t))).map a).sum := by
  induction l with
  | nil => intro g; simp
  | cons u us ih =>
    intro g
    rw [List.foldl_cons, ih]
    by_cases h : idx u = t
    · have h2 : t = idx u := h.symm
      simp only [addAt, if_pos h2, List.filter_cons, h, decide_True, if_true, List.map_cons,
        List.sum_cons]
      ring
    · have h2 : ¬ t = idx u := fun e => h e.symm
      simp only [addAt, if_neg h2, List.filter_cons, h, decide_False]
      simp

theorem plScores_eq (P : Param α) (ev : Event α) (p y : Nat) :
    plScores P ev p y = plScore P ev p y := by
  unfold plScores plScore
  have hobs : ∀ (obs : List (Nat × α)) (q : Nat → α),
      (obs.foldl (fun q ob => (P.m_ParamIndex ob.1).foldl
        (fun q pj => addAt q pj.1 (P.getWeight pj.2 * ob.2)) q) q) y =
        q y + obsScore P obs y := by
    intro obs
    induction obs with
    | nil => intro q; simp [obsScore]
    | cons ob obs ih =>
      intro q
      rw [List.foldl_cons, ih,
        foldl_addAt (P.m_ParamIndex ob.1) (fun pj => pj.1) (fun pj => P.getWeight pj.2 * ob.2)]
      simp only [obsScore, List.map_cons, List.sum_cons]
      ring
  have hst : ∀ (l : List (StateParam α)) (q : Nat → α),
      (l.foldl (fun q it =>
        if it.y1 = p then addAt q it.y2 (P.getWeight it.fid * it.fval) else q) q) y =
        q y + ((l.filter (fun it => decide (it.y1 = p ∧ it.y2 = y))).map
          (fun it => P.getWeight it.fid * it.fval)).sum := by
    intro l
    induction l with
    | nil => intro q; simp
    | cons it l ih =>
      intro q
      rw [List.foldl_cons, ih]
      by_cases h1 : it.y1 = p
      · by_cases h2 : it.y2 = y
        · have h3 : y = it.y2 := h2.symm
          simp only [if_pos h1, addAt, if_pos h3, List.filter_cons, h1, h2, and_self,
            decide_True, if_true, List.map_cons, List.sum_cons]
          ring
        · have h3 : ¬ y = it.y2 := fun e => h2 e.symm
          simp only [if_pos h1, List.filter_cons, h1, h2, and_false, decide_False]
          simp [addAt, h3]
      · simp only [if_neg h1, List.filter_cons, h1, false_and, decide_False]
        simp
  rw [hst, hobs, zero_add]
  rfl

theorem plExpLoop_spec (exp : α → α) (n : Nat) (q : Nat → α) :
    (∀ j, (plExpLoop exp n q).1 j = if j < n then exp (q j) else q j) ∧
    (plExpLoop exp n q).2.1 = ∑ j in Finset.range n, exp (q j) := by
  induction n with
  | zero =>
    refine ⟨fun j => ?_, ?_⟩
    · simp [plExpLoop]
    · simp [plExpLoop]
  | succ n ih =>
    obtain ⟨h1, h2⟩ := ih
    have hstep : plExpLoop exp (n + 1) q =
        (if exp ((plExpLoop exp n q).1 n) > (plExpLoop exp n q).2.2.1 then
          (setAt (plExpLoop exp n q).1 n (exp ((plExpLoop exp n q).1 n)),
            (plExpLoop exp n q).2.1 + exp ((plExpLoop exp n q).1 n),
            exp ((plExpLoop exp n q).1 n), n)
        else
          (setAt (plExpLoop exp n q).1 n (exp ((plExpLoop exp n q).1 n)),
            (plExpLoop exp n q).2.1 + exp ((plExpLoop exp n q).1 n),
            (plExpLoop exp n q).2.2.1, (plExpLoop exp n q).2.2.2)) := by
      simp only [plExpLoop, List.range_succ, List.foldl_append, List.foldl_cons,
        List.foldl_nil]
    have hn : (plExpLoop exp n q).1 n = q n := by
      rw [h1 n, if_neg (lt_irrefl n)]
    have hfst : (plExpLoop exp (n + 1) q).1 = setAt (plExpLoop exp n q).1 n (exp (q n)) := by
      rw [hstep, hn]
      split_ifs <;> rfl
    have hsnd : (plExpLoop exp (n + 1) q).2.1 = (plExpLoop exp n q).2.1 + exp (q n) := by
      rw [hstep, hn]
      split_ifs <;> rfl
    refine ⟨fun j => ?_, ?_⟩
    · rw [hfst]
      unfold setAt
      by_cases hj : j = n
      · subst hj
        simp
      · rw [if_neg hj, h1 j]
        by_cases hj2 : j < n
        · rw [if_pos hj2, if_pos (by omega)]
        · rw [if_neg hj2, if_neg (by omega)]
    · rw [hsnd, h2, Finset.sum_range_succ]

theorem plDivLoop_spec (n : Nat) (sum : α) (q : Nat → α) (j : Nat) :
    plDivLoop n sum q j = if j < n then q j / sum else q j := by
  induction n with
  | zero => simp [plDivLoop]
  | succ n ih =>
    have hstep : plDivLoop (n + 1) sum q =
        setAt (plDivLoop n sum q) n (plDivLoop n sum q n / sum) := by
      simp only [plDivLoop, List.range_succ, List.foldl_append, List.foldl_cons,
        List.foldl_nil]
    rw [hstep]
    unfold setAt
    by_cases hj : j = n
    · subst hj
      rw [if_pos rfl, if_pos (by omega), ih, if_neg (lt_irrefl j)]
    · rw [if_neg hj, ih]
      by_cases hj2 : j < n
      · rw [if_pos hj2, if_pos (by omega)]
      · rw [if_neg hj2, if_neg (by omega)]

/-- The normalized `q` is the softmax of the scores. -/
theorem plQ_eq (exp : α → α) (P : Param α) (ev : Event α) (p y : Nat)
    (hy : y < P.sizeStateVec) :
    plQ exp P ev p y =
      exp (plScore P ev p y) / ∑ j in Finset.range P.sizeStateVec, exp (plScore P ev p j) := by
  unfold plQ
  obtain ⟨h1, h2⟩ := plExpLoop_spec exp P.sizeStateVec (plScores P ev p)
  rw [plDivLoop_spec, if_pos hy, h1 y, if_pos hy, h2, plScores_eq]
  congr 1
  apply Finset.sum_congr rfl
  intro j _
  rw [plScores_eq]

theorem softmax_props (exp : α → α) (he : IsExp exp) (n : Nat) (s : Nat → α) (y : Nat)
    (hy : y < n) :
    0 < exp (s y) / ∑ j in Finset.range n, exp (s j) ∧
    exp (s y) / ∑ j in Finset.range n, exp (s j) ≤ 1 ∧
    ∑ k in Finset.range n, exp (s k) / ∑ j in Finset.range n, exp (s j) = 1 := by
  have hpos : 0 < ∑ j in Finset.range n, exp (s j) :=
    Finset.sum_pos (fun j _ => he.pos _) ⟨y, Finset.mem_range.mpr hy⟩
  refine ⟨div_pos (he.pos _) hpos, ?_, ?_⟩
  · rw [div_le_one hpos]
    have hnn : ∀ j ∈ Finset.range n, 0 ≤ (fun j => exp (s j)) j :=
      fun j _ => le_of_lt (he.pos _)
    exact Finset.single_le_sum hnn (Finset.mem_range.mpr hy)
  · rw [← Finset.sum_div, div_self (ne_of_gt hpos)]

theorem plNode_prev_outcome (exp : α → α) (P : Param α) (count : Nat) (st0 : NodeState α)
    (seq : List (Event α)) (k : Nat) (hk : k < seq.length) :
    ((seq.take (k + 1)).foldl (plNode exp P count) st0).prev_outcome =
      (seq.getD k ⟨0, 0, []⟩).label := by
  rw [List.take_succ, List.foldl_append, List.getD_eq_getElem?_getD,
    List.getElem?_eq_getElem hk]
  rfl

theorem loopParam_score (ev : Event α) (hobs : ev.obs = []) (p y : Nat) :
    plScore (loopParam : Param α) ev p y = 0 := by
  simp [plScore, obsScore, edgeScore, loopParam, hobs, List.filter_cons]

theorem loopParam_q (ev : Event ℝ) (hobs : ev.obs = []) (p y : Nat) (hy : y < 2) :
    plQ Real.exp (loopParam : Param ℝ) ev p y = 1 / 2 := by
  have hn : (loopParam : Param ℝ).sizeStateVec = 2 := rfl
  rw [plQ_eq Real.exp loopParam ev p y (by rw [hn]; exact hy), hn,
    Finset.sum_range_succ, Finset.sum_range_one]
  simp only [loopParam_score ev hobs, Real.exp_zero]
  norm_num

theorem loopParam_gradient (count prev : Nat) (q : Nat → α) (ev : Event α)
    (hobs : ev.obs = []) (g : Nat → α) :
    plGradient (loopParam : Param α) count prev q ev g =
      if 1 = prev then setAt g 0 (q 1 * 1 * (count : α)) else g := by
  simp [plGradient, loopParam, hobs]

/-! ## Claims about the pseudo-likelihood trainer -/

/-- C17. Pseudo-likelihood node distribution is a softmax: at every position `i ≥ 1` of a
sequence the loop holds the true previous label `p` in `prev_outcome`, and for every label
`y` the normalized `q[y]` is `exp(s_y) / Σ_{y'} exp(s_{y'})` with `s_y` the observation
score of `y` at `i` plus the score of the transition records `(p, y)`; every `q[y]` lies
in `(0, 1]` and the `q[y]` sum to `1`. -/
theorem pl_node_softmax (P : Param ℝ) (count : Nat) (st0 : NodeState ℝ)
    (seq : List (Event ℝ)) (i : Nat) (hi1 : 1 ≤ i) (hi : i < seq.length) (y : Nat)
    (hy : y < P.sizeStateVec) :
    ((seq.take i).foldl (plNode Real.exp P count) st0).prev_outcome
      = (seq.getD (i - 1) ⟨0, 0, []⟩).label ∧
    plQ Real.exp P (seq.getD i ⟨0, 0, []⟩) (seq.getD (i - 1) ⟨0, 0, []⟩).label y =
      Real.exp (obsScore P (seq.getD i ⟨0, 0, []⟩).obs y
          + edgeScore P (seq.getD (i - 1) ⟨0, 0, []⟩).label y) /
        ∑ j in Finset.range P.sizeStateVec,
          Real.exp (obsScore P (seq.getD i ⟨0, 0, []⟩).obs j
            + edgeScore P (seq.getD (i - 1) ⟨0, 0, []⟩).label j) ∧
    0 < plQ Real.exp P (seq.getD i ⟨0, 0, []⟩) (seq.getD (i - 1) ⟨0, 0, []⟩).label y ∧
    plQ Real.exp P (seq.getD i ⟨0, 0, []⟩) (seq.getD (i - 1) ⟨0, 0, []⟩).label y ≤ 1 ∧
    ∑ k in Finset.range P.sizeStateVec,
      plQ Real.exp P (seq.getD i ⟨0, 0, []⟩) (seq.getD (i - 1) ⟨0, 0, []⟩).label k = 1 := by
  obtain ⟨k, rfl⟩ : ∃ k, i = k + 1 := ⟨i - 1, by omega⟩
  have hq := plQ_eq Real.exp P (seq.getD (k + 1) ⟨0, 0, []⟩)
    (seq.getD (k + 1 - 1) ⟨0, 0, []⟩).label
  obtain ⟨s1, s2, s3⟩ := softmax_props Real.exp real_isExp P.sizeStateVec
    (plScore P (seq.getD (k + 1) ⟨0, 0, []⟩) (seq.getD (k + 1 - 1) ⟨0, 0, []⟩).label) y hy
  refine ⟨plNode_prev_outcome Real.exp P count st0 seq k (by omega), hq y hy, ?_, ?_, ?_⟩
  · rw [hq y hy]; exact s1
  · rw [hq y hy]; exact s2
  · rw [← s3]
    apply Finset.sum_congr rfl
    intro j hj
    exact hq j (Finset.mem_range.mp hj)

theorem pl_node_softmax_witness :
    plQ Real.exp (demoParam (5 : ℝ)) (([⟨0, 1, [(0, 1)]⟩, ⟨1, 1, [(0, 1)]⟩] :
        List (Event ℝ)).getD 1 ⟨0, 0, []⟩)
      (([⟨0, 1, [(0, 1)]⟩, ⟨1, 1, [(0, 1)]⟩] : List (Event ℝ)).getD (1 - 1)
        ⟨0, 0, []⟩).label 1
      ≤ 1 :=
  (pl_node_softmax (demoParam (5 : ℝ)) 1 ⟨fun _ => 0, ⟨[], [], []⟩, 0, [], []⟩
    [⟨0, 1, [(0, 1)]⟩, ⟨1, 1, [(0, 1)]⟩] 1 (by decide) (by decide) 1 Nat.one_lt_two).2.2.2.1

/-- C16 (the code at a failing input). With two labels, the single transition record
`(B, B, 0, 1)`, zero weights and one training sequence `B B B` of count `1`, a pass of
`estimateWithPL` from a zero gradient leaves `g[0] = 1/2`: the assignment at position 2
overwrites the value stored at position 1. The positions whose previous true label is `B`
are 1 and 2, each with `q[B] * fval * c = 1/2`, so accumulation would give `1`. -/
theorem pl_transition_overwrites :
    (plPass Real.exp (loopParam : Param ℝ)
        [([⟨1, 1, []⟩, ⟨1, 1, []⟩, ⟨1, 1, []⟩], 1)] (fun _ => 0, ⟨[], [], []⟩)).1 0
      = 1 / 2 ∧
    (0 : ℝ) + (plQ Real.exp (loopParam : Param ℝ) ⟨1, 1, []⟩ 1 1 * 1 * ((1 : Nat) : ℝ)
        + plQ Real.exp (loopParam : Param ℝ) ⟨1, 1, []⟩ 1 1 * 1 * ((1 : Nat) : ℝ)) = 1 := by
  have hq : ∀ p, plQ Real.exp (loopParam : Param ℝ) ⟨1, 1, []⟩ p 1 = 1 / 2 :=
    fun p => loopParam_q ⟨1, 1, []⟩ rfl p 1 Nat.one_lt_two
  have hg : ∀ (prev : Nat) (q g : Nat → ℝ),
      plGradient (loopParam : Param ℝ) 1 prev q ⟨1, 1, []⟩ g =
        if 1 = prev then setAt g 0 (q 1 * 1 * ((1 : Nat) : ℝ)) else g :=
    fun prev q g => loopParam_gradient 1 prev q ⟨1, 1, []⟩ rfl g
  refine ⟨?_, ?_⟩
  · simp only [plPass, plSequence, List.foldl_cons, List.foldl_nil, plNode, hg,
      m_default_oid]
    simp [setAt, hq]
  · rw [hq]
    norm_num

/-! ## The training pass of `estimateWithLBFGS` -/

theorem sum_map_mul_const {β : Type} (l : List β) (f : β → α) (r : α) :
    (l.map (fun b => f b * r)).sum = (l.map f).sum * r := by
  induction l with
  | nil => simp
  | cons x xs ih =>
    simp only [List.map_cons, List.sum_cons, ih]
    ring

theorem obsLoop_addAt (P : Param α) (a : Nat → α) (count : α) (t : Nat)
    (obs : List (Nat × α)) :
    ∀ g : Nat → α,
      (obs.foldl (fun g ob => (P.m_ParamIndex ob.1).foldl
        (fun g pj => addAt g pj.2 (a pj.1 * ob.2 * count)) g) g) t =
      g t + (obs.map (fun ob =>
        (((P.m_ParamIndex ob.1).filter (fun pj => decide (pj.2 = t))).map
          (fun pj => a pj.1 * ob.2)).sum)).sum * count := by
  induction obs with
  | nil => intro g; simp
  | cons ob obs ih =>
    intro g
    rw [List.foldl_cons, ih,
      foldl_addAt (P.m_ParamIndex ob.1) (fun pj => pj.2) (fun pj => a pj.1 * ob.2 * count),
      sum_map_mul_const ((P.m_ParamIndex ob.1).filter (fun u => decide (u.2 = t)))
        (fun pj : Nat × Nat => a pj.1 * ob.2) count]
    simp only [List.map_cons, List.sum_cons]
    ring

theorem lbfgsGradient_eq (P : Param α) (c : CRF α) (count i : Nat) (ev : Event α)
    (g : Nat → α) (t : Nat) :
    lbfgsGradient P c count i ev g t = g t + expectedAt P c i ev t * (count : α) := by
  unfold lbfgsGradient expectedAt
  by_cases hi : i > 0
  · rw [if_pos hi, if_pos hi,
      foldl_addAt P.m_StateIndex (fun it => it.fid)
        (fun it => edgeProb c i it.y1 it.y2 * it.fval * (count : α)),
      obsLoop_addAt P (nodeProb c i) (count : α) t ev.obs,
      sum_map_mul_const (P.m_StateIndex.filter (fun u => decide (u.fid = t)))
        (fun it : StateParam α => edgeProb c i it.y1 it.y2 * it.fval) (count : α)]
    ring
  · rw [if_neg hi, if_neg hi, obsLoop_addAt P (nodeProb c i) (count : α) t ev.obs]
    ring

theorem lbfgsNodes_spec (P : Param α) (c : CRF α) (count : Nat) (y_seq : List Nat)
    (seq : List (Event α)) :
    ∀ (i : Nat) (st : NodeState α),
      (∀ t, (lbfgsNodes P c count y_seq i seq st).gradient t =
        st.gradient t + expectedFrom P c i seq t * (count : α)) ∧
      (lbfgsNodes P c count y_seq i seq st).eval = st.eval ∧
      (lbfgsNodes P c count y_seq i seq st).reference =
        st.reference ++ seq.map Event.label ∧
      (lbfgsNodes P c count y_seq i seq st).hypothesis =
        st.hypothesis ++ hypothesisFrom y_seq i seq := by
  induction seq with
  | nil =>
    intro i st
    simp [lbfgsNodes, expectedFrom, hypothesisFrom]
  | cons ev rest ih =>
    intro i st
    obtain ⟨h1, h2, h3, h4⟩ := ih (i + 1)
      { gradient := lbfgsGradient P c count i ev st.gradient
        eval := st.eval
        prev_outcome := ev.label
        reference := st.reference ++ [ev.label]
        hypothesis := st.hypothesis ++ [y_seq.getD i 0] }
    dsimp only at h1 h2 h3 h4
    refine ⟨?_, ?_, ?_, ?_⟩
    · intro t
      simp only [lbfgsNodes, expectedFrom]
      rw [h1 t, lbfgsGradient_eq]
      ring
    · simp only [lbfgsNodes]
      rw [h2]
    · simp only [lbfgsNodes]
      rw [h3]
      simp
    · simp only [lbfgsNodes, hypothesisFrom]
      rw [h4]
      simp

/-- One sequence of the pass: the gradient gains the expected counts times the
multiplicity, and the evaluator receives `count` rounds of calls that do not depend on the
incoming gradient or on `count`. -/
theorem lbfgsSequence_spec (exp : α → α) (P : Param α) (g : Nat → α) (e : Evaluator α)
    (seq : List (Event α)) (count : Nat) :
    (∀ t, (lbfgsSequence exp P (g, e) (seq, count)).1 t =
      g t + expectedFrom P (engineOf exp P seq) 0 seq t * (count : α)) ∧
    (lbfgsSequence exp P (g, e) (seq, count)).2 =
      (List.range count).foldl
        (fun e _ => (e.addLikelihood
            (calculateProb (engineOf exp P seq) (seq.map Event.label))).append
          (seq.map Event.label)
          (hypothesisFrom (viterbiSearchExact (engineOf exp P seq)).1 0 seq)) e := by
  obtain ⟨h1, h2, h3, h4⟩ := lbfgsNodes_spec P (engineOf exp P seq) count
    (viterbiSearchExact (engineOf exp P seq)).1 seq 0 ⟨g, e, 0, [], []⟩
  refine ⟨?_, ?_⟩
  · intro t
    simp only [lbfgsSequence]
    exact h1 t
  · simp only [lbfgsSequence]
    rw [h2, h3, h4]
    rfl

theorem lbfgsPass_gradient (exp : α → α) (P : Param α)
    (trainSet : List (List (Event α) × Nat)) :
    ∀ (st : (Nat → α) × Evaluator α) (t : Nat),
      (lbfgsPass exp P trainSet st).1 t = st.1 t + expectedCount exp P trainSet t := by
  induction trainSet with
  | nil => intro st t; simp [lbfgsPass, expectedCount]
  | cons sc rest ih =>
    intro st t
    have hstep : lbfgsPass exp P (sc :: rest) st =
        lbfgsPass exp P rest (lbfgsSequence exp P st sc) := rfl
    rw [hstep, ih, (lbfgsSequence_spec exp P st.1 st.2 sc.1 sc.2).1 t]
    simp only [expectedCount, List.map_cons, List.sum_cons]
    ring

/-- Processing a sequence with count `2` is processing it twice with count `1`. -/
theorem lbfgsSequence_two (exp : α → α) (P : Param α) (st : (Nat → α) × Evaluator α)
    (s : List (Event α)) :
    lbfgsSequence exp P st (s, 2) =
      lbfgsSequence exp P (lbfgsSequence exp P st (s, 1)) (s, 1) := by
  obtain ⟨g, e⟩ := st
  obtain ⟨a1, a2⟩ := lbfgsSequence_spec exp P g e s 2
  obtain ⟨b1, b2⟩ := lbfgsSequence_spec exp P g e s 1
  obtain ⟨c1, c2⟩ := lbfgsSequence_spec exp P (lbfgsSequence exp P (g, e) (s, 1)).1
    (lbfgsSequence exp P (g, e) (s, 1)).2 s 1
  apply Prod.ext
  · funext t
    rw [a1 t, c1 t, b1 t]
    push_cast
    ring
  · rw [a2, c2, b2]
    rfl

theorem calculateEdge_flat (exp : α → α) (he : IsExp exp) (P : Param α) (n t : Nat) :
    calculateEdge exp P n t =
      exp ((P.m_StateIndex.filter (fun it => decide (MAT2 n it.y1 it.y2 = t))).map
        (fun it => P.getWeight it.fid * it.fval)).sum := by
  unfold calculateEdge
  rw [foldl_mulAt exp he P.m_StateIndex (fun it => MAT2 n it.y1 it.y2)
    (fun it => P.getWeight it.fid * it.fval), one_mul]

theorem calculateEdge_pos (exp : α → α) (he : IsExp exp) (P : Param α) (n t : Nat) :
    0 < calculateEdge exp P n t := by
  rw [calculateEdge_flat exp he]
  exact he.pos _

theorem calculateFactorsFrom_pos (exp : α → α) (he : IsExp exp) (P : Param α) (n t : Nat)
    (seq : List (Event α)) :
    ∀ (s : Nat) (R : Nat → α), 0 < R t → 0 < calculateFactorsFrom exp P n s seq R t := by
  induction seq with
  | nil => intro s R hR; exact hR
  | cons ev rest ih =>
    intro s R hR
    have hstep : calculateFactorsFrom exp P n s (ev :: rest) R =
        calculateFactorsFrom exp P n (s + 1) rest (calculateFactorsAt exp P n s ev.obs R) := rfl
    rw [hstep]
    apply ih
    rw [calculateFactorsAt_eq exp he]
    exact mul_pos hR (he.pos _)

/-- The potentials computed by `calculateEdge` and `calculateFactors` are strictly
positive. -/
theorem engineOf_positive (exp : α → α) (he : IsExp exp) (P : Param α)
    (seq : List (Event α)) : Positive (engineOf exp P seq) :=
  ⟨fun _ _ => calculateFactorsFrom_pos exp he P _ _ seq 0 _ one_pos,
   fun _ _ => calculateEdge_pos exp he P _ _⟩

theorem demoParam_zero_R (seq : List (Event ℝ)) (i y : Nat) :
    (engineOf Real.exp (demoParam (0 : ℝ)) seq).m_R i y = 1 := by
  show calculateFactorsFrom Real.exp (demoParam (0 : ℝ)) 2 0 seq (fun _ => 1) (MAT2 2 i y) = 1
  have key : ∀ (l : List (Event ℝ)) (s : Nat) (R : Nat → ℝ) (t : Nat),
      calculateFactorsFrom Real.exp (demoParam (0 : ℝ)) 2 s l R t = R t := by
    intro l
    induction l with
    | nil => intro s R t; rfl
    | cons ev rest ih =>
      intro s R t
      have hstep : calculateFactorsFrom Real.exp (demoParam (0 : ℝ)) 2 s (ev :: rest) R =
          calculateFactorsFrom Real.exp (demoParam (0 : ℝ)) 2 (s + 1) rest
            (calculateFactorsAt Real.exp (demoParam (0 : ℝ)) 2 s ev.obs R) := rfl
      rw [hstep, ih, calculateFactorsAt_eq Real.exp real_isExp]
      have hz : (ev.obs.map (fun ob =>
          ((((demoParam (0 : ℝ)).m_ParamIndex ob.1).filter
            (fun pj => decide (MAT2 2 s pj.1 = t))).map
            (fun pj => (demoParam (0 : ℝ)).getWeight pj.2 * ob.2)).sum)).sum = 0 := by
        apply List.sum_eq_zero
        intro x hx
        obtain ⟨ob, _, rfl⟩ := List.mem_map.mp hx
        apply List.sum_eq_zero
        intro z hz
        obtain ⟨pj, _, rfl⟩ := List.mem_map.mp hz
        show (0 : ℝ) * ob.2 = 0
        exact zero_mul _
      rw [hz, Real.exp_zero, mul_one]
  exact key seq 0 _ _

theorem demoParam_zero_M2 (seq : List (Event ℝ)) (k j : Nat) :
    (engineOf Real.exp (demoParam (0 : ℝ)) seq).m_M2 k j = 1 := by
  show calculateEdge Real.exp (demoParam (0 : ℝ)) 2 (MAT2 2 k j) = 1
  rw [calculateEdge_flat Real.exp real_isExp]
  have hz : ((((demoParam (0 : ℝ)).m_StateIndex).filter
      (fun it => decide (MAT2 2 it.y1 it.y2 = MAT2 2 k j))).map
      (fun it => (demoParam (0 : ℝ)).getWeight it.fid * it.fval)).sum = 0 := by
    apply List.sum_eq_zero
    intro z hz
    obtain ⟨it, _, rfl⟩ := List.mem_map.mp hz
    show (0 : ℝ) * it.fval = 0
    exact zero_mul _
  rw [hz, Real.exp_zero]

theorem demoParam_zero_neighbors (seq : List (Event ℝ)) :
    NeighborsOK (engineOf Real.exp (demoParam (0 : ℝ)) seq) := by
  refine ⟨⟨?_, ?_, ?_⟩, ⟨?_, ?_, ?_⟩⟩
  · intro j k hk
    have h : k ∈ (if j = 1 then [0] else []) := hk
    split_ifs at h
    · rw [List.mem_singleton] at h; subst h; exact Nat.zero_lt_two
    · exact absurd h (List.not_mem_nil _)
  · intro j
    show (if j = 1 then [0] else ([] : List Nat)).Nodup
    split_ifs <;> simp
  · intro j k _ hne
    exact absurd (demoParam_zero_M2 seq k j) hne
  · intro j k hk
    have h : k ∈ (if j = 0 then [1] else []) := hk
    split_ifs at h
    · rw [List.mem_singleton] at h; subst h; exact Nat.one_lt_two
    · exact absurd h (List.not_mem_nil _)
  · intro j
    show (if j = 0 then [1] else ([] : List Nat)).Nodup
    split_ifs <;> simp
  · intro j k _ hne
    exact absurd (demoParam_zero_M2 seq j k) hne

/-- With zero weights and one position both labels have node posterior `1/2`. -/
theorem demoParam_zero_nodeProb (ev : Event ℝ) (y : Nat) (hy : y < 2) :
    nodeProb (engineOf Real.exp (demoParam (0 : ℝ)) [ev]) 0 y = 1 / 2 := by
  have hp := engineOf_positive Real.exp real_isExp (demoParam (0 : ℝ)) [ev]
  have hn := demoParam_zero_neighbors [ev]
  have hY : 0 < (engineOf Real.exp (demoParam (0 : ℝ)) [ev]).m_state_size := Nat.zero_lt_two
  have hT : 0 < (engineOf Real.exp (demoParam (0 : ℝ)) [ev]).seqLen := Nat.one_pos
  rw [nodeProb_eq _ hp hn hY 0 y hT hy, partition_eq _ hT]
  have hsz : (engineOf Real.exp (demoParam (0 : ℝ)) [ev]).m_state_size = 2 := rfl
  have hlen : (engineOf Real.exp (demoParam (0 : ℝ)) [ev]).seqLen - 1 = 0 := rfl
  rw [hsz, hlen, Nat.sub_zero, Finset.sum_range_succ, Finset.sum_range_one]
  simp only [fwdTrue, bwdTrue, demoParam_zero_R]
  norm_num

/-! ## Claims about the training pass of `estimateWithLBFGS` -/

/-- C13 (as the code behaves). The training pass of `estimateWithLBFGS` only adds: for
every weight index `w` the gradient entry after the pass is its value before the pass plus
the expected counts, that is the sum over the training sequences (multiplicity `c`) of
`p_obs * value * c` over the observation features and of `p_trans * fval * c` over the
transition features (positions `i ≥ 1`) that carry `w`. Nothing is subtracted for the true
labels inside the pass. -/
theorem lbfgs_pass_adds_expected (exp : α → α) (P : Param α)
    (trainSet : List (List (Event α) × Nat)) (g : Nat → α) (e : Evaluator α) (w : Nat) :
    (lbfgsPass exp P trainSet (g, e)).1 w = g w + expectedCount exp P trainSet w :=
  lbfgsPass_gradient exp P trainSet (g, e) w

/-- C13 as stated fails: with labels `A`, `B`, zero weights, one observation feature
bound to `A` (weight index `0`) and the one-position training sequence `A` carrying that
observation with value `1` and count `1`, the pass from a zero gradient leaves
`g[0] = 1/2 = E_model`, while `E_model - E_empirical = 1/2 - 1`. -/
theorem lbfgs_pass_no_empirical :
    (lbfgsPass Real.exp (demoParam (0 : ℝ)) [([⟨0, 1, [(0, 1)]⟩], 1)]
        (fun _ => 0, ⟨[], [], []⟩)).1 0 = 1 / 2 ∧
    empiricalCount (demoParam (0 : ℝ)) [([⟨0, 1, [(0, 1)]⟩], 1)] 0 = 1 ∧
    (lbfgsPass Real.exp (demoParam (0 : ℝ)) [([⟨0, 1, [(0, 1)]⟩], 1)]
        (fun _ => 0, ⟨[], [], []⟩)).1 0 ≠
      expectedCount Real.exp (demoParam (0 : ℝ)) [([⟨0, 1, [(0, 1)]⟩], 1)] 0
        - empiricalCount (demoParam (0 : ℝ)) [([⟨0, 1, [(0, 1)]⟩], 1)] 0 := by
  have hE : expectedCount Real.exp (demoParam (0 : ℝ)) [([⟨0, 1, [(0, 1)]⟩], 1)] 0
      = 1 / 2 := by
    have hPI : (demoParam (0 : ℝ)).m_ParamIndex 0 = [(0, 0)] := rfl
    simp [expectedCount, expectedFrom, expectedAt, hPI, demoParam_zero_nodeProb]
  have hM : empiricalCount (demoParam (0 : ℝ)) [([⟨0, 1, [(0, 1)]⟩], 1)] 0 = 1 := by
    simp [empiricalCount, empiricalFrom, empiricalAt, demoParam]
  have hG := lbfgsPass_gradient Real.exp (demoParam (0 : ℝ)) [([⟨0, 1, [(0, 1)]⟩], 1)]
    (fun _ => 0, ⟨[], [], []⟩) 0
  rw [hE] at hG
  refine ⟨by rw [hG]; norm_num, hM, ?_⟩
  rw [hG, hE, hM]
  norm_num

/-- C19. Dedup correctness of the gradient pass: for every parameter table, initial gradient
and evaluator, and any sequences `s` and `t`, one training pass of `estimateWithLBFGS` over
`[s, t]` with counts `[2, 1]` yields the same gradient vector and the same evaluator calls
(in particular the same multiset of likelihood contributions) as the pass over `[s, s, t]`
with counts `[1, 1, 1]`. -/
theorem lbfgs_pass_dedup (exp : α → α) (P : Param α) (g : Nat → α) (e : Evaluator α)
    (s t : List (Event α)) :
    (lbfgsPass exp P [(s, 2), (t, 1)] (g, e)).1 =
      (lbfgsPass exp P [(s, 1), (s, 1), (t, 1)] (g, e)).1 ∧
    (lbfgsPass exp P [(s, 2), (t, 1)] (g, e)).2 =
      (lbfgsPass exp P [(s, 1), (s, 1), (t, 1)] (g, e)).2 ∧
    (Multiset.ofList (lbfgsPass exp P [(s, 2), (t, 1)] (g, e)).2.likelihoods) =
      Multiset.ofList (lbfgsPass exp P [(s, 1), (s, 1), (t, 1)] (g, e)).2.likelihoods := by
  have h : lbfgsPass exp P [(s, 2), (t, 1)] (g, e) =
      lbfgsPass exp P [(s, 1), (s, 1), (t, 1)] (g, e) := by
    simp only [lbfgsPass, List.foldl_cons, List.foldl_nil]
    rw [lbfgsSequence_two]
  rw [h]
  exact ⟨rfl, rfl, rfl⟩

/-! ## The reader -/

theorem firstSeen_snoc {β : Type} [DecidableEq β] (l : List β) (x : β) :
    firstSeen (l ++ [x]) = if x ∈ firstSeen l then firstSeen l else firstSeen l ++ [x] := by
  simp only [firstSeen, List.foldl_append, List.foldl_cons, List.foldl_nil]

theorem mem_firstSeen {β : Type} [DecidableEq β] (l : List β) :
    ∀ x, x ∈ firstSeen l ↔ x ∈ l := by
  induction l using List.reverseRecOn with
  | nil => intro x; simp [firstSeen]
  | append_singleton l a ih =>
    intro x
    rw [firstSeen_snoc]
    by_cases h : a ∈ firstSeen l
    · rw [if_pos h, List.mem_append, List.mem_singleton, ih]
      constructor
      · intro hx; exact Or.inl hx
      · rintro (hx | hx)
        · exact hx
        · rw [hx]; exact (ih a).mp h
    · rw [if_neg h, List.mem_append, List.mem_append, ih]

/-- The list `firstSeen l` has no repetition. -/
theorem firstSeen_nodup {β : Type} [DecidableEq β] (l : List β) : (firstSeen l).Nodup := by
  induction l using List.reverseRecOn with
  | nil => simp [firstSeen]
  | append_singleton l a ih =>
    rw [firstSeen_snoc]
    by_cases h : a ∈ firstSeen l
    · rw [if_pos h]; exact ih
    · rw [if_neg h]
      exact List.Nodup.append ih (List.nodup_singleton a)
        (by
          intro x hx hx2
          rw [List.mem_singleton] at hx2
          subst hx2
          exact h hx)

theorem incrAt_length (cs : List Nat) : ∀ i, (incrAt cs i).length = cs.length := by
  induction cs with
  | nil => intro i; rfl
  | cons c cs ih =>
    intro i
    cases i with
    | zero => rfl
    | succ i => simp [incrAt, ih]

theorem incrAt_sum (cs : List Nat) : ∀ i, i < cs.length → (incrAt cs i).sum = cs.sum + 1 := by
  induction cs with
  | nil => intro i hi; simp at hi
  | cons c cs ih =>
    intro i hi
    cases i with
    | zero => simp [incrAt]; omega
    | succ i =>
      simp only [incrAt, List.sum_cons]
      rw [ih i (by simpa using hi)]
      omega

theorem posOf_lt_length {β : Type} [DecidableEq β] (b : β) (l : List β) (h : b ∈ l) :
    posOf b l < l.length := by
  induction l with
  | nil => simp at h
  | cons k ks ih =>
    by_cases hk : k = b
    · simp [posOf, hk]
    · have hb : b ∈ ks := by
        rcases List.mem_cons.mp h with h1 | h1
        · exact absurd h1.symm hk
        · exact h1
      simp only [posOf, if_neg hk, List.length_cons]
      have := ih hb
      omega

theorem posOf_append_of_mem {β : Type} [DecidableEq β] (b : β) (l l2 : List β) (h : b ∈ l) :
    posOf b (l ++ l2) = posOf b l := by
  induction l with
  | nil => simp at h
  | cons k ks ih =>
    by_cases hk : k = b
    · simp [posOf, hk]
    · have hb : b ∈ ks := by
        rcases List.mem_cons.mp h with h1 | h1
        · exact absurd h1.symm hk
        · exact h1
      have e := ih hb
      simp only [List.cons_append, posOf, if_neg hk]
      exact congrArg (· + 1) e

theorem posOf_append_self {β : Type} [DecidableEq β] (b : β) (l : List β) (h : b ∉ l) :
    posOf b (l ++ [b]) = l.length := by
  induction l with
  | nil => simp [posOf]
  | cons k ks ih =>
    have hk : ¬ k = b := fun e => h (e ▸ List.mem_cons_self _ _)
    have hb : b ∉ ks := fun e => h (List.mem_cons_of_mem _ e)
    have e := ih hb
    simp only [List.cons_append, posOf, if_neg hk, List.length_cons]
    exact congrArg (· + 1) e

theorem occurrences_snoc {β : Type} [DecidableEq β] (b x : β) (l : List β) :
    occurrences b (l ++ [x]) = occurrences b l + (if x = b then 1 else 0) := by
  simp only [occurrences, List.filter_append, List.length_append, List.filter_cons,
    List.filter_nil]
  by_cases h : x = b
  · simp [h]
  · simp [h]

theorem occurrences_eq_zero {β : Type} [DecidableEq β] (b : β) (l : List β) (h : b ∉ l) :
    occurrences b l = 0 := by
  simp only [occurrences, List.length_eq_zero, List.filter_eq_nil_iff, decide_eq_true_eq]
  intro x hx e
  exact h (e ▸ hx)

theorem incrAt_posOf {β : Type} [DecidableEq β] (keys : List β) (c : β → Nat) (b : β) :
    keys.Nodup → b ∈ keys →
      incrAt (keys.map c) (posOf b keys) =
        keys.map (fun k => if k = b then c k + 1 else c k) := by
  induction keys with
  | nil => intro _ hb; simp at hb
  | cons k ks ih =>
    intro hnd hb
    have hk : k ∉ ks := (List.nodup_cons.mp hnd).1
    have hks : ks.Nodup := (List.nodup_cons.mp hnd).2
    by_cases hkb : k = b
    · subst hkb
      simp only [posOf, if_true, List.map_cons, incrAt]
      congr 1
      apply List.map_congr_left
      intro x hx
      have : x ≠ k := fun e => hk (e ▸ hx)
      rw [if_neg this]
    · have hb2 : b ∈ ks := by
        rcases List.mem_cons.mp hb with h | h
        · exact absurd h.symm hkb
        · exact h
      simp only [posOf, if_neg hkb, List.map_cons, incrAt]
      rw [ih hks hb2]

theorem readLine_token_list (packEvent : List String → Event α) (n : Nat) (st : ReadState α)
    (tokens : List String) :
    (readLine packEvent n st tokens).token_list =
      if tokens = [] then [] else st.token_list ++ [tokens] := by
  unfold readLine
  by_cases h : tokens = []
  · rw [if_pos h, if_pos h]
    cases st.train_data_map st.token_list <;> rfl
  · rw [if_neg h, if_neg h]

/-- One line keeps the reader state in agreement with the terminated token matrices. -/
theorem readLine_inv (packEvent : List String → Event α) (n : Nat) (st : ReadState α)
    (D : List (List (List String))) (hinv : ReadInv packEvent st D) (tokens : List String) :
    ReadInv packEvent (readLine packEvent n st tokens)
      (if tokens = [] then D ++ [st.token_list] else D) := by
  obtain ⟨h1, h2, h3, h4, h5, h6⟩ := hinv
  by_cases ht : tokens = []
  · rw [if_pos ht]
    have hmap := h2 st.token_list
    by_cases hmem : st.token_list ∈ firstSeen D
    · rw [if_pos hmem] at hmap
      have hstep : readLine packEvent n st tokens =
          { seq := []
            m_TrainSet := st.m_TrainSet
            m_TrainSetCount := incrAt st.m_TrainSetCount (posOf st.token_list (firstSeen D))
            train_data_map := st.train_data_map
            token_list := []
            prev_label := ""
            count := st.count + 1
            calls := st.calls } := by
        unfold readLine
        rw [if_pos ht, hmap]
      have hfs : firstSeen (D ++ [st.token_list]) = firstSeen D := by
        rw [firstSeen_snoc, if_pos hmem]
      rw [hstep]
      refine ⟨rfl, ?_, ?_, ?_, ?_, ?_⟩
      · intro k; rw [hfs]; exact h2 k
      · rw [hfs]; exact h3
      · rw [hfs]
        show incrAt st.m_TrainSetCount (posOf st.token_list (firstSeen D)) = _
        rw [h4, incrAt_posOf _ (fun b => occurrences b D) _ (firstSeen_nodup D) hmem]
        apply List.map_congr_left
        intro k _
        rw [occurrences_snoc]
        by_cases hk : k = st.token_list
        · subst hk; simp
        · have hk2 : ¬ st.token_list = k := fun e => hk e.symm
          rw [if_neg hk, if_neg hk2]
          rfl
      · show (incrAt st.m_TrainSetCount (posOf st.token_list (firstSeen D))).sum = _
        rw [incrAt_sum _ _ (by
          rw [h4, List.length_map]
          exact posOf_lt_length _ _ hmem), h5]
        simp
      · show st.count + 1 = _
        rw [h6]; simp
    · rw [if_neg hmem] at hmap
      have hstep : readLine packEvent n st tokens =
          { seq := []
            m_TrainSet := st.m_TrainSet ++ [st.seq]
            m_TrainSetCount := st.m_TrainSetCount ++ [1]
            train_data_map := fun k =>
              if k = st.token_list then some st.m_TrainSetCount.length
              else st.train_data_map k
            token_list := []
            prev_label := ""
            count := st.count + 1
            calls := st.calls } := by
        unfold readLine
        rw [if_pos ht, hmap]
      have hfs : firstSeen (D ++ [st.token_list]) = firstSeen D ++ [st.token_list] := by
        rw [firstSeen_snoc, if_neg hmem]
      have hnotD : st.token_list ∉ D := fun h => hmem ((mem_firstSeen D _).mpr h)
      have hlen : st.m_TrainSetCount.length = (firstSeen D).length := by
        rw [h4, List.length_map]
      rw [hstep]
      refine ⟨rfl, ?_, ?_, ?_, ?_, ?_⟩
      · intro k
        rw [hfs]
        show (if k = st.token_list then some st.m_TrainSetCount.length
          else st.train_data_map k) = _
        by_cases hk : k = st.token_list
        · subst hk
          rw [if_pos rfl, if_pos (List.mem_append_right _ (List.mem_singleton_self _)),
            posOf_append_self _ _ hmem, hlen]
        · rw [if_neg hk, h2 k]
          by_cases hk2 : k ∈ firstSeen D
          · rw [if_pos hk2, if_pos (List.mem_append_left _ hk2),
              posOf_append_of_mem _ _ _ hk2]
          · have : k ∉ firstSeen D ++ [st.token_list] := by
              rw [List.mem_append, List.mem_singleton]
              rintro (h | h)
              · exact hk2 h
              · exact hk h
            rw [if_neg hk2, if_neg this]
      · rw [hfs]
        show st.m_TrainSet ++ [st.seq] = _
        rw [h3, h1, List.map_append]
        rfl
      · rw [hfs]
        show st.m_TrainSetCount ++ [1] = _
        rw [h4, List.map_append]
        congr 1
        · apply List.map_congr_left
          intro k hk
          rw [occurrences_snoc]
          have hne : ¬ st.token_list = k := fun e => hmem (e ▸ hk)
          rw [if_neg hne]
          rfl
        · simp [occurrences_snoc, occurrences_eq_zero _ _ hnotD]
      · show (st.m_TrainSetCount ++ [1]).sum = _
        rw [List.sum_append, h5]
        simp
      · show st.count + 1 = _
        rw [h6]; simp
  · rw [if_neg ht]
    have hstep : readLine packEvent n st tokens =
        { seq := st.seq ++ [packEvent tokens]
          m_TrainSet := st.m_TrainSet
          m_TrainSetCount := st.m_TrainSetCount
          train_data_map := st.train_data_map
          token_list := st.token_list ++ [tokens]
          prev_label := tokens.headD ""
          count := st.count
          calls :=
            if st.prev_label ≠ "" then
              st.calls ++ transitionCalls n st.prev_label (packEvent tokens)
            else st.calls } := by
      unfold readLine
      rw [if_neg ht]
    rw [hstep]
    refine ⟨?_, h2, h3, h4, h5, h6⟩
    show st.seq ++ [packEvent tokens] = (st.token_list ++ [tokens]).map packEvent
    rw [h1, List.map_append]
    rfl

theorem readLines_inv (packEvent : List String → Event α) (n : Nat)
    (lines : List (List String)) :
    ∀ (st : ReadState α) (D : List (List (List String))), ReadInv packEvent st D →
      ReadInv packEvent (lines.foldl (readLine packEvent n) st)
        (D ++ blocksFrom st.token_list lines) := by
  induction lines with
  | nil => intro st D h; simpa [blocksFrom] using h
  | cons l ls ih =>
    intro st D h
    have hstep := readLine_inv packEvent n st D h l
    have hres := ih _ _ hstep
    rw [readLine_token_list] at hres
    rw [List.foldl_cons]
    by_cases hl : l = []
    · rw [if_pos hl] at hres
      simp only [blocksFrom, if_pos hl]
      rw [if_pos hl, List.append_assoc] at hres
      exact hres
    · rw [if_neg hl] at hres
      simp only [blocksFrom, if_neg hl]
      rw [if_neg hl] at hres
      exact hres

theorem blocksFrom_length (lines : List (List String)) :
    ∀ cur, (blocksFrom cur lines).length = occurrences [] lines := by
  induction lines with
  | nil => intro cur; rfl
  | cons l ls ih =>
    intro cur
    have ih2 : ∀ cur, (blocksFrom cur ls).length =
        (ls.filter (fun x => decide (x = []))).length := ih
    by_cases hl : l = []
    · simp [blocksFrom, occurrences, List.filter_cons, hl, ih2]
    · simp [blocksFrom, occurrences, List.filter_cons, hl, ih2]

theorem readTrainData_inv (tokenizeColon : String → List String)
    (packEvent : List String → Event α) (n : Nat) (lines : List (List String)) :
    ReadInv packEvent (readTrainData tokenizeColon packEvent n lines) (blocks lines) := by
  have h0 : ReadInv packEvent
      (⟨[], [], [], fun _ => none, [], "", 0, registerLabels tokenizeColon lines⟩ :
        ReadState α) [] := by
    refine ⟨rfl, ?_, rfl, rfl, rfl, rfl⟩
    intro k
    simp [firstSeen]
  have := readLines_inv packEvent n lines _ _ h0
  simpa [readTrainData, blocks] using this

/-! ## Claims about `readTrainData` -/

/-- C18. Training-set deduplication: for every input (a list of tokenized lines), after
`readTrainData` the lists `m_TrainSet` and `m_TrainSetCount` have equal length, entry `j`
belongs to the `j`-th distinct raw token matrix in first-seen order, `m_TrainSetCount[j]`
is the number of blank-line-terminated sequences with that token matrix, and the counts
sum to the number of sequence breaks (blank lines) read, which is also `count`. -/
theorem readTrainData_dedup (tokenizeColon : String → List String)
    (packEvent : List String → Event α) (n : Nat) (lines : List (List String)) :
    (readTrainData tokenizeColon packEvent n lines).m_TrainSet.length =
      (readTrainData tokenizeColon packEvent n lines).m_TrainSetCount.length ∧
    (readTrainData tokenizeColon packEvent n lines).m_TrainSet =
      (firstSeen (blocks lines)).map (fun b => b.map packEvent) ∧
    (readTrainData tokenizeColon packEvent n lines).m_TrainSetCount =
      (firstSeen (blocks lines)).map (fun b => occurrences b (blocks lines)) ∧
    (firstSeen (blocks lines)).Nodup ∧
    (∀ b, b ∈ firstSeen (blocks lines) ↔ b ∈ blocks lines) ∧
    (readTrainData tokenizeColon packEvent n lines).m_TrainSetCount.sum =
      occurrences [] lines ∧
    (readTrainData tokenizeColon packEvent n lines).count = occurrences [] lines := by
  obtain ⟨_, _, h3, h4, h5, h6⟩ := readTrainData_inv tokenizeColon packEvent n lines
  have hlen : (blocks lines).length = occurrences [] lines := blocksFrom_length lines []
  refine ⟨?_, h3, h4, firstSeen_nodup _, mem_firstSeen _, ?_, ?_⟩
  · rw [h3, h4, List.length_map, List.length_map]
  · rw [h5, hlen]
  · rw [h6, hlen]

/-- C20 (the code at a failing input). For the training lines `A:2 x`, `B y` and a blank
line, the first loop registers the labels `A` and `B`, and the observation synthesized at
position 1 is named `@A:2`, the whole first token of position 0, not `@A`; it is bound to
the current label `B` with the event's feature value, and to the other label with `0`. -/
theorem transition_name_keeps_suffix :
    (readTrainData (tokenizeOn ':') demoPackEvent 2 [["A:2", "x"], ["B", "y"], []]).calls =
      [ParamCall.addNewState "A", ParamCall.addNewState "B", ParamCall.addNewObs "@A:2",
        ParamCall.updateParam 0 "@A:2" 0, ParamCall.updateParam 1 "@A:2" 1] ∧
    registeredLabel (tokenizeOn ':') "A:2" = "A" ∧
    "@" ++ registeredLabel (tokenizeOn ':') "A:2" ≠ "@A:2" := by
  refine ⟨?_, by decide, by decide⟩
  rfl

/-! ## The factored forward step, the decoder's ranges, `eval` -/

/-- The factored forward step with the contract of the predecessor list stated for the
one label `j` only. -/
theorem alphaRawStep_local (c : CRF α) (prev : List α) (i j : Nat)
    (hnd : (c.m_SelectedStateList1 j).Nodup)
    (hlt : ∀ k ∈ c.m_SelectedStateList1 j, k < c.m_state_size)
    (hcov : ∀ k, k < c.m_state_size → c.m_M2 k j ≠ 1 → k ∈ c.m_SelectedStateList1 j)
    (hsum : ∑ k in Finset.range c.m_state_size, prev.getD k 0 = 1) :
    alphaRawStep c prev i j = c.m_R i j *
        (1 + ((c.m_SelectedStateList1 j).map
          (fun k => prev.getD k 0 * (c.m_M2 k j - 1))).sum) ∧
    alphaRawStep c prev i j =
      c.m_R i j * ∑ k in Finset.range c.m_state_size, prev.getD k 0 * c.m_M2 k j := by
  have h0 : alphaRawStep c prev i j = c.m_R i j *
        (1 + ((c.m_SelectedStateList1 j).map
          (fun k => prev.getD k 0 * (c.m_M2 k j - 1))).sum) := by
    unfold alphaRawStep
    rw [foldl_add_eq, zero_add]
    have h1 : ((c.m_SelectedStateList1 j).map
        (fun k => prev.getD k 0 * c.m_R i j * (c.m_M2 k j - 1))).sum =
        c.m_R i j * ((c.m_SelectedStateList1 j).map
          (fun k => prev.getD k 0 * (c.m_M2 k j - 1))).sum := by
      rw [← List.sum_map_mul_left]
      congr 1
      apply List.map_congr_left
      intro k _
      ring
    rw [h1]
    ring
  refine ⟨h0, ?_⟩
  rw [h0, list_sum_eq_range c.m_state_size _ _ hnd hlt]
  · have h1 : ∑ k in Finset.range c.m_state_size, prev.getD k 0 * (c.m_M2 k j - 1) =
        ∑ k in Finset.range c.m_state_size, prev.getD k 0 * c.m_M2 k j
          - ∑ k in Finset.range c.m_state_size, prev.getD k 0 := by
      rw [← Finset.sum_sub_distrib]
      apply Finset.sum_congr rfl
      intro k _
      ring
    rw [h1, hsum]
    ring
  · intro k hk hnk
    have h1 : c.m_M2 k j = 1 := by
      by_contra hne
      exact hnk (hcov k hk hne)
    rw [h1]
    ring

theorem forwardRow_pred (c : CRF α) (i : Nat) (hi : 1 ≤ i) :
    forwardRow c i = normalizeRow c.m_state_size (alphaRawStep c (forwardRow c (i - 1)).1 i) := by
  obtain ⟨n, rfl⟩ : ∃ n, i = n + 1 := ⟨i - 1, by omega⟩
  rfl

/-- C23. The factored forward step equals the dense recursion: for a position
`1 ≤ i < T` and a label `y`, when the previous alpha row sums to `1` and `Pred[y]` lists,
without repetition, labels below `|Y|` among which is every `k` with `M2[k,y] ≠ 1`, the
value `forward()` computes for `alpha[i,y]` before rescaling is
`R[i,y] * (1 + Σ_{k ∈ Pred[y]} alpha[i-1,k] * (M2[k,y] - 1))`, and this equals
`R[i,y] * Σ_k alpha[i-1,k] * M2[k,y]`. -/
theorem forward_step_factored (c : CRF α) (i y : Nat) (hi1 : 1 ≤ i) (hi2 : i < c.seqLen)
    (hsum : ∑ k in Finset.range c.m_state_size, m_Alpha c (i - 1) k = 1)
    (hnd : (c.m_SelectedStateList1 y).Nodup)
    (hlt : ∀ k ∈ c.m_SelectedStateList1 y, k < c.m_state_size)
    (hcov : ∀ k, k < c.m_state_size → c.m_M2 k y ≠ 1 → k ∈ c.m_SelectedStateList1 y) :
    forwardRow c i
      = normalizeRow c.m_state_size (alphaRawStep c (forwardRow c (i - 1)).1 i) ∧
    alphaRawStep c (forwardRow c (i - 1)).1 i y = c.m_R i y *
        (1 + ((c.m_SelectedStateList1 y).map
          (fun k => m_Alpha c (i - 1) k * (c.m_M2 k y - 1))).sum) ∧
    alphaRawStep c (forwardRow c (i - 1)).1 i y =
      c.m_R i y * ∑ k in Finset.range c.m_state_size, m_Alpha c (i - 1) k * c.m_M2 k y := by
  have hA : ∀ k, m_Alpha c (i - 1) k = (forwardRow c (i - 1)).1.getD k 0 :=
    fun k => m_Alpha_lt c (i - 1) k (by omega)
  simp only [hA] at hsum ⊢
  exact ⟨forwardRow_pred c i hi1,
    alphaRawStep_local c (forwardRow c (i - 1)).1 i y hnd hlt hcov hsum⟩

theorem forward_step_factored_witness :
    alphaRawStep (transitionDominates (1 : ℚ) 148)
        (forwardRow (transitionDominates (1 : ℚ) 148) (1 - 1)).1 1 1 =
      (transitionDominates (1 : ℚ) 148).m_R 1 1 *
        ∑ k in Finset.range (transitionDominates (1 : ℚ) 148).m_state_size,
          m_Alpha (transitionDominates (1 : ℚ) 148) (1 - 1) k
            * (transitionDominates (1 : ℚ) 148).m_M2 k 1 :=
  (forward_step_factored (transitionDominates (1 : ℚ) 148) 1 1 (by decide) (by decide)
    (by
      have h := (forwardRow_spec (transitionDominates (1 : ℚ) 148)
        (transitionDominates_positive 1 148 (by norm_num) (by norm_num))
        (transitionDominates_neighbors 1 148).pred (by decide) 0).2.2.1
      have hA : ∀ k, m_Alpha (transitionDominates (1 : ℚ) 148) (1 - 1) k =
          (forwardRow (transitionDominates (1 : ℚ) 148) 0).1.getD k 0 :=
        fun k => m_Alpha_lt _ 0 k (by decide)
      simp only [hA]
      exact h)
    ((transitionDominates_neighbors (1 : ℚ) 148).pred.pred_nodup 1)
    ((transitionDominates_neighbors (1 : ℚ) 148).pred.pred_lt 1)
    ((transitionDominates_neighbors (1 : ℚ) 148).pred.pred_cover 1)).2.2

/-- C24. The decoder returns one label per position, each in range: for `T ≥ 1`,
`|Y| ≥ 1` and strictly positive `R` and `M2`, `viterbiSearch` returns exactly `T` labels,
each below `|Y|`, so `assert(y_seq.size() == seq.size())` holds; every row of `delta`
and `psi` has `|Y|` entries, the row `m_seq_size - 2` read by the last-path loop is a row
of a position, and back-tracking, which starts at `m_default_oid < |Y|` and continues
with `psi[i][prev_y]`, only reads indices below `|Y|`. This holds whatever the conversion
to `double` does to the candidates. -/
theorem viterbiSearch_in_range (toDouble : α → α) (c : CRF α) (hY : 1 ≤ c.m_state_size)
    (hT : 1 ≤ c.seqLen) (_hp : Positive c) :
    (viterbiSearch toDouble c).1.length = c.seqLen ∧
    (∀ a ∈ (viterbiSearch toDouble c).1, a < c.m_state_size) ∧
    (∀ i, (viterbiRow toDouble c i).1.length = c.m_state_size ∧
      (viterbiRow toDouble c i).2.length = c.m_state_size) ∧
    c.m_seq_size - 2 < c.seqLen ∧
    m_default_oid < c.m_state_size ∧
    (∀ i prev_y, prev_y < c.m_state_size → psi toDouble c i prev_y < c.m_state_size) ∧
    (∀ a ∈ backtrack toDouble c (c.m_seq_size - 1) m_default_oid, a < c.m_state_size) := by
  refine ⟨viterbiSearch_length toDouble c, viterbiSearch_mem_lt toDouble c hY,
    viterbiRow_length toDouble c, ?_, hY, fun i p h => psi_lt toDouble c hY i p h, ?_⟩
  · simp only [CRF.m_seq_size]
    omega
  · intro a ha
    apply viterbiSearch_mem_lt toDouble c hY a
    simp only [viterbiSearch, List.mem_reverse]
    exact ha

theorem viterbiSearch_in_range_witness :
    (viterbiSearch binary64 (transitionDominates (1 : ℚ) 148)).1.length
        = (transitionDominates (1 : ℚ) 148).seqLen ∧
    ∀ a ∈ (viterbiSearch binary64 (transitionDominates (1 : ℚ) 148)).1,
      a < (transitionDominates (1 : ℚ) 148).m_state_size :=
  have h := viterbiSearch_in_range binary64 (transitionDominates (1 : ℚ) 148) (by decide)
    (by decide) (transitionDominates_positive 1 148 (by norm_num) (by norm_num))
  ⟨h.1, h.2.1⟩

/-- C26. The stored partition value is always exactly `1`: after `forward()`, for
`T ≥ 1`, `|Y| ≥ 1` and strictly positive `R` and `M2`, the row `alpha[T-1,·]` sums to
`1`, `getPartitionZ() = alpha[T, m_default_oid] = 1` and `scale[T] = 1`, whatever the
potentials are; the sum of the scores of all label sequences is the product of
`scale[0..T-1]`. -/
theorem stored_partition_is_one (c : CRF α) (hY : 1 ≤ c.m_state_size) (hT : 1 ≤ c.seqLen)
    (hp : Positive c) (hn : PredOK c) :
    ∑ y in Finset.range c.m_state_size, m_Alpha c (c.seqLen - 1) y = 1 ∧
    getPartitionZ c = m_Alpha c c.seqLen m_default_oid ∧
    getPartitionZ c = 1 ∧
    scale c c.seqLen = 1 ∧
    ∏ i in Finset.range c.seqLen, scale c i = sumSeqs c (score c) := by
  refine ⟨?_, ?_, getPartitionZ_eq_one c hp hn hY, scale_last c hp hn hY,
    prod_scale_range c hp hn hY hT⟩
  · have hA : ∀ k, m_Alpha c (c.seqLen - 1) k = (forwardRow c (c.seqLen - 1)).1.getD k 0 :=
      fun k => m_Alpha_lt c (c.seqLen - 1) k (by omega)
    simp only [hA]
    exact (forwardRow_spec c hp hn hY (c.seqLen - 1)).2.2.1
  · rw [getPartitionZ_eq_one c hp hn hY, m_Alpha_last c hp hn hY]

theorem stored_partition_is_one_witness :
    getPartitionZ (transitionDominates (1 : ℚ) 148) = 1 ∧
    scale (transitionDominates (1 : ℚ) 148) (transitionDominates (1 : ℚ) 148).seqLen = 1 :=
  have h := stored_partition_is_one (transitionDominates (1 : ℚ) 148) (by decide) (by decide)
    (transitionDominates_positive 1 148 (by norm_num) (by norm_num))
    (transitionDominates_neighbors 1 148).pred
  ⟨h.2.2.1, h.2.2.2.1⟩

/-! ## The start of a sequence in `estimateWithPL` -/

/-- After the transition loop of the gradient of `estimateWithPL`, a slot that a record
with `y1 == prev_outcome` names holds the value assigned for the last such record. -/
theorem foldl_setAt_written (q : Nat → α) (count : Nat) (p f : Nat) :
    ∀ (l : List (StateParam α)) (g : Nat → α),
      (∃ it ∈ l, it.y1 = p ∧ it.fid = f) →
      ∃ it ∈ l, it.y1 = p ∧ it.fid = f ∧
        (l.foldl (fun g it =>
          if it.y1 = p then setAt g it.fid (q it.y2 * it.fval * (count : α)) else g) g) f
          = q it.y2 * it.fval * (count : α) := by
  intro l
  induction l using List.reverseRecOn with
  | nil =>
    intro g h
    obtain ⟨it, hit, _⟩ := h
    exact absurd hit (List.not_mem_nil _)
  | append_singleton l a ih =>
    intro g h
    rw [List.foldl_append, List.foldl_cons, List.foldl_nil]
    by_cases ha : a.y1 = p ∧ a.fid = f
    · refine ⟨a, by simp, ha.1, ha.2, ?_⟩
      rw [if_pos ha.1]
      unfold setAt
      rw [if_pos ha.2.symm]
    · obtain ⟨it, hit, h1, h2⟩ := h
      have hit2 : it ∈ l := by
        rcases List.mem_append.mp hit with h3 | h3
        · exact h3
        · rw [List.mem_singleton] at h3
          subst h3
          exact absurd ⟨h1, h2⟩ ha
      obtain ⟨it2, hm, h3, h4, h5⟩ := ih g ⟨it, hit2, h1, h2⟩
      refine ⟨it2, List.mem_append_left _ hm, h3, h4, ?_⟩
      rw [← h5]
      by_cases hy : a.y1 = p
      · rw [if_pos hy]
        unfold setAt
        rw [if_neg]
        intro hf
        exact ha ⟨hy, hf.symm⟩
      · rw [if_neg hy]

/-- C29. Pseudo-likelihood treats the start of a sequence as label id `0`: in
`estimateWithPL`, position 0 of every sequence is processed with
`prev_outcome = m_default_oid = 0`. The score of a label `y` there is its observation
score plus `theta[fid] * fval` over the `m_StateIndex` records `(0, y)`, `q` is the
softmax of these scores, and every record with `y1 = 0` has its gradient slot written with
`q[y2] * fval * count` of a record `(0, y2)` of that slot: the same as at a position whose
previous true label has id `0`. In `forward()` and `viterbiSearch` the row of position 0
is `R[0,j]` alone, with transition factor `1`. -/
theorem pl_start_is_label_zero (P : Param ℝ) (count : Nat) (st : (Nat → ℝ) × Evaluator ℝ)
    (ev : Event ℝ) (rest : List (Event ℝ)) (it : StateParam ℝ) (hit : it ∈ P.m_StateIndex)
    (h0 : it.y1 = 0) (c : CRF ℝ) (j : Nat) (hj : j < c.m_state_size) :
    m_default_oid = 0 ∧
    plSequence Real.exp P st (ev :: rest, count) =
      ((rest.foldl (plNode Real.exp P count)
          (plNode Real.exp P count ⟨st.1, st.2, 0, [], []⟩ ev)).gradient,
        (List.range count).foldl
          (fun e _ => e.append
            (rest.foldl (plNode Real.exp P count)
              (plNode Real.exp P count ⟨st.1, st.2, 0, [], []⟩ ev)).reference
            (rest.foldl (plNode Real.exp P count)
              (plNode Real.exp P count ⟨st.1, st.2, 0, [], []⟩ ev)).hypothesis)
          (rest.foldl (plNode Real.exp P count)
            (plNode Real.exp P count ⟨st.1, st.2, 0, [], []⟩ ev)).eval) ∧
    (plNode Real.exp P count ⟨st.1, st.2, 0, [], []⟩ ev).gradient
      = plGradient P count 0 (plQ Real.exp P ev 0) ev st.1 ∧
    (∀ y, plScores P ev 0 y = obsScore P ev.obs y + edgeScore P 0 y) ∧
    (∀ y, y < P.sizeStateVec →
      plQ Real.exp P ev 0 y = Real.exp (obsScore P ev.obs y + edgeScore P 0 y) /
        ∑ k in Finset.range P.sizeStateVec,
          Real.exp (obsScore P ev.obs k + edgeScore P 0 k)) ∧
    (∃ it2 ∈ P.m_StateIndex, it2.y1 = 0 ∧ it2.fid = it.fid ∧
      (plNode Real.exp P count ⟨st.1, st.2, 0, [], []⟩ ev).gradient it.fid
        = plQ Real.exp P ev 0 it2.y2 * it2.fval * (count : ℝ)) ∧
    alphaRaw0 c j = c.m_R 0 j ∧
    (∀ toDouble : ℝ → ℝ, (viterbiRow toDouble c 0).1.getD j 0 = c.m_R 0 j) := by
  refine ⟨rfl, rfl, rfl, fun y => plScores_eq P ev 0 y,
    fun y hy => plQ_eq Real.exp P ev 0 y hy, ?_, ?_, ?_⟩
  · exact foldl_setAt_written (plQ Real.exp P ev 0) count 0 it.fid P.m_StateIndex _
      ⟨it, hit, h0, rfl⟩
  · simp [alphaRaw0]
  · intro toDouble
    rw [viterbiRow_zero_delta toDouble c j hj, one_mul]

theorem pl_start_is_label_zero_witness :
    ∃ it2 ∈ (demoParam (5 : ℝ)).m_StateIndex, it2.y1 = 0 ∧
      it2.fid = (⟨0, 1, 1, 1⟩ : StateParam ℝ).fid ∧
      (plNode Real.exp (demoParam (5 : ℝ)) 1 ⟨fun _ => 0, ⟨[], [], []⟩, 0, [], []⟩
          ⟨1, 1, [(0, 1)]⟩).gradient (⟨0, 1, 1, 1⟩ : StateParam ℝ).fid
        = plQ Real.exp (demoParam (5 : ℝ)) ⟨1, 1, [(0, 1)]⟩ 0 it2.y2 * it2.fval
            * ((1 : Nat) : ℝ) :=
  (pl_start_is_label_zero (demoParam (5 : ℝ)) 1 (fun _ => 0, ⟨[], [], []⟩)
    ⟨1, 1, [(0, 1)]⟩ [] ⟨0, 1, 1, 1⟩ (List.mem_singleton.mpr rfl) rfl
    (transitionDominates (1 : ℝ) 148) 0 Nat.zero_lt_two).2.2.2.2.2.1

/-! ## The reader at the end of the input and at blank lines -/

theorem readLine_nonblank (packEvent : List String → Event α) (n : Nat) (st : ReadState α)
    (tokens : List String) (h : tokens ≠ []) :
    readLine packEvent n st tokens =
      { seq := st.seq ++ [packEvent tokens]
        m_TrainSet := st.m_TrainSet
        m_TrainSetCount := st.m_TrainSetCount
        train_data_map := st.train_data_map
        token_list := st.token_list ++ [tokens]
        prev_label := tokens.headD ""
        count := st.count
        calls :=
          if st.prev_label ≠ "" then
            st.calls ++ transitionCalls n st.prev_label (packEvent tokens)
          else st.calls } := by
  unfold readLine
  rw [if_neg h]

/-- Lines that are not blank leave the stored sequences, their counts and `count` as they
are, and extend the pending `seq`. -/
theorem readLines_nonblank (packEvent : List String → Event α) (n : Nat)
    (tail : List (List String)) (htail : ∀ l ∈ tail, l ≠ []) :
    ∀ st : ReadState α,
      (tail.foldl (readLine packEvent n) st).m_TrainSet = st.m_TrainSet ∧
      (tail.foldl (readLine packEvent n) st).m_TrainSetCount = st.m_TrainSetCount ∧
      (tail.foldl (readLine packEvent n) st).count = st.count ∧
      (tail.foldl (readLine packEvent n) st).seq = st.seq ++ tail.map packEvent := by
  induction tail with
  | nil => intro st; simp
  | cons l ls ih =>
    intro st
    have hl : l ≠ [] := htail l (List.mem_cons_self _ _)
    obtain ⟨h1, h2, h3, h4⟩ :=
      ih (fun x hx => htail x (List.mem_cons_of_mem _ hx)) (readLine packEvent n st l)
    rw [List.foldl_cons, h1, h2, h3, h4, readLine_nonblank packEvent n st l hl]
    simp

theorem readLine_calls_mono (packEvent : List String → Event α) (n : Nat) (st : ReadState α)
    (tokens : List String) (x : ParamCall α) (hx : x ∈ st.calls) :
    x ∈ (readLine packEvent n st tokens).calls := by
  unfold readLine
  by_cases h : tokens = []
  · rw [if_pos h]
    cases st.train_data_map st.token_list <;> exact hx
  · rw [if_neg h]
    by_cases hp : st.prev_label ≠ ""
    · simp only [if_pos hp]
      exact List.mem_append_left _ hx
    · simp only [if_neg hp]
      exact hx

theorem readLines_calls_mono (packEvent : List String → Event α) (n : Nat)
    (lines : List (List String)) (x : ParamCall α) :
    ∀ st : ReadState α, x ∈ st.calls →
      x ∈ (lines.foldl (readLine packEvent n) st).calls := by
  induction lines with
  | nil => intro st h; exact h
  | cons l ls ih =>
    intro st h
    rw [List.foldl_cons]
    exact ih _ (readLine_calls_mono packEvent n st l x h)

theorem readLine_blank_seq (packEvent : List String → Event α) (n : Nat) (st : ReadState α) :
    (readLine packEvent n st []).seq = [] := by
  unfold readLine
  rw [if_pos rfl]
  cases st.train_data_map st.token_list <;> rfl

theorem readDevLine_blank_seq {β : Type} (packEvent : List String → Event β)
    (st : DevState β) :
    (readDevLine packEvent st []).seq = [] := by
  unfold readDevLine
  rw [if_pos rfl]
  cases st.dev_data_map st.token_list <;> rfl

theorem readLines_seq_after_break (packEvent : List String → Event α) (n : Nat)
    (pre : List (List String)) (hpre : pre = [] ∨ ∃ p, pre = p ++ [[]]) (st : ReadState α)
    (hst : st.seq = []) : (pre.foldl (readLine packEvent n) st).seq = [] := by
  rcases hpre with h | ⟨p, h⟩
  · subst h
    exact hst
  · subst h
    rw [List.foldl_append, List.foldl_cons, List.foldl_nil]
    exact readLine_blank_seq packEvent n _

theorem readDevLine_nonblank {β : Type} (packEvent : List String → Event β)
    (st : DevState β) (tokens : List String) (h : tokens ≠ []) :
    readDevLine packEvent st tokens =
      { seq := st.seq ++ [packEvent tokens]
        m_DevSet := st.m_DevSet
        m_DevSetCount := st.m_DevSetCount
        dev_data_map := st.dev_data_map
        token_list := st.token_list ++ [tokens]
        prev_label := tokens.headD ""
        count := st.count } := by
  unfold readDevLine
  rw [if_neg h]

theorem readDevLines_nonblank {β : Type} (packEvent : List String → Event β)
    (tail : List (List String)) (htail : ∀ l ∈ tail, l ≠ []) :
    ∀ st : DevState β,
      (tail.foldl (readDevLine packEvent) st).m_DevSet = st.m_DevSet ∧
      (tail.foldl (readDevLine packEvent) st).m_DevSetCount = st.m_DevSetCount ∧
      (tail.foldl (readDevLine packEvent) st).count = st.count ∧
      (tail.foldl (readDevLine packEvent) st).seq = st.seq ++ tail.map packEvent := by
  induction tail with
  | nil => intro st; simp
  | cons l ls ih =>
    intro st
    have hl : l ≠ [] := htail l (List.mem_cons_self _ _)
    obtain ⟨h1, h2, h3, h4⟩ :=
      ih (fun x hx => htail x (List.mem_cons_of_mem _ hx)) (readDevLine packEvent st l)
    rw [List.foldl_cons, h1, h2, h3, h4, readDevLine_nonblank packEvent st l hl]
    simp

theorem readDevLines_seq_after_break {β : Type} (packEvent : List String → Event β)
    (pre : List (List String)) (hpre : pre = [] ∨ ∃ p, pre = p ++ [[]]) (st : DevState β)
    (hst : st.seq = []) : (pre.foldl (readDevLine packEvent) st).seq = [] := by
  rcases hpre with h | ⟨p, h⟩
  · subst h
    exact hst
  · subst h
    rw [List.foldl_append, List.foldl_cons, List.foldl_nil]
    exact readDevLine_blank_seq packEvent _

theorem readLines_prev_label (packEvent : List String → Event α) (n : Nat)
    (l : List (List String)) (a : List String) (ha : a ≠ []) (st : ReadState α) :
    ((l ++ [a]).foldl (readLine packEvent n) st).prev_label = a.headD "" := by
  rw [List.foldl_append, List.foldl_cons, List.foldl_nil, readLine_nonblank packEvent n _ a ha]

/-- The transition observation of two consecutive non-blank lines is registered, whatever
follows them. -/
theorem readLines_transition_call (packEvent : List String → Event α) (n : Nat)
    (l : List (List String)) (a b : List String) (t2 : List (List String))
    (ha : a ≠ []) (hb : b ≠ []) (hne : a.headD "" ≠ "") (st : ReadState α) :
    ParamCall.addNewObs ("@" ++ a.headD "") ∈
      ((l ++ a :: b :: t2).foldl (readLine packEvent n) st).calls := by
  have e : l ++ a :: b :: t2 = (l ++ [a]) ++ b :: t2 := by simp
  rw [e, List.foldl_append, List.foldl_cons]
  apply readLines_calls_mono
  rw [readLine_nonblank packEvent n _ b hb]
  simp only [readLines_prev_label packEvent n l a ha st]
  rw [if_pos hne]
  apply List.mem_append_right
  exact List.mem_cons_self _ _

theorem mem_registerLabels {β : Type} (tokenizeColon : String → List String)
    (lines : List (List String)) (l : List String) (hl : l ∈ lines) (hne : l ≠ []) :
    (ParamCall.addNewState (registeredLabel tokenizeColon (l.headD "")) : ParamCall β) ∈
      registerLabels tokenizeColon lines := by
  unfold registerLabels
  apply List.mem_filterMap.mpr
  refine ⟨l, hl, ?_⟩
  cases l with
  | nil => exact absurd rfl hne
  | cons f r => rfl

/-- C27. A sequence is stored only when a blank line follows it. For an input
`pre ++ tail` of `readTrainData` in which `pre` is empty or ends with a blank line and
`tail` is a non-empty run of non-blank lines, the final sequence stays in the local `seq`:
`m_TrainSet`, `m_TrainSetCount` and `count` are what reading `pre` alone gives. The labels
of the lines of `tail` and the `@` observations of its consecutive lines have been
registered in the parameter table. `readDevData` drops the final sequence the same way. -/
theorem final_sequence_dropped (tokenizeColon : String → List String)
    (packEvent : List String → Event α) (n : Nat) (pre tail : List (List String))
    (hpre : pre = [] ∨ ∃ p, pre = p ++ [[]]) (_hne : tail ≠ [])
    (htail : ∀ l ∈ tail, l ≠ []) :
    (readTrainData tokenizeColon packEvent n (pre ++ tail)).seq = tail.map packEvent ∧
    (readTrainData tokenizeColon packEvent n (pre ++ tail)).m_TrainSet =
      (readTrainData tokenizeColon packEvent n pre).m_TrainSet ∧
    (readTrainData tokenizeColon packEvent n (pre ++ tail)).m_TrainSetCount =
      (readTrainData tokenizeColon packEvent n pre).m_TrainSetCount ∧
    (readTrainData tokenizeColon packEvent n (pre ++ tail)).count =
      (readTrainData tokenizeColon packEvent n pre).count ∧
    (∀ l ∈ tail, ParamCall.addNewState (registeredLabel tokenizeColon (l.headD "")) ∈
      (readTrainData tokenizeColon packEvent n (pre ++ tail)).calls) ∧
    (∀ t1 a b t2, tail = t1 ++ a :: b :: t2 → a.headD "" ≠ "" →
      ParamCall.addNewObs ("@" ++ a.headD "") ∈
        (readTrainData tokenizeColon packEvent n (pre ++ tail)).calls) ∧
    (readDevData packEvent (pre ++ tail)).seq = tail.map packEvent ∧
    (readDevData packEvent (pre ++ tail)).m_DevSet = (readDevData packEvent pre).m_DevSet ∧
    (readDevData packEvent (pre ++ tail)).m_DevSetCount =
      (readDevData packEvent pre).m_DevSetCount ∧
    (readDevData packEvent (pre ++ tail)).count = (readDevData packEvent pre).count := by
  have key : ∀ calls : List (ParamCall α),
      let s := pre.foldl (readLine packEvent n)
        (⟨[], [], [], fun _ => none, [], "", 0, calls⟩ : ReadState α)
      s.seq = [] ∧ s.m_TrainSet = (readTrainData tokenizeColon packEvent n pre).m_TrainSet ∧
      s.m_TrainSetCount = (readTrainData tokenizeColon packEvent n pre).m_TrainSetCount ∧
      s.count = (readTrainData tokenizeColon packEvent n pre).count := by
    intro calls
    have h1 := readLines_inv packEvent n pre
      (⟨[], [], [], fun _ => none, [], "", 0, calls⟩ : ReadState α) []
      ⟨rfl, fun k => by simp [firstSeen], rfl, rfl, rfl, rfl⟩
    have h2 := readTrainData_inv tokenizeColon packEvent n pre
    refine ⟨readLines_seq_after_break packEvent n pre hpre _ rfl, ?_, ?_, ?_⟩
    · rw [h1.set_eq, h2.set_eq]
      rfl
    · rw [h1.count_eq, h2.count_eq]
      rfl
    · rw [h1.n_eq, h2.n_eq]
      rfl
  obtain ⟨k1, k2, k3, k4⟩ := key (registerLabels tokenizeColon (pre ++ tail))
  have hT := readLines_nonblank packEvent n tail htail
    (pre.foldl (readLine packEvent n)
      (⟨[], [], [], fun _ => none, [], "", 0, registerLabels tokenizeColon (pre ++ tail)⟩ :
        ReadState α))
  have hD := readDevLines_nonblank packEvent tail htail
    (pre.foldl (readDevLine packEvent) ⟨[], [], [], fun _ => none, [], "", 0⟩)
  have hD0 := readDevLines_seq_after_break packEvent pre hpre
    ⟨[], [], [], fun _ => none, [], "", 0⟩ rfl
  simp only [readTrainData, readDevData, List.foldl_append]
  refine ⟨?_, ?_, ?_, ?_, ?_, ?_, ?_, hD.1, hD.2.1, hD.2.2.1⟩
  · rw [hT.2.2.2, k1, List.nil_append]
  · rw [hT.1, k2]
    rfl
  · rw [hT.2.1, k3]
    rfl
  · rw [hT.2.2.1, k4]
    rfl
  · intro l hl
    rw [← List.foldl_append]
    apply readLines_calls_mono
    exact mem_registerLabels tokenizeColon (pre ++ tail) l
      (List.mem_append_right _ hl) (htail l hl)
  · intro t1 a b t2 ht hne
    rw [← List.foldl_append]
    have e : pre ++ tail = (pre ++ t1) ++ a :: b :: t2 := by
      rw [ht]
      simp
    have ha : a ≠ [] := htail a (by rw [ht]; simp)
    have hb : b ≠ [] := htail b (by rw [ht]; simp)
    rw [e]
    exact readLines_transition_call packEvent n (pre ++ t1) a b t2 ha hb hne _
  · rw [hD.2.2.2, hD0, List.nil_append]

theorem final_sequence_dropped_witness :
    (readTrainData (tokenizeOn ':') demoPackEvent 2
        ([["A", "x"], []] ++ [["B", "y"], ["A", "z"]])).m_TrainSet =
      (readTrainData (tokenizeOn ':') demoPackEvent 2 [["A", "x"], []]).m_TrainSet :=
  (final_sequence_dropped (tokenizeOn ':') demoPackEvent 2 [["A", "x"], []]
    [["B", "y"], ["A", "z"]] (Or.inr ⟨[["A", "x"]], rfl⟩) (by decide) (by decide)).2.1

/-! ## Empty sequences -/

theorem occurrences_cons {β : Type} [DecidableEq β] (b x : β) (l : List β) :
    occurrences b (x :: l) = (if x = b then 1 else 0) + occurrences b l := by
  simp only [occurrences, List.filter_cons]
  by_cases h : x = b
  · simp [h, Nat.add_comm]
  · simp [h]

/-- The empty token matrices among the terminated sequences are counted by the blank
lines that follow a blank line or begin the input. -/
theorem occurrences_blocksFrom (lines : List (List String)) :
    ∀ (cur : List (List String)) (prev : List String), (cur = [] ↔ prev = []) →
      occurrences [] (blocksFrom cur lines) =
        (((prev :: lines).zip lines).filter
          (fun p => decide (p.1 = [] ∧ p.2 = []))).length := by
  induction lines with
  | nil => intro cur prev _; rfl
  | cons l ls ih =>
    intro cur prev h
    rw [List.zip_cons_cons, List.filter_cons]
    by_cases hl : l = []
    · subst hl
      have e : blocksFrom cur ([] :: ls) = cur :: blocksFrom [] ls := by
        simp [blocksFrom]
      rw [e, occurrences_cons, ih [] [] ⟨fun _ => rfl, fun _ => rfl⟩]
      by_cases hc : cur = []
      · have hp : prev = [] := h.mp hc
        simp [hc, hp, Nat.add_comm]
      · have hp : ¬ prev = [] := fun e => hc (h.mpr e)
        simp [hc, hp]
    · have e : blocksFrom cur (l :: ls) = blocksFrom (cur ++ [l]) ls := by
        simp [blocksFrom, hl]
      rw [e, ih (cur ++ [l]) l (by simp [hl])]
      simp [hl]

theorem occurrences_blocks (lines : List (List String)) :
    occurrences [] (blocks lines) = emptyBreaks lines :=
  occurrences_blocksFrom lines [] [] ⟨fun _ => rfl, fun _ => rfl⟩

theorem blocksFrom_append (a rest : List (List String)) :
    ∀ cur, ∃ pre cur2, blocksFrom cur (a ++ rest) = pre ++ blocksFrom cur2 rest := by
  induction a with
  | nil => intro cur; exact ⟨[], cur, rfl⟩
  | cons l ls ih =>
    intro cur
    by_cases hl : l = []
    · obtain ⟨pre, cur2, h⟩ := ih []
      refine ⟨cur :: pre, cur2, ?_⟩
      have e : blocksFrom cur (l :: ls ++ rest) = cur :: blocksFrom [] (ls ++ rest) := by
        simp [blocksFrom, hl]
      rw [e, h]
      rfl
    · obtain ⟨pre, cur2, h⟩ := ih (cur ++ [l])
      refine ⟨pre, cur2, ?_⟩
      have e : blocksFrom cur (l :: ls ++ rest) = blocksFrom (cur ++ [l]) (ls ++ rest) := by
        simp [blocksFrom, hl]
      rw [e, h]

/-- An input that begins with a blank line or has two blank lines in a row has an empty
token matrix among its terminated sequences. -/
theorem nil_mem_blocks (lines : List (List String))
    (h : (∃ rest, lines = [] :: rest) ∨ ∃ a b, lines = a ++ [] :: [] :: b) :
    [] ∈ blocks lines := by
  rcases h with ⟨rest, h⟩ | ⟨a, b, h⟩
  · subst h
    simp [blocks, blocksFrom]
  · subst h
    obtain ⟨pre, cur2, e⟩ := blocksFrom_append a ([] :: [] :: b) []
    unfold blocks
    rw [e]
    apply List.mem_append_right
    simp [blocksFrom]

theorem getElem?_posOf {β : Type} [DecidableEq β] (b : β) (l : List β) (h : b ∈ l) :
    l[posOf b l]? = some b := by
  induction l with
  | nil => simp at h
  | cons k ks ih =>
    by_cases hk : k = b
    · simp [posOf, hk]
    · have hb : b ∈ ks := by
        rcases List.mem_cons.mp h with e | e
        · exact absurd e.symm hk
        · exact e
      simp [posOf, hk, ih hb]

theorem nodup_getElem?_inj {β : Type} (l : List β) (hnd : l.Nodup) (i j : Nat) (b : β)
    (hi : l[i]? = some b) (hj : l[j]? = some b) : i = j := by
  obtain ⟨hi1, hi2⟩ := List.getElem?_eq_some_iff.mp hi
  obtain ⟨hj1, hj2⟩ := List.getElem?_eq_some_iff.mp hj
  exact (List.Nodup.getElem_inj_iff hnd).mp (hi2.trans hj2.symm)

theorem size_t_sub_one_two (w : Nat) (hw : 1 ≤ w) : size_t_sub w 1 2 = 2 ^ w - 1 := by
  have h2 : 2 ≤ 2 ^ w := by
    calc 2 = 2 ^ 1 := rfl
      _ ≤ 2 ^ w := Nat.pow_le_pow_right (by decide) hw
  unfold size_t_sub
  by_cases h : 2 < 2 ^ w
  · rw [Nat.mod_eq_of_lt h, Nat.mod_eq_of_lt (by omega)]
    omega
  · have e : 2 ^ w = 2 := by omega
    rw [e]

/-- C28. Blank lines can insert an empty sequence: for an input of `readTrainData` that
begins with a blank line or has two blank lines in a row, `m_TrainSet` holds exactly one
sequence of length `0`, and its count is the number of blank lines that begin the input or
directly follow a blank line. For that sequence `calculateFactors` sets `m_seq_size = 1`,
so the row index `m_seq_size - 2`, computed on the unsigned `size_t`, is `2^w - 1` and is
not below `m_seq_size`. -/
theorem empty_sequence_inserted (tokenizeColon : String → List String)
    (packEvent : List String → Event α) (n : Nat) (lines : List (List String))
    (h : (∃ rest, lines = [] :: rest) ∨ ∃ a b, lines = a ++ [] :: [] :: b)
    (exp : α → α) (P : Param α) (w : Nat) (hw : 1 ≤ w) :
    (∃ j, (readTrainData tokenizeColon packEvent n lines).m_TrainSet[j]? = some [] ∧
      (readTrainData tokenizeColon packEvent n lines).m_TrainSetCount[j]?
        = some (emptyBreaks lines) ∧
      ∀ (i : Nat) (s : List (Event α)),
        (readTrainData tokenizeColon packEvent n lines).m_TrainSet[i]? = some s →
        s.length = 0 → i = j) ∧
    (engineOf exp P []).m_seq_size = 1 ∧
    size_t_sub w (engineOf exp P []).m_seq_size 2 = 2 ^ w - 1 ∧
    (engineOf exp P []).m_seq_size ≤ size_t_sub w (engineOf exp P []).m_seq_size 2 := by
  obtain ⟨_, _, h3, h4, _, _⟩ := readTrainData_inv tokenizeColon packEvent n lines
  have hmem : [] ∈ firstSeen (blocks lines) :=
    (mem_firstSeen (blocks lines) []).mpr (nil_mem_blocks lines h)
  have hpos := getElem?_posOf [] (firstSeen (blocks lines)) hmem
  have hm : (engineOf exp P []).m_seq_size = 1 := rfl
  have h1 : 1 ≤ 2 ^ w - 1 := by
    have h2 : 2 ≤ 2 ^ w := by
      calc 2 = 2 ^ 1 := rfl
        _ ≤ 2 ^ w := Nat.pow_le_pow_right (by decide) hw
    omega
  refine ⟨⟨posOf [] (firstSeen (blocks lines)), ?_, ?_, ?_⟩, hm, ?_, ?_⟩
  · rw [h3, List.getElem?_map, hpos]
    rfl
  · rw [h4, List.getElem?_map, hpos, ← occurrences_blocks]
    rfl
  · intro i s hs hlen
    rw [h3, List.getElem?_map] at hs
    cases hb : (firstSeen (blocks lines))[i]? with
    | none => rw [hb] at hs; exact absurd hs (by simp)
    | some b =>
      rw [hb] at hs
      have hs2 : b.map packEvent = s := by simpa using hs
      have hb0 : b = [] := by
        have : b.length = 0 := by rw [← hlen, ← hs2, List.length_map]
        exact List.length_eq_zero.mp this
      rw [hb0] at hb
      exact nodup_getElem?_inj _ (firstSeen_nodup _) i _ [] hb hpos
  · rw [hm]
    exact size_t_sub_one_two w hw
  · rw [hm, size_t_sub_one_two w hw]
    exact h1

theorem empty_sequence_inserted_witness :
    ∃ j, (readTrainData (tokenizeOn ':') demoPackEvent 2
        [[], ["A", "x"], [], [], []]).m_TrainSet[j]? = some [] ∧
      (readTrainData (tokenizeOn ':') demoPackEvent 2
        [[], ["A", "x"], [], [], []]).m_TrainSetCount[j]?
        = some (emptyBreaks [[], ["A", "x"], [], [], []]) ∧
      ∀ (i : Nat) (s : List (Event ℚ)), (readTrainData (tokenizeOn ':') demoPackEvent 2
          [[], ["A", "x"], [], [], []]).m_TrainSet[i]? = some s →
        s.length = 0 → i = j :=
  (empty_sequence_inserted (tokenizeOn ':') demoPackEvent 2 [[], ["A", "x"], [], [], []]
    (Or.inl ⟨_, rfl⟩) (fun x => x) (demoParam 0) 64 (by decide)).1

/-! ## The convergence test -/

theorem convergeAt_eq (obj : Nat → α) (eta : α) (n : Nat) :
    convergeAt obj eta n =
      if belowAt obj eta n then (if n = 0 then 0 else convergeAt obj eta (n - 1)) + 1
      else 0 := by
  cases n with
  | zero => rfl
  | succ n => rfl

/-- The loop breaks at the first iteration whose `converge` is `3`. -/
theorem convergenceLoopFrom_eq (obj : Nat → α) (eta : α) (n : Nat) :
    ∀ (left niter : Nat) (old_obj : α) (converge : Nat),
      (niter ≠ 0 → old_obj = obj (niter - 1)) →
      converge = (if niter = 0 then 0 else convergeAt obj eta (niter - 1)) →
      (convergenceLoopFrom obj eta left niter old_obj converge = some n ↔
        niter ≤ n ∧ n < niter + left ∧ convergeAt obj eta n = 3 ∧
          ∀ m, niter ≤ m → m < n → convergeAt obj eta m ≠ 3) := by
  intro left
  induction left with
  | zero =>
    intro niter old_obj converge _ _
    simp only [convergenceLoopFrom]
    constructor
    · intro h
      exact absurd h (by simp)
    · rintro ⟨h1, h2, _⟩
      omega
  | succ left ih =>
    intro niter old_obj converge h1 h2
    have hd : diffBelow niter old_obj (obj niter) eta = belowAt obj eta niter := by
      unfold belowAt diffBelow
      by_cases h0 : niter = 0
      · rw [if_pos h0, if_pos h0]
      · rw [if_neg h0, if_neg h0, h1 h0]
    have hc : (if diffBelow niter old_obj (obj niter) eta = true then converge + 1 else 0)
        = convergeAt obj eta niter := by
      rw [hd, convergeAt_eq, h2]
    simp only [convergenceLoopFrom]
    rw [hc]
    by_cases h3 : convergeAt obj eta niter = 3
    · rw [if_pos h3]
      constructor
      · intro h
        have e : niter = n := Option.some.inj h
        subst e
        exact ⟨le_refl _, by omega, h3, fun m hm1 hm2 => by omega⟩
      · rintro ⟨h4, _, _, h7⟩
        by_cases e : niter = n
        · rw [e]
        · exact absurd h3 (h7 niter (le_refl _) (by omega))
    · rw [if_neg h3]
      rw [ih (niter + 1) (obj niter) (convergeAt obj eta niter) (fun _ => by simp)
        (by simp)]
      constructor
      · rintro ⟨h4, h5, h6, h7⟩
        refine ⟨by omega, by omega, h6, ?_⟩
        intro m hm1 hm2
        by_cases e : m = niter
        · rw [e]
          exact h3
        · exact h7 m (by omega) hm2
      · rintro ⟨h4, h5, h6, h7⟩
        have hne : niter ≠ n := by
          intro e
          rw [e] at h3
          exact h3 h6
        exact ⟨by omega, by omega, h6, fun m hm1 hm2 => h7 m (by omega) hm2⟩

theorem convergeAt_ge_iff (obj : Nat → α) (eta : α) (j k : Nat) :
    j + 1 ≤ convergeAt obj eta k ↔
      belowAt obj eta k = true ∧ (j = 0 ∨ (1 ≤ k ∧ j ≤ convergeAt obj eta (k - 1))) := by
  rw [convergeAt_eq]
  by_cases hb : belowAt obj eta k = true
  · rw [if_pos hb]
    by_cases h0 : k = 0
    · rw [if_pos h0]
      constructor
      · intro h
        exact ⟨hb, Or.inl (by omega)⟩
      · rintro ⟨_, h | h⟩ <;> omega
    · rw [if_neg h0]
      constructor
      · intro h
        exact ⟨hb, Or.inr ⟨by omega, by omega⟩⟩
      · rintro ⟨_, h | h⟩ <;> omega
  · rw [if_neg hb]
    constructor
    · intro h
      omega
    · rintro ⟨h, _⟩
      exact absurd h hb

theorem convergeAt_three_iff (obj : Nat → α) (eta : α) (n : Nat) :
    3 ≤ convergeAt obj eta n ↔
      2 ≤ n ∧ belowAt obj eta (n - 2) = true ∧ belowAt obj eta (n - 1) = true
        ∧ belowAt obj eta n = true := by
  rw [convergeAt_ge_iff obj eta 2 n]
  constructor
  · rintro ⟨h1, h | ⟨h2, h3⟩⟩
    · omega
    · rw [convergeAt_ge_iff obj eta 1 (n - 1)] at h3
      obtain ⟨h4, h | ⟨h5, h6⟩⟩ := h3
      · omega
      · rw [convergeAt_ge_iff obj eta 0 (n - 1 - 1)] at h6
        have e : n - 1 - 1 = n - 2 := by omega
        rw [e] at h6
        exact ⟨by omega, h6.1, h4, h1⟩
  · rintro ⟨h1, h2, h3, h4⟩
    refine ⟨h4, Or.inr ⟨by omega, ?_⟩⟩
    rw [convergeAt_ge_iff obj eta 1 (n - 1)]
    refine ⟨h3, Or.inr ⟨by omega, ?_⟩⟩
    rw [convergeAt_ge_iff obj eta 0 (n - 1 - 1)]
    have e : n - 1 - 1 = n - 2 := by omega
    rw [e]
    exact ⟨h2, Or.inl rfl⟩

theorem convergeAt_succ_le (obj : Nat → α) (eta : α) (n : Nat) :
    convergeAt obj eta (n + 1) ≤ convergeAt obj eta n + 1 := by
  rw [convergeAt_eq obj eta (n + 1)]
  split_ifs <;> simp

theorem convergeAt_zero_le (obj : Nat → α) (eta : α) : convergeAt obj eta 0 ≤ 1 := by
  show (if belowAt obj eta 0 = true then 0 + 1 else 0) ≤ 1
  split_ifs <;> simp

/-- Before the first iteration whose `converge` is `3`, `converge` is below `3`. -/
theorem convergeAt_lt_three (obj : Nat → α) (eta : α) (n : Nat)
    (h : ∀ m, m < n → convergeAt obj eta m ≠ 3) :
    ∀ m, m < n → convergeAt obj eta m < 3 := by
  intro m
  induction m with
  | zero =>
    intro _
    have := convergeAt_zero_le obj eta
    omega
  | succ m ih =>
    intro hm
    have h1 := ih (by omega)
    have h2 := convergeAt_succ_le obj eta m
    have h3 := h (m + 1) hm
    omega

theorem convergenceLoop_iff (obj : Nat → α) (eta : α) (max_iter n : Nat) :
    convergenceLoop obj eta max_iter = some n ↔
      n < max_iter ∧
      (2 ≤ n ∧ belowAt obj eta (n - 2) = true ∧ belowAt obj eta (n - 1) = true
        ∧ belowAt obj eta n = true) ∧
      ∀ m, m < n →
        ¬ (2 ≤ m ∧ belowAt obj eta (m - 2) = true ∧ belowAt obj eta (m - 1) = true
          ∧ belowAt obj eta m = true) := by
  unfold convergenceLoop
  rw [convergenceLoopFrom_eq obj eta n max_iter 0 (10 ^ 37) 0 (fun h => absurd rfl h) rfl]
  simp only [← convergeAt_three_iff]
  constructor
  · rintro ⟨_, h2, h3, h4⟩
    refine ⟨by omega, by omega, ?_⟩
    intro m hm
    have := convergeAt_lt_three obj eta n (fun k hk => h4 k (Nat.zero_le _) hk) m hm
    omega
  · rintro ⟨h1, h2, h3⟩
    refine ⟨Nat.zero_le _, by omega, ?_, fun m _ hm => by have := h3 m hm; omega⟩
    have h4 : convergeAt obj eta n ≤ 3 := by
      cases n with
      | zero =>
        have := convergeAt_zero_le obj eta
        omega
      | succ k =>
        have h5 := h3 k (by omega)
        have h6 := convergeAt_succ_le obj eta k
        omega
    omega

theorem belowAt_zero (obj : Nat → α) (eta : α) : belowAt obj eta 0 = true ↔ 1 < eta := by
  simp [belowAt, diffBelow]

theorem belowAt_succ (obj : Nat → α) (eta : α) (k : Nat) (hk : 1 ≤ k) :
    belowAt obj eta k = true ↔
      obj (k - 1) ≠ 0 ∧ |obj (k - 1) - obj k| / obj (k - 1) < eta := by
  unfold belowAt diffBelow
  rw [if_neg (by omega)]
  by_cases h0 : obj (k - 1) = 0
  · rw [if_pos h0]
    simp [h0]
  · rw [if_neg h0]
    simp [h0]

/-- After a zero objective the test fails: with the objective values `0, 1, 1, 1, …` and
`eta = 1/10` the loop breaks at iteration 4, not 3. -/
theorem convergenceLoop_zero_objective :
    convergenceLoop (fun n => if n = 0 then (0 : ℚ) else 1) (1 / 10) 10 = some 4 := by
  rw [convergenceLoop_iff]
  refine ⟨by decide, ⟨by decide, ?_, ?_, ?_⟩, ?_⟩
  · rw [belowAt_succ _ _ _ (by norm_num)]
    norm_num
  · rw [belowAt_succ _ _ _ (by norm_num)]
    norm_num
  · rw [belowAt_succ _ _ _ (by norm_num)]
    norm_num
  · intro m hm h
    have hm2 : m = 2 ∨ m = 3 := by omega
    rcases hm2 with rfl | rfl
    · have h0 := h.2.1
      rw [belowAt_zero] at h0
      norm_num at h0
    · have h0 := h.2.1
      rw [belowAt_succ _ _ _ (by norm_num)] at h0
      norm_num at h0

theorem headerLoop_eq (tokenize : String → List String) (rest : List String) (count : Nat)
    (line : String) :
    headerLoop tokenize rest count line =
      if line = "" ∨ line.data.head? = some '#' then
        if count = 1 ∧
            ((tokenize line).length < 2 ∨ (tokenize line).getD 1 "" ≠ "CRF") then
          HeaderResult.invalid
        else
          match rest with
          | [] => HeaderResult.streamEnded
          | l :: ls => headerLoop tokenize ls (count + 1) l
      else HeaderResult.load rest := by
  cases rest <;> rfl

/-- What `loadModel` does with a header none of whose lines carries the tag: it fails when
the header has at least two lines and goes on to `m_Param.load(f)` otherwise. -/
theorem loadModel_header (tokenize : String → List String) (header body : List String)
    (hh : ∀ l ∈ header, l = "" ∨ l.data.head? = some '#')
    (hno : ∀ l ∈ header, (tokenize l).length < 2 ∨ (tokenize l).getD 1 "" ≠ "CRF") :
    loadModel tokenize (header ++ ":" :: body) =
      if 2 ≤ header.length then HeaderResult.invalid else HeaderResult.load body := by
  have hs : ¬ (":" = "" ∨ (":" : String).data.head? = some '#') := by decide
  match header, hh, hno with
  | [], _, _ =>
    show headerLoop tokenize body 0 ":" = _
    rw [headerLoop_eq, if_neg hs]
    rfl
  | [l0], hh, _ =>
    have h0 := hh l0 (List.mem_cons_self _ _)
    show headerLoop tokenize (":" :: body) 0 l0 = _
    rw [headerLoop_eq, if_pos h0, if_neg (by simp)]
    show headerLoop tokenize body 1 ":" = _
    rw [headerLoop_eq, if_neg hs]
    rfl
  | l0 :: l1 :: more, hh, hno =>
    have h0 := hh l0 (List.mem_cons_self _ _)
    have h1 := hh l1 (List.mem_cons_of_mem _ (List.mem_cons_self _ _))
    have h2 := hno l1 (List.mem_cons_of_mem _ (List.mem_cons_self _ _))
    show headerLoop tokenize (l1 :: (more ++ ":" :: body)) 0 l0 = _
    rw [headerLoop_eq, if_pos h0, if_neg (by simp)]
    show headerLoop tokenize (more ++ ":" :: body) 1 l1 = _
    rw [headerLoop_eq, if_pos h1, if_pos ⟨rfl, h2⟩, if_pos (by simp)]

/-- C22 (counterexample). The model file with the lines `# model` and `:`
has a one-line header without the tag `CRF`; `loadModel` leaves the header loop without
having checked any line and goes on to `m_Param.load(f)`. With a second header line
before the sentinel, the same file is rejected. -/
theorem loadModel_short_header_unchecked :
    loadModel (tokenizeOn ' ') ["# model", ":"] = HeaderResult.load [] ∧
    (∀ l ∈ ["# model"], (tokenizeOn ' ' l).getD 1 "" ≠ "CRF") ∧
    loadModel (tokenizeOn ' ') [":"] = HeaderResult.load [] ∧
    loadModel (tokenizeOn ' ') ["# model", "# file", ":"] = HeaderResult.invalid := by
  decide

/-- C22. Validation of the model header: for a model file whose header (leading lines
that are empty or begin with `#`, ended by the sentinel line `:`) has no line whose second
token is `CRF`, `loadModel` returns `false` without loading the parameter table, provided
the header has at least two lines; the test is made on the second header line only. -/
theorem loadModel_rejects_untagged_header (tokenize : String → List String)
    (header body : List String)
    (hh : ∀ l ∈ header, l = "" ∨ l.data.head? = some '#')
    (hno : ∀ l ∈ header, (tokenize l).length < 2 ∨ (tokenize l).getD 1 "" ≠ "CRF")
    (hlen : 2 ≤ header.length) :
    loadModel tokenize (header ++ ":" :: body) = HeaderResult.invalid := by
  rw [loadModel_header tokenize header body hh hno, if_pos hlen]

theorem loadModel_rejects_untagged_header_witness :
    loadModel (tokenizeOn ' ') (["# model", "# file"] ++ ":" :: ["1 2"])
      = HeaderResult.invalid :=
  loadModel_rejects_untagged_header (tokenizeOn ' ') ["# model", "# file"] ["1 2"]
    (by decide) (by decide) (by decide)

end Engine

end TriCRF
